import Mathlib

/-!
# gills: verification of `cat`, `slice`, `choice` and `new`

A shallow embedding of `src/cat/main.go` (the escape scanner, the visual width
calculator, the line transformer, the visual wrapper and the render loop), of
`src/slice/main.go` (the bound parser and the slicer), of `src/choice/main.go`
(the weighted items and the unique pick) and of `src/new/main.go` (the
permission flags), and theorems about them.

Conventions of the embedding.

* A Go `string` is a list of bytes; a byte is a natural number below 256.
  Every definition is total on lists of arbitrary naturals, and a number of
  256 or more behaves like an invalid UTF-8 byte.
* Go `int` values (`width`, `tabWidth`, `visCol`) are integers.  The only
  additions the wrapper performs are `visCol + rw`; they are modelled without
  wrap-around, which is exact as long as the running column stays below `2^63`.
* A loop `for i < len(line)` over a string index is a function of the unread
  suffix `line[i:]`, with a fuel argument that bounds the number of iterations;
  the callers supply `len(line)`, which is enough because every iteration
  consumes at least one byte.
-/

namespace Gills

/-- A Go string. -/
abbrev Bytes := List Nat

/-! ## Library functions used by the program -/

/-- The value `utf8.RuneError`. -/
def RuneError : Nat := 0xFFFD

/-- The length of the encoding announced by a lead byte `0xC2..0xF4` (the low
bits of the library's `first` table). -/
def leadSize (s0 : Nat) : Nat := if s0 < 0xE0 then 2 else if s0 < 0xF0 then 3 else 4

/-- The lowest second byte accepted after a lead byte (the library's `acceptRanges`). -/
def acceptLo (s0 : Nat) : Nat := if s0 = 0xE0 then 0xA0 else if s0 = 0xF0 then 0x90 else 0x80

/-- The highest second byte accepted after a lead byte (the library's `acceptRanges`). -/
def acceptHi (s0 : Nat) : Nat := if s0 = 0xED then 0x9F else if s0 = 0xF4 then 0x8F else 0xBF

/-- The function `utf8.DecodeRuneInString` of the Go standard library: the first
code point of `s` and the number of bytes it takes.  Malformed input gives
`(RuneError, 1)`, the empty string `(RuneError, 0)`. -/
def decodeRune (s : Bytes) : Nat × Nat :=
  match s with
  | [] => (RuneError, 0)
  | s0 :: t =>
    if s0 < 0x80 then (s0, 1)
    else if s0 < 0xC2 ∨ 0xF4 < s0 then (RuneError, 1)
    else if s.length < leadSize s0 then (RuneError, 1)
    else
      match t with
      | [] => (RuneError, 1)
      | s1 :: t1 =>
        if s1 < acceptLo s0 ∨ acceptHi s0 < s1 then (RuneError, 1)
        else if leadSize s0 ≤ 2 then (((s0 &&& 0x1F) <<< 6) ||| (s1 &&& 0x3F), 2)
        else
          match t1 with
          | [] => (RuneError, 1)
          | s2 :: t2 =>
            if s2 < 0x80 ∨ 0xBF < s2 then (RuneError, 1)
            else if leadSize s0 ≤ 3 then
              (((s0 &&& 0x0F) <<< 12) ||| ((s1 &&& 0x3F) <<< 6) ||| (s2 &&& 0x3F), 3)
            else
              match t2 with
              | [] => (RuneError, 1)
              | s3 :: _ =>
                if s3 < 0x80 ∨ 0xBF < s3 then (RuneError, 1)
                else
                  (((s0 &&& 0x07) <<< 18) ||| ((s1 &&& 0x3F) <<< 12) |||
                    ((s2 &&& 0x3F) <<< 6) ||| (s3 &&& 0x3F), 4)

/-- The code points of a string, decoded front to back as a Go `range` loop or
`utf8.RuneCountInString` does (fuel: the number of bytes). -/
def runesLoop : Nat → Bytes → List Nat
  | 0, _ => []
  | fuel + 1, s =>
    if s = [] then []
    else (decodeRune s).1 :: runesLoop fuel (s.drop (decodeRune s).2)

/-- The code points of a string. -/
def runes (s : Bytes) : List Nat := runesLoop s.length s

/-- The function `utf8.RuneCountInString`: the number of code points of a string. -/
def runeCount (s : Bytes) : Nat := (runes s).length

/-- The function `unicode.IsSpace` of the Go standard library. -/
def isSpace (r : Nat) : Bool :=
  if r ≤ 0xFF then
    r = 0x09 ∨ r = 0x0A ∨ r = 0x0B ∨ r = 0x0C ∨ r = 0x0D ∨ r = 0x20 ∨ r = 0x85 ∨ r = 0xA0
  else
    r = 0x1680 ∨ (0x2000 ≤ r ∧ r ≤ 0x200A) ∨ r = 0x2028 ∨ r = 0x2029 ∨ r = 0x202F ∨
      r = 0x205F ∨ r = 0x3000

/-- Whether `strings.TrimSpace(s) == ""`: the library trims white-space code
points from both ends, and nothing is left exactly when every code point of `s`
is white space. -/
def trimSpaceIsEmpty (s : Bytes) : Bool := (runes s).all isSpace

/-- The call `strings.ReplaceAll(s, "\t", "^I")`: every byte 0x09 becomes the two
bytes `^` and `I`. -/
def replaceTabs : Bytes → Bytes
  | [] => []
  | b :: rest => if b = 0x09 then 0x5E :: 0x49 :: replaceTabs rest else b :: replaceTabs rest

/-! ## Escape scanner (`src/cat/main.go`, lines 316-327 and 386-396) -/

/-- The test `line[i] == '\x1b' && i+1 < len(line) && line[i+1] == '['` on the
unread suffix `line[i:]`. -/
def isCSI (s : Bytes) : Bool :=
  match s with
  | a :: b :: _ => a = 0x1b ∧ b = 0x5b
  | _ => false

/-- The inner loop `for j < len(line) && (line[j] < 0x40 || line[j] > 0x7e) { j++ }`
followed by `if j < len(line) { j++ }`, started at `j = i + 2` on the suffix
`line[i+2:]`: it returns `line[i+2:j]` and `line[j:]`. -/
def scanEscape : Bytes → Bytes × Bytes
  | [] => ([], [])
  | b :: rest =>
    if b < 0x40 ∨ b > 0x7e then ((b :: (scanEscape rest).1), (scanEscape rest).2)
    else ([b], rest)

/-! ## Visual width calculator (`runeVisualWidth`) -/

/-- The function `runeVisualWidth`; Go's `%` is the truncated remainder. -/
def runeVisualWidth (r : Int) (col tabWidth : Int) : Int :=
  if r = 0x09 then
    let tabWidth := if tabWidth ≤ 0 then 8 else tabWidth
    tabWidth - Int.tmod col tabWidth
  else if r < 0x20 ∨ r = 0x7f then 0
  else if r ≥ 0x1100 ∧
      (r ≤ 0x115f ∨ r = 0x2329 ∨ r = 0x232a ∨
        (r ≥ 0x2e80 ∧ r ≤ 0xa4cf ∧ r ≠ 0x303f) ∨
        (r ≥ 0xac00 ∧ r ≤ 0xd7a3) ∨
        (r ≥ 0xf900 ∧ r ≤ 0xfaff) ∨
        (r ≥ 0xfe10 ∧ r ≤ 0xfe19) ∨
        (r ≥ 0xfe30 ∧ r ≤ 0xfe6f) ∨
        (r ≥ 0xff00 ∧ r ≤ 0xff60) ∨
        (r ≥ 0xffe0 ∧ r ≤ 0xffe6) ∨
        (r ≥ 0x1b000 ∧ r ≤ 0x1b001) ∨
        (r ≥ 0x1f300 ∧ r ≤ 0x1f64f) ∨
        (r ≥ 0x1f900 ∧ r ≤ 0x1f9ff) ∨
        (r ≥ 0x20000 ∧ r ≤ 0x2fffd) ∨
        (r ≥ 0x30000 ∧ r ≤ 0x3fffd)) then 2
  else 1

/-! ## Visual wrapper (`wrapLineVisual`) -/

/-- The main loop of `wrapLineVisual` on the unread suffix `rest = line[i:]`, with
the slice `result`, the builder `cur` and the column `visCol` as state; it
returns `result` and `cur` as they are when the loop ends. -/
def wrapLoop (width tabWidth : Int) : Nat → Bytes → List Bytes → Bytes → Int → List Bytes × Bytes
  | 0, _, result, cur, _ => (result, cur)
  | fuel + 1, rest, result, cur, visCol =>
    if rest = [] then (result, cur)
    else if isCSI rest then
      wrapLoop width tabWidth fuel (scanEscape (rest.drop 2)).2 result
        (cur ++ (0x1b :: 0x5b :: (scanEscape (rest.drop 2)).1)) visCol
    else
      let r := (decodeRune rest).1
      let size := (decodeRune rest).2
      let rw := runeVisualWidth r visCol tabWidth
      if visCol + rw > width ∧ visCol > 0 then
        wrapLoop width tabWidth fuel (rest.drop size) (result ++ [cur]) (rest.take size) (0 + rw)
      else
        wrapLoop width tabWidth fuel (rest.drop size) result (cur ++ rest.take size) (visCol + rw)

/-- The function `wrapLineVisual`. -/
def wrapLineVisual (line : Bytes) (width tabWidth : Int) : List Bytes :=
  if width ≤ 0 then [line]
  else
    let st := wrapLoop width tabWidth line.length line [] [] 0
    let result := if st.2.length > 0 then st.1 ++ [st.2] else st.1
    if result.length = 0 then [[]] else result

/-! ## Escape stripping and the end marker -/

/-- The loop of `stripANSI` on the unread suffix `s[i:]`, with the builder `b`. -/
def stripLoop : Nat → Bytes → Bytes → Bytes
  | 0, _, b => b
  | fuel + 1, s, b =>
    match s with
    | [] => b
    | c :: t =>
      if isCSI s then stripLoop fuel (scanEscape (s.drop 2)).2 b
      else stripLoop fuel t (b ++ [c])

/-- The function `stripANSI`. -/
def stripANSI (s : Bytes) : Bytes := stripLoop s.length s []

/-- The function `appendBeforeTrailingReset`, backward scan: `k` is `j + 1`; the
result is the `j` at which `for j >= 0 && line[j] != '\x1b' { j-- }` stops, or
`none` when it stops at `j = -1`. -/
def scanBack (line : Bytes) : Nat → Option Nat
  | 0 => none
  | k + 1 => if line.get? k ≠ some 0x1b then scanBack line k else some k

/-- The function `appendBeforeTrailingReset`. -/
def appendBeforeTrailingReset (line insert : Bytes) : Bytes :=
  if line.length = 0 then insert
  else if line.get? (line.length - 1) = some 0x6d then
    match scanBack line (line.length - 1) with
    | some j =>
      if j + 1 < line.length ∧ line.get? (j + 1) = some 0x5b then line.take j ++ insert ++ line.drop j
      else line ++ insert
    | none => line ++ insert
  else line ++ insert

/-! ## Render loop (`catReader`, lines 238-301) -/

/-- The flags read by the render loop, with `useColor` and the resolved
`wrapWidth` (the flag, or the terminal width when the flag is not positive). -/
structure Flags where
  flagNumber : Bool
  flagNumberNonblank : Bool
  flagShowEnds : Bool
  flagShowTabs : Bool
  flagSqueezeBlank : Bool
  flagWrap : Bool
  flagTabs : Int
  useColor : Bool
  wrapWidth : Int

/-- Decimal digits of `u`, as `fmt` produces them: the last digit is written
first and the loop runs while `u >= 10`. -/
def decimalLoop : Nat → Nat → Bytes → Bytes
  | 0, u, buf => (0x30 + u % 10) :: buf
  | fuel + 1, u, buf =>
    if u ≥ 10 then decimalLoop fuel (u / 10) ((0x30 + u % 10) :: buf)
    else (0x30 + u) :: buf

/-- The text of `fmt.Sprintf("%d", n)` for `n ≥ 0`. -/
def decimal (n : Nat) : Bytes := decimalLoop n n []

/-- The text of `fmt.Sprintf("%*d", w, n)` for `n ≥ 0`: the decimal digits padded
with spaces to `w` columns, on the left, or on the right when `w` is negative. -/
def padDecimal (w : Int) (n : Nat) : Bytes :=
  if w < 0 then decimal n ++ List.replicate ((-w).toNat - (decimal n).length) 0x20
  else List.replicate (w.toNat - (decimal n).length) 0x20 ++ decimal n

/-- The value `numWidth` of `catReader`. -/
def numWidthOf (f : Flags) (totalLines : Nat) : Int :=
  if f.flagNumber ∨ f.flagNumberNonblank then ((decimal totalLines).length : Int) + 1 else 0

/-- The row printed for the first segment `l` of a numbered line (without the
final newline): `"\x1b[2;37m%*d\x1b[0m %s"` with colour, `"%*d %s"` without. -/
def numberedRow (f : Flags) (numWidth : Int) (lineNum : Nat) (l : Bytes) : Bytes :=
  if f.useColor then
    [0x1b, 0x5b, 0x32, 0x3b, 0x33, 0x37, 0x6d] ++ padDecimal (numWidth - 1) lineNum ++
      [0x1b, 0x5b, 0x30, 0x6d] ++ [0x20] ++ l
  else padDecimal (numWidth - 1) lineNum ++ [0x20] ++ l

/-- The row printed for segment `j` of a line (the `switch` of lines 284-299),
without the final newline. -/
def emitRow (f : Flags) (numWidth : Int) (printNum : Bool) (lineNum : Nat) (j : Nat)
    (l : Bytes) : Bytes :=
  if printNum ∧ j = 0 then numberedRow f numWidth lineNum l
  else if (f.flagNumber ∨ f.flagNumberNonblank) ∧ j = 0 then
    List.replicate numWidth.toNat 0x20 ++ l
  else if numWidth > 0 ∧ j > 0 then List.replicate numWidth.toNat 0x20 ++ l
  else l

/-- What one iteration of the render loop that is not skipped produces: the
logical line, whether it is numbered, the value of `lineNum` after the
iteration's increment, the wrapped segments and the rows written for them. -/
structure Emitted where
  line : Bytes
  printNum : Bool
  lineNum : Nat
  segments : List Bytes
  rows : List Bytes
deriving DecidableEq, Repr

/-- The blank test of the render loop: `strings.TrimSpace(stripANSI(line)) == ""`. -/
def isBlank (line : Bytes) : Bool := trimSpaceIsEmpty (stripANSI line)

/-- The tab transformation of lines 266-269: `displayLine` after the `flagShowTabs` step. -/
def tabbedLineOf (f : Flags) (line : Bytes) : Bytes :=
  if f.flagShowTabs then replaceTabs line else line

/-- The line transformation of lines 266-272: `displayLine` after the
`flagShowTabs` and the `flagShowEnds` steps. -/
def displayLineOf (f : Flags) (line : Bytes) : Bytes :=
  if f.flagShowEnds then appendBeforeTrailingReset (tabbedLineOf f line) [0x24]
  else tabbedLineOf f line

/-- The segments of lines 274-279. -/
def outputLinesOf (f : Flags) (numWidth : Int) (displayLine : Bytes) : List Bytes :=
  if f.flagWrap ∧ numWidth < f.wrapWidth then
    wrapLineVisual displayLine (f.wrapWidth - numWidth) f.flagTabs
  else [displayLine]

/-- The loop `for _, line := range lines` of `catReader` with the state
`lineNum`, `prevBlank`; a skipped line (`continue`) produces nothing. -/
def catLoop (f : Flags) (numWidth : Int) : List Bytes → Nat → Bool → List Emitted
  | [], _, _ => []
  | line :: rest, lineNum, prevBlank =>
    if f.flagSqueezeBlank ∧ isBlank line ∧ prevBlank then catLoop f numWidth rest lineNum prevBlank
    else
      let printNum : Bool := f.flagNumber || (f.flagNumberNonblank && !isBlank line)
      let lineNum := if printNum then lineNum + 1 else lineNum
      let outputLines := outputLinesOf f numWidth (displayLineOf f line)
      { line := line, printNum := printNum, lineNum := lineNum, segments := outputLines,
        rows := outputLines.enum.map (fun p => emitRow f numWidth printNum lineNum p.1 p.2) } ::
        catLoop f numWidth rest lineNum (isBlank line)

/-- The render loop of `catReader` on the logical lines of one input. -/
def catLines (f : Flags) (lines : List Bytes) : List Emitted :=
  catLoop f (numWidthOf f lines.length) lines 0 false

/-- The bytes written to the output: every row followed by a newline. -/
def outputOf (es : List Emitted) : Bytes :=
  (es.flatMap (fun e => e.rows)).flatMap (fun row => row ++ [0x0a])

/-! ## Tokens

The scan that `wrapLineVisual` performs at lines 315-341, taken apart from the
wrap decision: at the read position either an escape sequence (`ESC [` up to and
including the first byte in `0x40..0x7e`, or up to the end of the line) or one
decoded code point. -/

/-- A token of a line. -/
inductive Token where
  | esc (bytes : Bytes)
  | text (r : Nat) (bytes : Bytes)
deriving DecidableEq, Repr

/-- The bytes of a token. -/
def Token.bytes : Token → Bytes
  | .esc b => b
  | .text _ b => b

/-- Whether a token is a Text token. -/
def Token.isText : Token → Bool
  | .esc _ => false
  | .text _ _ => true

/-- The bytes of a list of tokens. -/
def bytesOf (ts : List Token) : Bytes := ts.flatMap Token.bytes

/-- The token at the start of the non-empty suffix `rest` and the suffix after it. -/
def nextToken (rest : Bytes) : Token × Bytes :=
  if isCSI rest then
    (.esc (0x1b :: 0x5b :: (scanEscape (rest.drop 2)).1), (scanEscape (rest.drop 2)).2)
  else
    (.text (decodeRune rest).1 (rest.take (decodeRune rest).2), rest.drop (decodeRune rest).2)

/-- The tokens of a suffix (fuel: the number of bytes). -/
def tokensLoop : Nat → Bytes → List Token
  | 0, _ => []
  | fuel + 1, rest =>
    if rest = [] then [] else (nextToken rest).1 :: tokensLoop fuel (nextToken rest).2

/-- The tokens of a line. -/
def tokens (line : Bytes) : List Token := tokensLoop line.length line

/-- The wrap decisions of `wrapLineVisual` on a list of tokens: `result` and `cur`
hold the tokens of the finished segments and of the current one. -/
def groupToks (width tabWidth : Int) :
    List Token → List (List Token) → List Token → Int → List (List Token) × List Token
  | [], result, cur, _ => (result, cur)
  | .esc b :: ts, result, cur, visCol =>
    groupToks width tabWidth ts result (cur ++ [.esc b]) visCol
  | .text r b :: ts, result, cur, visCol =>
    if visCol + runeVisualWidth r visCol tabWidth > width ∧ visCol > 0 then
      groupToks width tabWidth ts (result ++ [cur]) [.text r b]
        (0 + runeVisualWidth r visCol tabWidth)
    else
      groupToks width tabWidth ts result (cur ++ [.text r b])
        (visCol + runeVisualWidth r visCol tabWidth)

/-! ## The wide table of the specification -/

/-- The East-Asian-Wide inclusive ranges listed in the specification (§4.2). -/
def eastAsianWideRanges : List (Int × Int) :=
  [(0x1100, 0x115F), (0x2329, 0x2329), (0x232A, 0x232A), (0x2E80, 0xA4CF), (0xAC00, 0xD7A3),
   (0xF900, 0xFAFF), (0xFE10, 0xFE19), (0xFE30, 0xFE6F), (0xFF00, 0xFF60), (0xFFE0, 0xFFE6),
   (0x1B000, 0x1B001), (0x1F300, 0x1F64F), (0x1F900, 0x1F9FF), (0x20000, 0x2FFFD),
   (0x30000, 0x3FFFD)]

/-- Membership in the East-Asian-Wide set of the specification: in one of the
listed ranges, U+303F excluded. -/
def isEastAsianWide (r : Int) : Bool :=
  r ≠ 0x303F ∧ eastAsianWideRanges.any (fun p => p.1 ≤ r ∧ r ≤ p.2)

/-- A control code point: below 0x20 or equal to 0x7F. -/
def isControl (r : Int) : Bool := r < 0x20 ∨ r = 0x7f

/-! ## Auxiliary notions used in the proofs -/

/-- A decoding result other than the error result `(RuneError, 1)`. -/
def ValidDecode (s : Bytes) (r k : Nat) : Prop :=
  decodeRune s = (r, k) ∧ 1 ≤ k ∧ k ≤ s.length ∧
    (∀ i, 1 ≤ i → i < k → 0x80 ≤ s.getD i 0) ∧
    (k = 1 → s.getD 0 0 < 0x80) ∧
    ∀ s' : Bytes, s'.take k = s.take k → decodeRune s' = (r, k)

/-- The token groups of the segments that `wrapLineVisual` returns for a
positive width (before the replacement of an empty result by one empty segment). -/
def segGroups (width tabWidth : Int) (line : Bytes) : List (List Token) :=
  if (groupToks width tabWidth (tokens line) [] [] 0).2 = [] then
    (groupToks width tabWidth (tokens line) [] [] 0).1
  else
    (groupToks width tabWidth (tokens line) [] [] 0).1 ++
      [(groupToks width tabWidth (tokens line) [] [] 0).2]

/-- A Text token that is a validly encoded code point other than ESC (an escape
token always qualifies): the decoder did not reject its byte, and it is not the
byte 0x1b. -/
def Token.wellFormed : Token → Bool
  | .esc _ => true
  | .text r b => r ≠ 0x1b ∧ ¬ (r = RuneError ∧ b.length = 1)

/-- A line all of whose Text tokens are validly encoded code points other than ESC. -/
def TextWellFormed (line : Bytes) : Prop := ∀ t ∈ tokens line, t.wellFormed = true

instance (line : Bytes) : Decidable (TextWellFormed line) := by
  unfold TextWellFormed; infer_instance

/-- What the tab transformation does to a token when no escape token holds a
TAB: the Text token TAB becomes the two Text tokens `^` and `I`, every other
token stays. -/
def showTabToken (t : Token) : List Token :=
  if t = .text 0x09 [0x09] then [.text 0x5E [0x5E], .text 0x49 [0x49]] else [t]

/-- A token that is not an escape token with a TAB byte in it. -/
def Token.tabFree : Token → Bool
  | .esc e => e.all (fun b => b ≠ 0x09)
  | .text _ _ => true

/-- The logical lines that the render loop keeps when squeeze-blank is on, as a
function of the lines and of `prevBlank` alone. -/
def squeezeLines : List Bytes → Bool → List Bytes
  | [], _ => []
  | l :: rest, prevBlank =>
    if isBlank l ∧ prevBlank then squeezeLines rest prevBlank
    else l :: squeezeLines rest (isBlank l)

/-- Squeeze-blank as the specification words it: the lines are cut into maximal
runs of consecutive blank lines (a non-blank line is a run of its own) and every
run is replaced by its first line. -/
def collapseBlankRuns (lines : List Bytes) : List Bytes :=
  (lines.splitBy (fun a b => isBlank a && isBlank b)).filterMap List.head?

/-- The tab width that `runeVisualWidth` uses: 8 when `tabWidth` is not positive. -/
def effectiveTab (tabWidth : Int) : Int := if tabWidth ≤ 0 then 8 else tabWidth

/-- The total visual width of a list of tokens laid out from column `visCol`
without wrapping: the value of `visCol` after the last token when no segment is
ever flushed. -/
def lineWidth (tabWidth : Int) : List Token → Int → Int
  | [], visCol => visCol
  | .esc _ :: ts, visCol => lineWidth tabWidth ts visCol
  | .text r _ :: ts, visCol => lineWidth tabWidth ts (visCol + runeVisualWidth r visCol tabWidth)

/-! ## slice (`src/slice/main.go`)

Go `uint64` values are natural numbers below `2^64`; the increment `n+1` and the
products `n * mult` wrap around modulo `2^64`.  The conversion `int(n)` of a
`uint64` reinterprets the 64 bits as a signed number. -/

/-- The bytes of an ASCII string literal. -/
def str (s : String) : Bytes := s.toList.map Char.toNat

/-- The type `Kind`. -/
inductive Kind where
  | k_char
  | k_line
  | k_byte
  | k_word
deriving DecidableEq, Repr

/-- The type `Bound`. -/
structure Bound where
  kind : Kind
  n : Nat
  isEnd : Bool
deriving DecidableEq, Repr

/-- The conversion `int(n)` of a `uint64`. -/
def intOfUint64 (n : Nat) : Int :=
  if n % 2 ^ 64 < 2 ^ 63 then ((n % 2 ^ 64 : Nat) : Int) else ((n % 2 ^ 64 : Nat) : Int) - 2 ^ 64

/-- The loop of the `k_char` case of `start_offset` on the unread suffix `s[i:]`:
`some i` for `return i`, `none` when the loop ends. -/
def charLoop : Nat → Bytes → Nat → Nat → Nat → Option Nat
  | 0, _, _, _, _ => none
  | fuel + 1, rest, i, count, n =>
    if rest = [] then none
    else if count = n then some i
    else charLoop fuel (rest.drop (decodeRune rest).2) (i + (decodeRune rest).2) (count + 1) n

/-- The loop of the `k_word` case of `start_offset`. -/
def wordLoop : Nat → Bytes → Nat → Nat → Bool → Nat → Option Nat
  | 0, _, _, _, _, _ => none
  | fuel + 1, rest, i, count, inWord, n =>
    if rest = [] then none
    else if ¬ isSpace (decodeRune rest).1 then
      if ¬ inWord then
        if count = n then some i
        else wordLoop fuel (rest.drop (decodeRune rest).2) (i + (decodeRune rest).2) (count + 1)
          true n
      else wordLoop fuel (rest.drop (decodeRune rest).2) (i + (decodeRune rest).2) count inWord n
    else wordLoop fuel (rest.drop (decodeRune rest).2) (i + (decodeRune rest).2) count false n

/-- The loop of the `k_line` case of `start_offset`. -/
def lineLoop : Nat → Bytes → Nat → Nat → Nat → Option Nat
  | 0, _, _, _, _ => none
  | fuel + 1, rest, i, count, n =>
    if rest = [] then none
    else if (decodeRune rest).1 = 0x0A then
      if count + 1 = n then some (i + 1)
      else lineLoop fuel (rest.drop (decodeRune rest).2) (i + (decodeRune rest).2) (count + 1) n
    else lineLoop fuel (rest.drop (decodeRune rest).2) (i + (decodeRune rest).2) count n

/-- The function `start_offset`. -/
def start_offset (content : Bytes) (kind : Kind) (n : Nat) : Int :=
  match kind with
  | .k_byte => if intOfUint64 n > content.length then content.length else intOfUint64 n
  | .k_char =>
    match charLoop content.length content 0 0 n with
    | some i => i
    | none => content.length
  | .k_word =>
    match wordLoop content.length content 0 0 false n with
    | some i => i
    | none => content.length
  | .k_line =>
    if n = 0 then 0
    else
      match lineLoop content.length content 0 0 n with
      | some i => i
      | none => content.length

/-- The function `bound_to_byte_offset`. -/
def bound_to_byte_offset (content : Bytes) (b : Bound) (zeroIndexed isLower : Bool) : Int :=
  if b.isEnd then content.length
  else
    let n := if ¬ zeroIndexed then (if b.n > 0 then b.n - 1 else b.n) else b.n
    if isLower then start_offset content b.kind n
    else start_offset content b.kind ((n + 1) % 2 ^ 64)

/-- The function `slice_content`; the result `nil` is the empty list. -/
def slice_content (content : Bytes) (lower upper : Bound) (zeroIndexed : Bool) : Bytes :=
  let start := bound_to_byte_offset content lower zeroIndexed true
  let stop := bound_to_byte_offset content upper zeroIndexed false
  let start := if start < 0 then 0 else start
  let stop := if stop > content.length then (content.length : Int) else stop
  if start ≥ stop then [] else (content.take stop.toNat).drop start.toNat

/-- The errors of `parse_bound` and `parse_arg`, without their texts. -/
inductive ParseError where
  | invalidNumber
  | badPower
  | unknownSuffix
  | missingOpen
  | missingClose
  | lowerBound (e : ParseError)
  | upperBound (e : ParseError)
deriving DecidableEq, Repr

/-- The test `s[i] >= '0' && s[i] <= '9'`. -/
def isDigit (b : Nat) : Bool := 0x30 ≤ b ∧ b ≤ 0x39

/-- The value of a string of decimal digits. -/
def digitsValue (ds : Bytes) : Nat := ds.foldl (fun acc d => acc * 10 + (d - 0x30)) 0

/-- The call `strconv.ParseUint(s, 10, 64)` of the Go standard library: `none`
for a syntax error (empty, or a byte that is not a digit) and for a value that
does not fit in 64 bits. -/
def parseUint (s : Bytes) : Option Nat :=
  if s = [] ∨ ¬ s.all isDigit then none
  else if digitsValue s < 2 ^ 64 then some (digitsValue s)
  else none

/-- The call `strconv.ParseInt(s, 10, 64)` of the Go standard library: an
optional sign followed by digits, `none` for a syntax error and for a value
outside the 64-bit signed range. -/
def parseInt (s : Bytes) : Option Int :=
  match s with
  | [] => none
  | c :: t =>
    if c = 0x2B then
      match parseUint t with
      | some un => if un < 2 ^ 63 then some (un : Int) else none
      | none => none
    else if c = 0x2D then
      match parseUint t with
      | some un => if un ≤ 2 ^ 63 then some (-(un : Int)) else none
      | none => none
    else
      match parseUint s with
      | some un => if un < 2 ^ 63 then some (un : Int) else none
      | none => none

/-- The expression `uint64(math.Pow10(int(power)))`.  For `0 ≤ power ≤ 19` the
float `10^power` is exact and fits; a negative power gives a float below 1,
which converts to 0.  For `power ≥ 20` the float exceeds the `uint64` range and
the result of the conversion depends on the platform: `ovf` stands for it. -/
def pow10Uint64 (ovf : Int → Nat) (power : Int) : Nat :=
  if power < 0 then 0
  else if power ≤ 19 then 10 ^ power.toNat
  else ovf power % 2 ^ 64

/-- The map `sizeSuffixes`. -/
def sizeSuffixes : List (Bytes × Nat) :=
  [(str "b", 1),
   (str "kb", 1000), (str "kB", 1000), (str "KB", 1000),
   (str "mb", 1000 * 1000), (str "mB", 1000 * 1000), (str "MB", 1000 * 1000),
   (str "gb", 1000 * 1000 * 1000), (str "gB", 1000 * 1000 * 1000),
   (str "GB", 1000 * 1000 * 1000),
   (str "kib", 1024), (str "KiB", 1024), (str "Ki", 1024),
   (str "mib", 1024 * 1024), (str "MiB", 1024 * 1024), (str "Mi", 1024 * 1024),
   (str "gib", 1024 * 1024 * 1024), (str "GiB", 1024 * 1024 * 1024),
   (str "Gi", 1024 * 1024 * 1024)]

/-- The function `parse_bound`. -/
def parse_bound (ovf : Int → Nat) (s : Bytes) : Except ParseError Bound :=
  if s = [] then .ok ⟨.k_char, 0, true⟩
  else
    let i := (s.takeWhile isDigit).length
    match (if i > 0 then parseUint (s.take i) else some 1) with
    | none => .error .invalidNumber
    | some n =>
      let suffix := s.drop i
      if suffix = [] ∨ suffix = str "c" then .ok ⟨.k_char, n, false⟩
      else if suffix = str "l" then .ok ⟨.k_line, n, false⟩
      else if suffix = str "w" then .ok ⟨.k_word, n, false⟩
      else
        match sizeSuffixes.lookup suffix with
        | some mult => .ok ⟨.k_byte, (n * mult) % 2 ^ 64, false⟩
        | none =>
          if suffix.head? = some 0x5F then
            match parseInt (suffix.drop 1) with
            | none => .error .badPower
            | some power => .ok ⟨.k_char, (n * pow10Uint64 ovf power) % 2 ^ 64, false⟩
          else .error .unknownSuffix

/-- The call `strings.Cut(s, sep)` for a one-byte separator: the parts before
and after the first `sep`, or `none` when `sep` does not occur. -/
def cutAt (sep : Nat) : Bytes → Option (Bytes × Bytes)
  | [] => none
  | b :: rest =>
    if b = sep then some ([], rest)
    else
      match cutAt sep rest with
      | some (before, after) => some (b :: before, after)
      | none => none

/-- The function `parse_arg`. -/
def parse_arg (ovf : Int → Nat) (arg : Bytes) : Except ParseError (Bytes × Bound × Bound) :=
  match cutAt 0x5B arg with
  | none => .error .missingOpen
  | some (filename, rest) =>
    if rest.getLast? ≠ some 0x5D then .error .missingClose
    else
      let inner := rest.dropLast
      match cutAt 0x3A inner with
      | none =>
        match parse_bound ovf inner with
        | .error e => .error e
        | .ok b => .ok (filename, ⟨b.kind, 1, false⟩, b)
      | some (lo, hi) =>
        match parse_bound ovf lo with
        | .error e => .error (.lowerBound e)
        | .ok lower =>
          match parse_bound ovf hi with
          | .error e => .error (.upperBound e)
          | .ok upper => .ok (filename, lower, upper)

/-- The function `read_source`, with the bytes of standard input and the result
of `os.ReadFile` for every file name as parameters. -/
def read_source {ε : Type} (stdin : Bytes) (readFile : Bytes → Except ε Bytes)
    (filename : Bytes) : Except ε Bytes :=
  if filename ≠ str "-" then .ok stdin
  else readFile filename

/-- The lines of a text, each with its terminating newline; the last line may
have none. -/
def splitAfterNL : Bytes → List Bytes
  | [] => []
  | b :: rest =>
    if b = 0x0A then [b] :: splitAfterNL rest
    else
      match splitAfterNL rest with
      | [] => [[b]]
      | l :: ls => (b :: l) :: ls

/-- The length of the shortest initial part of a text that holds `n` newlines,
or of the whole text when it has fewer. -/
def nlEnd : Nat → Bytes → Nat
  | 0, _ => 0
  | _ + 1, [] => 0
  | n + 1, b :: rest => 1 + (if b = 0x0A then nlEnd n rest else nlEnd (n + 1) rest)

/-- The length of the shortest prefix of a text that holds its first `n` code
points (the whole text when it has fewer). -/
def runeEnd : Nat → Bytes → Nat
  | 0, _ => 0
  | n + 1, s => if s = [] then 0 else (decodeRune s).2 + runeEnd n (s.drop (decodeRune s).2)

/-! ## choice (`src/choice/main.go`) -/

/-- The type `item`. -/
structure item where
  value : Bytes
  weight : Int
deriving DecidableEq, Repr

/-- The call `strings.LastIndex(s, sep)` for a one-byte separator: the index of
the last `sep` in `s`, or `-1` when there is none. -/
def lastIndexByte (sep : Nat) : Bytes → Int
  | [] => -1
  | b :: rest =>
    if lastIndexByte sep rest ≥ 0 then lastIndexByte sep rest + 1
    else if b = sep then 0
    else -1

/-- The call `strconv.Atoi(s)` of the Go standard library with a 64-bit `int`:
an optional sign followed by decimal digits, `none` for a syntax error and for
a value outside the range of `int`. -/
def atoi (s : Bytes) : Option Int := parseInt s

/-- The body of the loop of `parseItems`: the item appended for the argument
`a`. -/
def parseItem (a : Bytes) : item :=
  let idx := lastIndexByte 0x3A a
  if idx > 0 then
    match atoi (a.drop (idx + 1).toNat) with
    | some w => if w > 0 then ⟨a.take idx.toNat, w⟩ else ⟨a, 1⟩
    | none => ⟨a, 1⟩
  else ⟨a, 1⟩

/-- The loop of `parseItems` over the remaining arguments, with the slice
`items` built so far. -/
def parseItemsLoop : List Bytes → List item → List item
  | [], items => items
  | a :: rest, items => parseItemsLoop rest (items ++ [parseItem a])

/-- The function `parseItems`. -/
def parseItems (args : List Bytes) : List item := parseItemsLoop args []

/-- The function `expandWeights`: every value repeated `weight` times, in the
order of the items. -/
def expandWeights : List item → List Bytes
  | [] => []
  | it :: rest => List.replicate it.weight.toNat it.value ++ expandWeights rest

/-- The step `apply excludes` of `main`: with at least one `-x` value, the
items whose value is none of them are kept. -/
def applyExcludes (excludes : List Bytes) (items : List item) : List item :=
  if excludes.length > 0 then items.filter (fun it => ¬ it.value ∈ excludes)
  else items

/-- The loop of the `pick N unique` branch of `main` over the rest of the
shuffled pool, with the keys of the map `seen` and the slice `result`; the loop
ends at `break` or with the pool. -/
def uniqueLoop (pickN : Int) : List Bytes → List Bytes → List Bytes → List Bytes
  | [], _, result => result
  | v :: rest, seen, result =>
    if ¬ v ∈ seen then
      if ((result ++ [v]).length : Int) = pickN then result ++ [v]
      else uniqueLoop pickN rest (v :: seen) (result ++ [v])
    else
      if (result.length : Int) = pickN then result
      else uniqueLoop pickN rest seen result

/-- The `pick N unique` branch of `main`: `none` for the exit with `not enough
unique choices`, otherwise the printed results.  The outcome of `rng.Shuffle`
is the parameter `shuffle`. -/
def pickUnique (shuffle : List Bytes → List Bytes) (items : List item) (pickN : Int) :
    Option (List Bytes) :=
  if pickN > items.length then none
  else some (uniqueLoop pickN (shuffle (expandWeights items)) [] [])

/-! ## new (`src/new/main.go`) -/

/-- The type `BitState`. -/
inductive BitState where
  | Unspecified
  | On
  | Off
deriving DecidableEq, Repr

/-- The type `Perms`. -/
structure Perms where
  read : BitState
  write : BitState
  execute : BitState
deriving DecidableEq, Repr

/-- The type `Request`; the array `[3]Perms` is a function on the indices
`0, 1, 2`. -/
structure Request where
  name : Bytes
  is_dir : Bool
  perms : Fin 3 → Perms
  overwrite : Bool
  has_perms : Bool

/-- The value `Request{}`. -/
def emptyRequest : Request :=
  ⟨[], false, fun _ => ⟨.Unspecified, .Unspecified, .Unspecified⟩, false, false⟩

/-- The closure `apply` of `apply_perms` on the mode `res`; a mode is a 32-bit
number and `&^` clears the bits of its right operand. -/
def apply_bit (res shift : Nat) (s : BitState) (bit : Nat) : Nat :=
  match s with
  | .On => res ||| (bit <<< shift)
  | .Off => res &&& (0xFFFFFFFF ^^^ (bit <<< shift))
  | .Unspecified => res

/-- The function `apply_perms`. -/
def apply_perms (base : Nat) (perms : Fin 3 → Perms) : Nat :=
  ([0, 1, 2] : List (Fin 3)).foldl
    (fun res i =>
      apply_bit (apply_bit (apply_bit res (6 - i.val * 3) (perms i).read 4)
        (6 - i.val * 3) (perms i).write 2) (6 - i.val * 3) (perms i).execute 1)
    base

/-- The closure `state` of `parse_flag`. -/
def state (f : Nat) : BitState := if f ≥ 0x61 ∧ f ≤ 0x7A then .On else .Off

/-- The two exits of `parse_flag` through `usage()`. -/
inductive FlagError where
  | tooMany (lower : Nat)
  | unknown (f : Nat)
deriving DecidableEq, Repr

/-- The first loop of `parse_flag` over the remaining code points of the flag,
with the request and the map `n_used` (a missing key reads as 0). -/
def flagLoop : List Nat → Request → (Nat → Nat) → Except FlagError (Request × (Nat → Nat))
  | [], req, n_used => .ok (req, n_used)
  | f :: rest, req, n_used =>
    if h : n_used (f ||| 0x20) ≥ 3 then .error (.tooMany (f ||| 0x20))
    else
      if f ||| 0x20 = 0x72 then
        flagLoop rest
          ⟨req.name, req.is_dir,
            Function.update req.perms ⟨n_used (f ||| 0x20), by omega⟩
              ⟨state f, (req.perms ⟨n_used (f ||| 0x20), by omega⟩).write,
                (req.perms ⟨n_used (f ||| 0x20), by omega⟩).execute⟩,
            req.overwrite, req.has_perms⟩
          (Function.update n_used (f ||| 0x20) (n_used (f ||| 0x20) + 1))
      else if f ||| 0x20 = 0x77 then
        flagLoop rest
          ⟨req.name, req.is_dir,
            Function.update req.perms ⟨n_used (f ||| 0x20), by omega⟩
              ⟨(req.perms ⟨n_used (f ||| 0x20), by omega⟩).read, state f,
                (req.perms ⟨n_used (f ||| 0x20), by omega⟩).execute⟩,
            req.overwrite, req.has_perms⟩
          (Function.update n_used (f ||| 0x20) (n_used (f ||| 0x20) + 1))
      else if f ||| 0x20 = 0x78 then
        flagLoop rest
          ⟨req.name, req.is_dir,
            Function.update req.perms ⟨n_used (f ||| 0x20), by omega⟩
              ⟨(req.perms ⟨n_used (f ||| 0x20), by omega⟩).read,
                (req.perms ⟨n_used (f ||| 0x20), by omega⟩).write, state f⟩,
            req.overwrite, req.has_perms⟩
          (Function.update n_used (f ||| 0x20) (n_used (f ||| 0x20) + 1))
      else if f ||| 0x20 = 0x6F then
        flagLoop rest ⟨req.name, req.is_dir, req.perms, decide (state f = .On), req.has_perms⟩
          (Function.update n_used (f ||| 0x20) (n_used (f ||| 0x20) + 1))
      else .error (.unknown f)

/-- The type `field` of `parse_flag`. -/
structure field where
  get : Perms → BitState
  set : Perms → BitState → Perms

/-- The slice `fields` of `parse_flag`. -/
def fields : Fin 3 → field
  | 0 => ⟨fun p => p.read, fun p v => ⟨v, p.write, p.execute⟩⟩
  | 1 => ⟨fun p => p.write, fun p v => ⟨p.read, v, p.execute⟩⟩
  | 2 => ⟨fun p => p.execute, fun p v => ⟨p.read, p.write, v⟩⟩

/-- The slice `letters` of `parse_flag`: `r`, `w`, `x`. -/
def letters : Fin 3 → Nat
  | 0 => 0x72
  | 1 => 0x77
  | 2 => 0x78

/-- The second loop of `parse_flag`: a bit that was given once is copied from
the class 0 to the classes 1 and 2. -/
def fanOut (n_used : Nat → Nat) (perms : Fin 3 → Perms) : Fin 3 → Perms :=
  ([0, 1, 2] : List (Fin 3)).foldl
    (fun ps i =>
      if n_used (letters i) = 1 then
        Function.update (Function.update ps 1 ((fields i).set (ps 1) ((fields i).get (ps 0))))
          2 ((fields i).set (ps 2) ((fields i).get (ps 0)))
      else ps)
    perms

/-- The method `parse_flag`; `main` calls it with a flag that starts with `-`,
and `flag[1:]` is the flag without its first byte. -/
def parse_flag (req : Request) (flag : Bytes) : Except FlagError Request :=
  match flagLoop (runes (flag.drop 1)) req (fun _ => 0) with
  | .error e => .error e
  | .ok (req1, n_used) => .ok ⟨req1.name, req1.is_dir, fanOut n_used req1.perms, req1.overwrite, true⟩

/-! # Theorems -/

/-! ## Basic facts about the scanner and the decoder -/

theorem scanEscape_append (s : Bytes) : (scanEscape s).1 ++ (scanEscape s).2 = s := by
  induction s with
  | nil => simp [scanEscape]
  | cons b rest ih =>
    unfold scanEscape
    split <;> simp [ih]

theorem scanEscape_length_le (s : Bytes) : (scanEscape s).2.length ≤ s.length := by
  have h := congrArg List.length (scanEscape_append s)
  simp only [List.length_append] at h
  omega

theorem decodeRune_size (s : Bytes) (hs : s ≠ []) :
    1 ≤ (decodeRune s).2 ∧ (decodeRune s).2 ≤ s.length := by
  unfold decodeRune
  rcases s with _ | ⟨s0, _ | ⟨s1, _ | ⟨s2, _ | ⟨s3, t⟩⟩⟩⟩
  · exact absurd rfl hs
  all_goals
    simp only [List.length_cons, List.length_nil]
    repeat' split
    all_goals simp_all

theorem isCSI_iff (s : Bytes) : isCSI s = true ↔ ∃ t, s = 0x1b :: 0x5b :: t := by
  unfold isCSI
  rcases s with _ | ⟨a, _ | ⟨b, t⟩⟩ <;> simp

theorem nextToken_bytes (rest : Bytes) :
    (nextToken rest).1.bytes ++ (nextToken rest).2 = rest := by
  unfold nextToken
  split
  · rename_i h
    obtain ⟨t, rfl⟩ := (isCSI_iff rest).1 h
    simp [Token.bytes, scanEscape_append]
  · simp [Token.bytes]

theorem nextToken_bytes_ne_nil (rest : Bytes) (h : rest ≠ []) :
    (nextToken rest).1.bytes ≠ [] := by
  unfold nextToken
  split
  · simp [Token.bytes]
  · have := decodeRune_size rest h
    simp only [Token.bytes, ne_eq, List.take_eq_nil_iff, not_or]
    exact ⟨by omega, h⟩

theorem nextToken_length_lt (rest : Bytes) (h : rest ≠ []) :
    (nextToken rest).2.length < rest.length := by
  have h1 := congrArg List.length (nextToken_bytes rest)
  have h2 := nextToken_bytes_ne_nil rest h
  have h3 : 0 < (nextToken rest).1.bytes.length := List.length_pos.2 h2
  simp only [List.length_append] at h1
  omega

theorem tokensLoop_fuel (fuel : Nat) (rest : Bytes) (h : rest.length ≤ fuel) :
    tokensLoop fuel rest = tokensLoop rest.length rest := by
  induction fuel using Nat.strong_induction_on generalizing rest with
  | _ fuel ih =>
    rcases fuel with _ | fuel
    · have : rest = [] := List.length_eq_zero.1 (by omega)
      subst this; rfl
    · by_cases hr : rest = []
      · subst hr; simp [tokensLoop]
      · have hlt := nextToken_length_lt rest hr
        obtain ⟨n, hn⟩ : ∃ n, rest.length = n + 1 :=
          ⟨rest.length - 1, by have := List.length_pos.2 hr; omega⟩
        rw [hn]
        simp only [tokensLoop, hr, if_false]
        rw [ih fuel (by omega) _ (by omega), ih n (by omega) _ (by omega)]

theorem tokens_nil : tokens [] = [] := rfl

theorem tokens_step (rest : Bytes) (h : rest ≠ []) :
    tokens rest = (nextToken rest).1 :: tokens (nextToken rest).2 := by
  have hlt := nextToken_length_lt rest h
  obtain ⟨n, hn⟩ : ∃ n, rest.length = n + 1 :=
    ⟨rest.length - 1, by have := List.length_pos.2 h; omega⟩
  unfold tokens
  rw [hn]
  simp only [tokensLoop, h, if_false]
  rw [tokensLoop_fuel n _ (by omega)]

theorem bytesOf_nil : bytesOf [] = [] := rfl

theorem bytesOf_cons (t : Token) (ts : List Token) : bytesOf (t :: ts) = t.bytes ++ bytesOf ts := by
  simp [bytesOf]

theorem bytesOf_append (a b : List Token) : bytesOf (a ++ b) = bytesOf a ++ bytesOf b := by
  simp [bytesOf]

/-- Strong induction on the length of the unread suffix, one token at a time. -/
theorem token_induction {P : Bytes → Prop} (h0 : P [])
    (hstep : ∀ rest, rest ≠ [] → P (nextToken rest).2 → P rest) (s : Bytes) : P s := by
  generalize h : s.length = n
  induction n using Nat.strong_induction_on generalizing s with
  | _ n ih =>
    by_cases hs : s = []
    · subst hs; exact h0
    · exact hstep s hs (ih _ (by have := nextToken_length_lt s hs; omega) _ rfl)

theorem bytesOf_tokens (s : Bytes) : bytesOf (tokens s) = s := by
  induction s using token_induction with
  | h0 => rfl
  | hstep rest hr ih =>
    rw [tokens_step rest hr, bytesOf_cons, ih, nextToken_bytes]

theorem tokens_bytes_ne_nil (s : Bytes) : ∀ t ∈ tokens s, t.bytes ≠ [] := by
  induction s using token_induction with
  | h0 => simp [tokens_nil]
  | hstep rest hr ih =>
    rw [tokens_step rest hr]
    intro t ht
    rcases List.mem_cons.1 ht with rfl | ht
    · exact nextToken_bytes_ne_nil rest hr
    · exact ih t ht

theorem leadSize_bounds (s0 : Nat) : 2 ≤ leadSize s0 ∧ leadSize s0 ≤ 4 := by
  unfold leadSize; split <;> [omega; (split <;> omega)]

theorem acceptLo_ge (s0 : Nat) : 0x80 ≤ acceptLo s0 := by
  unfold acceptLo; split <;> [omega; (split <;> omega)]

theorem take_one_eq {s' : Bytes} {a : Nat} {t : Bytes} (h : s'.take 1 = (a :: t).take 1) :
    ∃ t', s' = a :: t' := by
  rcases s' with _ | ⟨b, t'⟩
  · simp at h
  · simp at h; exact ⟨t', by rw [h]⟩

theorem take_two_eq {s' : Bytes} {a b : Nat} {t : Bytes} (h : s'.take 2 = (a :: b :: t).take 2) :
    ∃ t', s' = a :: b :: t' := by
  rcases s' with _ | ⟨a', _ | ⟨b', t'⟩⟩
  · simp at h
  · simp at h
  · simp at h; exact ⟨t', by rw [h.1, h.2]⟩

theorem take_three_eq {s' : Bytes} {a b c : Nat} {t : Bytes}
    (h : s'.take 3 = (a :: b :: c :: t).take 3) : ∃ t', s' = a :: b :: c :: t' := by
  rcases s' with _ | ⟨a', _ | ⟨b', _ | ⟨c', t'⟩⟩⟩
  · simp at h
  · simp at h
  · simp at h
  · simp at h; exact ⟨t', by rw [h.1, h.2.1, h.2.2]⟩

theorem take_four_eq {s' : Bytes} {a b c d : Nat} {t : Bytes}
    (h : s'.take 4 = (a :: b :: c :: d :: t).take 4) : ∃ t', s' = a :: b :: c :: d :: t' := by
  rcases s' with _ | ⟨a', _ | ⟨b', _ | ⟨c', _ | ⟨d', t'⟩⟩⟩⟩
  · simp at h
  · simp at h
  · simp at h
  · simp at h
  · simp at h; exact ⟨t', by rw [h.1, h.2.1, h.2.2.1, h.2.2.2]⟩

/-- Every decoding step either reports an error on one byte or returns a code
point that is determined by the bytes it covers. -/
theorem decodeRune_cases (s : Bytes) (hs : s ≠ []) :
    decodeRune s = (RuneError, 1) ∨ ∃ r k, ValidDecode s r k := by
  rcases s with _ | ⟨s0, t⟩
  · exact absurd rfl hs
  have hsz := leadSize_bounds s0
  have hlo := acceptLo_ge s0
  by_cases h0 : s0 < 0x80
  · right
    refine ⟨s0, 1, by simp [decodeRune, h0], le_refl _, by simp, fun i h1 h2 => by omega,
      fun _ => by simpa using h0, ?_⟩
    intro s' h
    obtain ⟨t', rfl⟩ := take_one_eq h
    simp [decodeRune, h0]
  by_cases h1 : s0 < 0xC2 ∨ 0xF4 < s0
  · left; simp [decodeRune, h0, h1]
  by_cases h2 : (s0 :: t).length < leadSize s0
  · left; simp only [decodeRune, h0, h1, h2, if_false, if_true]
  rcases t with _ | ⟨s1, t1⟩
  · left; simp [decodeRune, h0, h1]
  by_cases h3 : s1 < acceptLo s0 ∨ acceptHi s0 < s1
  · left; simp only [decodeRune, h0, h1, h2, h3, if_false, if_true]
  by_cases h4 : leadSize s0 ≤ 2
  · right
    refine ⟨((s0 &&& 0x1F) <<< 6) ||| (s1 &&& 0x3F), 2, by simp only [decodeRune, h0, h1, h2, h3, h4, if_false, if_true],
      by omega, by simp, ?_, by omega, ?_⟩
    · intro i hi1 hi2
      have : i = 1 := by omega
      subst this
      simp only [List.getD_cons_succ, List.getD_cons_zero]
      omega
    · intro s' h
      obtain ⟨t', rfl⟩ := take_two_eq h
      have h2' : ¬ (s0 :: s1 :: t').length < leadSize s0 := by simp; omega
      simp only [decodeRune, h0, h1, h2', h3, h4, if_false, if_true]
  rcases t1 with _ | ⟨s2, t2⟩
  · left; simp only [decodeRune, h0, h1, h2, h3, h4, if_false, if_true]
  by_cases h5 : s2 < 0x80 ∨ 0xBF < s2
  · left; simp only [decodeRune, h0, h1, h2, h3, h4, h5, if_false, if_true]
  by_cases h6 : leadSize s0 ≤ 3
  · right
    refine ⟨((s0 &&& 0x0F) <<< 12) ||| ((s1 &&& 0x3F) <<< 6) ||| (s2 &&& 0x3F), 3, by simp only [decodeRune, h0, h1, h2, h3, h4, h5, h6, if_false, if_true],
      by omega, by simp, ?_, by omega, ?_⟩
    · intro i hi1 hi2
      have : i = 1 ∨ i = 2 := by omega
      rcases this with rfl | rfl <;> simp only [List.getD_cons_succ, List.getD_cons_zero] <;> omega
    · intro s' h
      obtain ⟨t', rfl⟩ := take_three_eq h
      have h2' : ¬ (s0 :: s1 :: s2 :: t').length < leadSize s0 := by simp; omega
      simp only [decodeRune, h0, h1, h2', h3, h4, h5, h6, if_false, if_true]
  rcases t2 with _ | ⟨s3, t3⟩
  · exfalso; simp at h2; omega
  by_cases h7 : s3 < 0x80 ∨ 0xBF < s3
  · left; simp only [decodeRune, h0, h1, h2, h3, h4, h5, h6, h7, if_false, if_true]
  · right
    refine ⟨((s0 &&& 0x07) <<< 18) ||| ((s1 &&& 0x3F) <<< 12) |||
        ((s2 &&& 0x3F) <<< 6) ||| (s3 &&& 0x3F), 4, by simp only [decodeRune, h0, h1, h2, h3, h4, h5, h6, h7, if_false, if_true],
      by omega, by simp, ?_, by omega, ?_⟩
    · intro i hi1 hi2
      have : i = 1 ∨ i = 2 ∨ i = 3 := by omega
      rcases this with rfl | rfl | rfl <;>
        simp only [List.getD_cons_succ, List.getD_cons_zero] <;> omega
    · intro s' h
      obtain ⟨t', rfl⟩ := take_four_eq h
      have h2' : ¬ (s0 :: s1 :: s2 :: s3 :: t').length < leadSize s0 := by simp; omega
      simp only [decodeRune, h0, h1, h2', h3, h4, h5, h6, h7, if_false, if_true]

/-- The decoder reads no byte beyond the code point it returns: cutting the
string anywhere after the decoded bytes does not change the result. -/
theorem decodeRune_cut (p q : Bytes) (hp : p ≠ [])
    (h : (decodeRune (p ++ q)).2 ≤ p.length) : decodeRune p = decodeRune (p ++ q) := by
  have hpq : p ++ q ≠ [] := by simp [hp]
  rcases decodeRune_cases (p ++ q) hpq with he | ⟨r, k, hd, _, _, _, _, hv⟩
  · rcases decodeRune_cases p hp with he' | ⟨r', k', hd', _, hk', _, _, hv'⟩
    · rw [he, he']
    · rw [hd', ← hv' (p ++ q) (by rw [List.take_append_of_le_length hk'])]
  · rw [hd] at h
    rw [hd]
    exact hv p (by rw [List.take_append_of_le_length h])

/-! ## The wrapper as a function of the tokens -/

theorem wrapLoop_groupToks (width tabWidth : Int) (fuel : Nat) :
    ∀ (rest : Bytes) (rg : List (List Token)) (cg : List Token) (v : Int),
      rest.length ≤ fuel →
      wrapLoop width tabWidth fuel rest (rg.map bytesOf) (bytesOf cg) v =
        ((groupToks width tabWidth (tokens rest) rg cg v).1.map bytesOf,
          bytesOf (groupToks width tabWidth (tokens rest) rg cg v).2) := by
  induction fuel with
  | zero =>
    intro rest rg cg v h
    have : rest = [] := List.length_eq_zero.1 (by omega)
    subst this
    simp [wrapLoop, tokens_nil, groupToks]
  | succ fuel ih =>
    intro rest rg cg v h
    by_cases hr : rest = []
    · subst hr
      simp [wrapLoop, tokens_nil, groupToks]
    · have hlt := nextToken_length_lt rest hr
      rw [tokens_step rest hr]
      simp only [wrapLoop, hr, if_false]
      unfold nextToken at hlt ⊢
      by_cases hc : isCSI rest = true
      · simp only [hc, if_true] at hlt ⊢
        simp only [groupToks]
        rw [← ih _ rg _ v (by omega)]
        simp [bytesOf_append, bytesOf_cons, bytesOf_nil, Token.bytes]
      · simp only [hc, Bool.false_eq_true, if_false] at hlt ⊢
        simp only [groupToks]
        split
        · rw [← ih _ _ _ _ (by omega)]
          simp [bytesOf_cons, bytesOf_nil, Token.bytes]
        · rw [← ih _ _ _ _ (by omega)]
          simp [bytesOf_append, bytesOf_cons, bytesOf_nil, Token.bytes]

/-- Tokens are neither lost nor reordered by the wrap decisions. -/
theorem groupToks_flatten (width tabWidth : Int) (ts : List Token) :
    ∀ (rg : List (List Token)) (cg : List Token) (v : Int),
      (groupToks width tabWidth ts rg cg v).1.flatten ++ (groupToks width tabWidth ts rg cg v).2 =
        rg.flatten ++ cg ++ ts := by
  induction ts with
  | nil => intro rg cg v; simp [groupToks]
  | cons t ts ih =>
    intro rg cg v
    cases t with
    | esc b => simp only [groupToks]; rw [ih]; simp
    | text r b =>
      simp only [groupToks]
      split
      · rw [ih]; simp
      · rw [ih]; simp

theorem segGroups_flatten (width tabWidth : Int) (line : Bytes) :
    (segGroups width tabWidth line).flatten = tokens line := by
  have h := groupToks_flatten width tabWidth (tokens line) [] [] 0
  unfold segGroups
  split
  · rename_i h2
    rw [h2] at h
    simpa using h
  · simpa using h

theorem bytesOf_eq_nil_of_tokens (line : Bytes) {g : List Token}
    (hg : ∀ t ∈ g, t ∈ tokens line) (h : bytesOf g = []) : g = [] := by
  cases g with
  | nil => rfl
  | cons t ts =>
    exfalso
    rw [bytesOf_cons] at h
    exact tokens_bytes_ne_nil line t (hg t (List.mem_cons_self _ _)) (List.append_eq_nil.1 h).1

theorem wrapLineVisual_eq (line : Bytes) (width tabWidth : Int) :
    wrapLineVisual line width tabWidth =
      if width ≤ 0 then [line]
      else if segGroups width tabWidth line = [] then [[]]
      else (segGroups width tabWidth line).map bytesOf := by
  unfold wrapLineVisual
  split
  · rfl
  · have hw := wrapLoop_groupToks width tabWidth line.length line [] [] 0 (le_refl _)
    simp only [List.map_nil, bytesOf_nil] at hw
    simp only [hw]
    have hfl := groupToks_flatten width tabWidth (tokens line) [] [] 0
    have hcur : bytesOf (groupToks width tabWidth (tokens line) [] [] 0).2 = [] ↔
        (groupToks width tabWidth (tokens line) [] [] 0).2 = [] := by
      constructor
      · intro h
        refine bytesOf_eq_nil_of_tokens line ?_ h
        intro t ht
        have : t ∈ (groupToks width tabWidth (tokens line) [] [] 0).1.flatten ++
            (groupToks width tabWidth (tokens line) [] [] 0).2 :=
          List.mem_append_right _ ht
        rw [hfl] at this
        simpa using this
      · intro h; rw [h]; rfl
    unfold segGroups
    by_cases hc : (groupToks width tabWidth (tokens line) [] [] 0).2 = []
    · simp [hc, bytesOf_nil]
    · have hb : bytesOf (groupToks width tabWidth (tokens line) [] [] 0).2 ≠ [] :=
        fun h => hc (hcur.1 h)
      have hpos : 0 < (bytesOf (groupToks width tabWidth (tokens line) [] [] 0).2).length :=
        List.length_pos.2 hb
      simp [hc, hpos]

theorem flatten_map_bytesOf (gs : List (List Token)) :
    (gs.map bytesOf).flatten = bytesOf gs.flatten := by
  induction gs with
  | nil => rfl
  | cons g gs ih => simp [bytesOf_append, ih]

/-- C1. Concatenating the segments returned by `wrapLineVisual` in order gives
back the line, byte for byte, for every line, width and tab width. -/
theorem wrapLineVisual_concat (line : Bytes) (width tabWidth : Int) :
    (wrapLineVisual line width tabWidth).flatten = line := by
  rw [wrapLineVisual_eq]
  split
  · simp
  · split
    · rename_i h
      have := segGroups_flatten width tabWidth line
      rw [h] at this
      have h2 := bytesOf_tokens line
      rw [← this] at h2
      simpa [bytesOf] using h2
    · rw [flatten_map_bytesOf, segGroups_flatten, bytesOf_tokens]

/-! ## Tokens of a run of consecutive tokens -/

theorem scanEscape_cut (after : Bytes) :
    ∀ x : Bytes, x <+: (scanEscape after).2 →
      scanEscape ((scanEscape after).1 ++ x) = ((scanEscape after).1, x) := by
  induction after with
  | nil =>
    intro x hx
    have : x = [] := by simpa [scanEscape] using hx
    subst this
    simp [scanEscape]
  | cons b rest ih =>
    intro x hx
    by_cases hb : b < 0x40 ∨ b > 0x7e
    · have e : scanEscape (b :: rest) = (b :: (scanEscape rest).1, (scanEscape rest).2) := by
        rw [scanEscape, if_pos hb]
      rw [e] at hx ⊢
      simp only [List.cons_append]
      rw [scanEscape, if_pos hb, ih x hx]
    · have e : scanEscape (b :: rest) = ([b], rest) := by
        rw [scanEscape, if_neg hb]
      rw [e] at hx ⊢
      simp only [List.cons_append, List.nil_append]
      rw [scanEscape, if_neg hb]

theorem isCSI_cut {p s : Bytes} (hp : p <+: s) (h : isCSI s = false) : isCSI p = false := by
  cases hc : isCSI p with
  | false => rfl
  | true =>
    obtain ⟨t, rfl⟩ := (isCSI_iff p).1 hc
    obtain ⟨q, rfl⟩ := hp
    simp [isCSI] at h

/-- The first token of a line is still its first token when the line is cut
anywhere after that token. -/
theorem nextToken_cut (rest : Bytes) (hr : rest ≠ []) (x : Bytes)
    (hx : x <+: (nextToken rest).2) :
    nextToken ((nextToken rest).1.bytes ++ x) = ((nextToken rest).1, x) := by
  by_cases hc : isCSI rest = true
  · obtain ⟨after, rfl⟩ := (isCSI_iff rest).1 hc
    have hn : nextToken (0x1b :: 0x5b :: after) =
        (.esc (0x1b :: 0x5b :: (scanEscape after).1), (scanEscape after).2) := by
      simp [nextToken, hc]
    rw [hn] at hx ⊢
    simp only [Token.bytes, List.cons_append]
    have hc2 : isCSI (0x1b :: 0x5b :: ((scanEscape after).1 ++ x)) = true := by simp [isCSI]
    simp only [nextToken, hc2, if_true, List.drop_succ_cons, List.drop_zero]
    rw [scanEscape_cut after x hx]
  · have hc' : isCSI rest = false := by simpa using hc
    have hn : nextToken rest = (.text (decodeRune rest).1 (rest.take (decodeRune rest).2),
        rest.drop (decodeRune rest).2) := by
      simp [nextToken, hc']
    rw [hn] at hx ⊢
    simp only [Token.bytes]
    have hsz := decodeRune_size rest hr
    have hlen : (rest.take (decodeRune rest).2).length = (decodeRune rest).2 := by
      simp [List.length_take]; omega
    have hpre : rest.take (decodeRune rest).2 ++ x <+: rest := by
      obtain ⟨q, hq⟩ := hx
      refine ⟨q, ?_⟩
      rw [List.append_assoc, hq, List.take_append_drop]
    have hne : rest.take (decodeRune rest).2 ++ x ≠ [] := by
      intro h
      have := congrArg List.length h
      simp only [List.length_append, hlen, List.length_nil] at this
      omega
    have hdec : decodeRune (rest.take (decodeRune rest).2 ++ x) = decodeRune rest := by
      obtain ⟨q, hq⟩ := hpre
      have := decodeRune_cut (rest.take (decodeRune rest).2 ++ x) q hne
        (by rw [hq]; simp only [List.length_append, hlen]; omega)
      rw [this, hq]
    have hc2 : isCSI (rest.take (decodeRune rest).2 ++ x) = false := isCSI_cut hpre hc'
    simp only [nextToken, hc2, hdec, Bool.false_eq_true, if_false]
    rw [List.take_left' hlen, List.drop_left' hlen]

theorem tokens_eq_nil_iff (s : Bytes) : tokens s = [] ↔ s = [] := by
  constructor
  · intro h
    by_contra hs
    rw [tokens_step s hs] at h
    exact List.cons_ne_nil _ _ h
  · rintro rfl; rfl

/-- The tokens of the bytes of an initial run of the tokens of a line are that run. -/
theorem tokens_bytesOf_initial (g : List Token) :
    ∀ (s : Bytes) (h : List Token), tokens s = g ++ h → tokens (bytesOf g) = g := by
  induction g with
  | nil => intro s h _; rfl
  | cons t g ih =>
    intro s h hs
    have hne : s ≠ [] := by
      intro h0; subst h0; simp [tokens_nil] at hs
    rw [tokens_step s hne] at hs
    simp only [List.cons_append, List.cons.injEq] at hs
    obtain ⟨ht, hrest⟩ := hs
    have ihg := ih _ h hrest
    have hx : bytesOf g <+: (nextToken s).2 := by
      refine ⟨bytesOf h, ?_⟩
      rw [← bytesOf_append, ← hrest, bytesOf_tokens]
    have hnt := nextToken_cut s hne (bytesOf g) hx
    rw [ht] at hnt
    have hne2 : bytesOf (t :: g) ≠ [] := by
      rw [bytesOf_cons]
      have := nextToken_bytes_ne_nil s hne
      rw [ht] at this
      simp [this]
    rw [tokens_step _ hne2, bytesOf_cons, hnt]
    simp only [ihg]

/-- The tokens of the bytes of a final run of the tokens of a line are that run. -/
theorem tokens_bytesOf_final (a : List Token) :
    ∀ (s : Bytes) (b : List Token), tokens s = a ++ b → tokens (bytesOf b) = b := by
  induction a with
  | nil =>
    intro s b hs
    simp only [List.nil_append] at hs
    rw [← hs, bytesOf_tokens]
  | cons t a ih =>
    intro s b hs
    have hne : s ≠ [] := by
      intro h0; subst h0; simp [tokens_nil] at hs
    rw [tokens_step s hne] at hs
    simp only [List.cons_append, List.cons.injEq] at hs
    exact ih _ b hs.2

/-- The tokens of the bytes of any run of consecutive tokens of a line are that run. -/
theorem tokens_bytesOf_run (s : Bytes) (a g b : List Token) (h : tokens s = a ++ g ++ b) :
    tokens (bytesOf g) = g := by
  have h1 : tokens (bytesOf (g ++ b)) = g ++ b :=
    tokens_bytesOf_final a s (g ++ b) (by rw [h, List.append_assoc])
  exact tokens_bytesOf_initial g _ b h1

theorem tokens_bytesOf_group (s : Bytes) (gs : List (List Token)) (h : gs.flatten = tokens s) :
    ∀ g ∈ gs, tokens (bytesOf g) = g := by
  intro g hg
  obtain ⟨l1, l2, rfl⟩ := List.append_of_mem hg
  refine tokens_bytesOf_run s l1.flatten g l2.flatten ?_
  rw [← h]; simp

theorem flatMap_tokens_groups (s : Bytes) (gs : List (List Token)) (h : gs.flatten = tokens s) :
    (gs.map bytesOf).flatMap tokens = tokens s := by
  have hg := tokens_bytesOf_group s gs h
  rw [← h]
  clear h
  induction gs with
  | nil => rfl
  | cons g gs ih =>
    simp only [List.map_cons, List.flatMap_cons, List.flatten_cons]
    rw [hg g (List.mem_cons_self _ _), ih (fun g' hg' => hg g' (List.mem_cons_of_mem _ hg'))]

/-- Every segment that the wrap decisions open after the first starts with a
Text token. -/
theorem groupToks_heads (width tabWidth : Int) (ts : List Token) :
    ∀ (rg : List (List Token)) (cg : List Token) (v : Int),
      ∃ ext new,
        (groupToks width tabWidth ts rg cg v).1 ++ [(groupToks width tabWidth ts rg cg v).2] =
          rg ++ (cg ++ ext) :: new ∧
        ∀ g ∈ new, ∃ r b rest, g = Token.text r b :: rest := by
  induction ts with
  | nil => intro rg cg v; exact ⟨[], [], by simp [groupToks], by simp⟩
  | cons t ts ih =>
    intro rg cg v
    cases t with
    | esc b =>
      obtain ⟨ext, new, h1, h2⟩ := ih rg (cg ++ [.esc b]) v
      exact ⟨.esc b :: ext, new, by simp only [groupToks]; rw [h1]; simp, h2⟩
    | text r b =>
      simp only [groupToks]
      split
      · obtain ⟨ext, new, h1, h2⟩ := ih (rg ++ [cg]) [.text r b] (0 + runeVisualWidth r v tabWidth)
        refine ⟨[], ([.text r b] ++ ext) :: new, by rw [h1]; simp, ?_⟩
        intro g hg
        rcases List.mem_cons.1 hg with rfl | hg
        · exact ⟨r, b, ext, rfl⟩
        · exact h2 g hg
      · obtain ⟨ext, new, h1, h2⟩ := ih rg (cg ++ [.text r b]) (v + runeVisualWidth r v tabWidth)
        exact ⟨.text r b :: ext, new, by rw [h1]; simp, h2⟩

theorem segGroups_tail (width tabWidth : Int) (line : Bytes) :
    ∀ g ∈ (segGroups width tabWidth line).tail, ∃ r b rest, g = Token.text r b :: rest := by
  obtain ⟨ext, new, h1, h2⟩ := groupToks_heads width tabWidth (tokens line) [] [] 0
  simp only [List.nil_append] at h1
  unfold segGroups
  split
  · rename_i hc
    rw [hc] at h1
    rcases List.eq_nil_or_concat new with hn | ⟨new', lst, hn⟩
    · subst hn
      have : (groupToks width tabWidth (tokens line) [] [] 0).1 = [] := by
        have := congrArg List.length h1
        simp at this
        exact this
      rw [this]; simp
    · exfalso
      rw [hn] at h1 h2
      have hl : ([] : List Token) = lst := by
        rw [List.concat_eq_append, ← List.cons_append] at h1
        have := (List.append_inj' h1 rfl).2
        simpa using this
      obtain ⟨r, b, rest, hlst⟩ := h2 lst (by simp [List.concat_eq_append])
      rw [← hl] at hlst
      exact List.cons_ne_nil _ _ hlst.symm
  · rw [h1]
    simpa using h2

/-- C4. `wrapLineVisual` never splits a token: tokenising each returned segment
and concatenating the token lists gives the tokenisation of the whole line, and
every segment after the first starts with a Text token, for every line, width
and tab width. -/
theorem wrapLineVisual_keeps_tokens (line : Bytes) (width tabWidth : Int) :
    (wrapLineVisual line width tabWidth).flatMap tokens = tokens line ∧
      ∀ seg ∈ (wrapLineVisual line width tabWidth).tail,
        ∃ r b rest, tokens seg = Token.text r b :: rest := by
  rw [wrapLineVisual_eq]
  split
  · simp
  · split
    · rename_i h
      have := segGroups_flatten width tabWidth line
      rw [h] at this
      simp only [List.flatten_nil] at this
      simp [← this, tokens_nil]
    · constructor
      · exact flatMap_tokens_groups line _ (segGroups_flatten width tabWidth line)
      · intro seg hseg
        rw [← List.map_tail] at hseg
        obtain ⟨g, hg, rfl⟩ := List.mem_map.1 hseg
        rw [tokens_bytesOf_group line _ (segGroups_flatten width tabWidth line) g
          (List.mem_of_mem_tail hg)]
        exact segGroups_tail width tabWidth line g hg

/-! ## The visual width calculator -/

theorem isEastAsianWide_iff (r : Int) :
    isEastAsianWide r = true ↔
      r ≥ 0x1100 ∧
      (r ≤ 0x115f ∨ r = 0x2329 ∨ r = 0x232a ∨
        (r ≥ 0x2e80 ∧ r ≤ 0xa4cf ∧ r ≠ 0x303f) ∨
        (r ≥ 0xac00 ∧ r ≤ 0xd7a3) ∨
        (r ≥ 0xf900 ∧ r ≤ 0xfaff) ∨
        (r ≥ 0xfe10 ∧ r ≤ 0xfe19) ∨
        (r ≥ 0xfe30 ∧ r ≤ 0xfe6f) ∨
        (r ≥ 0xff00 ∧ r ≤ 0xff60) ∨
        (r ≥ 0xffe0 ∧ r ≤ 0xffe6) ∨
        (r ≥ 0x1b000 ∧ r ≤ 0x1b001) ∨
        (r ≥ 0x1f300 ∧ r ≤ 0x1f64f) ∨
        (r ≥ 0x1f900 ∧ r ≤ 0x1f9ff) ∨
        (r ≥ 0x20000 ∧ r ≤ 0x2fffd) ∨
        (r ≥ 0x30000 ∧ r ≤ 0x3fffd)) := by
  simp only [isEastAsianWide, eastAsianWideRanges, List.any_cons, List.any_nil, Bool.or_false,
    Bool.or_eq_true, decide_eq_true_eq, Bool.decide_and, Bool.and_eq_true, Bool.decide_or,
    Bool.decide_eq_true]
  omega

theorem runeVisualWidth_of_ne_tab (r col tabWidth : Int) (h : r ≠ 0x09) :
    runeVisualWidth r col tabWidth =
      if r < 0x20 ∨ r = 0x7f then 0 else if isEastAsianWide r = true then 2 else 1 := by
  unfold runeVisualWidth
  rw [if_neg h]
  simp only [isEastAsianWide_iff]

/-- C7. For every code point other than TAB, `runeVisualWidth` returns 0 for a
control code point (below 0x20, or 0x7F), 2 for a code point of the
East-Asian-Wide ranges of the specification and 1 otherwise, whatever the column
and the tab width. -/
theorem runeVisualWidth_table (r col tabWidth : Int) (h : r ≠ 0x09) :
    runeVisualWidth r col tabWidth =
      if r < 0x20 ∨ r = 0x7f then 0 else if isEastAsianWide r = true then 2 else 1 :=
  runeVisualWidth_of_ne_tab r col tabWidth h

/-- Witness of C7 at U+4E00, column 3, tab width 8. -/
theorem runeVisualWidth_table_witness :
    (0x4E00 : Int) ≠ 0x09 ∧
      runeVisualWidth 0x4E00 3 8 =
        if (0x4E00 : Int) < 0x20 ∨ (0x4E00 : Int) = 0x7f then 0
        else if isEastAsianWide 0x4E00 = true then 2 else 1 :=
  ⟨by decide, runeVisualWidth_table 0x4E00 3 8 (by decide)⟩

theorem runeVisualWidth_tab_eq (col t : Int) (hcol : 0 ≤ col) :
    runeVisualWidth 0x09 col t =
      (if t > 0 then t else 8) - col % (if t > 0 then t else 8) := by
  unfold runeVisualWidth
  simp only [if_true]
  by_cases ht : t > 0
  · have h1 : ¬ t ≤ 0 := by omega
    simp only [h1, ht, if_false, if_true]
    rw [Int.tmod_eq_emod hcol (by omega)]
  · have h1 : t ≤ 0 := by omega
    simp only [h1, ht, if_false, if_true]
    rw [Int.tmod_eq_emod hcol (by omega)]

theorem next_multiple (col e : Int) (he : 0 < e) :
    1 ≤ e - col % e ∧ e - col % e ≤ e ∧ e ∣ col + (e - col % e) ∧
      ∀ m : Int, e ∣ m → col < m → col + (e - col % e) ≤ m := by
  have h1 := Int.emod_nonneg col (ne_of_gt he)
  have h2 := Int.emod_lt_of_pos col he
  have h3 := Int.emod_add_ediv col e
  have h4 : col + (e - col % e) = e * (col / e + 1) := by rw [mul_add]; omega
  refine ⟨by omega, by omega, ⟨col / e + 1, h4⟩, ?_⟩
  rintro m ⟨k, rfl⟩ hlt
  rw [h4]
  have hq : col / e < k := by
    by_contra hk
    have hk' : k ≤ col / e := by omega
    have := Int.mul_le_mul_of_nonneg_left hk' (le_of_lt he)
    omega
  exact Int.mul_le_mul_of_nonneg_left (by omega) (le_of_lt he)

/-- C8. For a TAB at a column `col ≥ 0`, `runeVisualWidth` returns
`e - col mod e` with `e` the tab width when it is positive and 8 otherwise; the
result lies between 1 and `e`, and `col` plus the result is the least multiple
of `e` strictly greater than `col`. -/
theorem runeVisualWidth_tab (col t : Int) (hcol : 0 ≤ col) :
    runeVisualWidth 0x09 col t = (if t > 0 then t else 8) - col % (if t > 0 then t else 8) ∧
      1 ≤ runeVisualWidth 0x09 col t ∧
      runeVisualWidth 0x09 col t ≤ (if t > 0 then t else 8) ∧
      (if t > 0 then t else 8) ∣ col + runeVisualWidth 0x09 col t ∧
      col < col + runeVisualWidth 0x09 col t ∧
      ∀ m : Int, (if t > 0 then t else 8) ∣ m → col < m →
        col + runeVisualWidth 0x09 col t ≤ m := by
  have he : 0 < (if t > 0 then t else 8) := by split <;> omega
  have h := next_multiple col _ he
  rw [runeVisualWidth_tab_eq col t hcol]
  exact ⟨rfl, h.1, h.2.1, h.2.2.1, by omega, h.2.2.2⟩

/-- Witness of C8 at column 5 and tab width 4. -/
theorem runeVisualWidth_tab_witness :
    (0 : Int) ≤ 5 ∧ runeVisualWidth 0x09 5 4 = 3 ∧ (4 : Int) ∣ 5 + runeVisualWidth 0x09 5 4 := by
  have h := runeVisualWidth_tab 5 4 (by decide)
  refine ⟨by decide, ?_, ?_⟩
  · rw [h.1]; decide
  · simpa using h.2.2.2.1

/-! ## Code points and segment lengths -/

theorem runesLoop_fuel (fuel : Nat) (s : Bytes) (h : s.length ≤ fuel) :
    runesLoop fuel s = runesLoop s.length s := by
  induction fuel using Nat.strong_induction_on generalizing s with
  | _ fuel ih =>
    rcases fuel with _ | fuel
    · have : s = [] := List.length_eq_zero.1 (by omega)
      subst this; rfl
    · by_cases hs : s = []
      · subst hs; simp [runesLoop]
      · have hsz := decodeRune_size s hs
        have hlt : (s.drop (decodeRune s).2).length < s.length := by
          simp only [List.length_drop]; omega
        obtain ⟨n, hn⟩ : ∃ n, s.length = n + 1 := ⟨s.length - 1, by omega⟩
        rw [hn]
        simp only [runesLoop, hs, if_false]
        rw [ih fuel (by omega) _ (by omega), ih n (by omega) _ (by omega)]

theorem runes_nil : runes [] = [] := rfl

theorem runes_step (s : Bytes) (hs : s ≠ []) :
    runes s = (decodeRune s).1 :: runes (s.drop (decodeRune s).2) := by
  have hsz := decodeRune_size s hs
  have hlt : (s.drop (decodeRune s).2).length < s.length := by
    simp only [List.length_drop]; omega
  obtain ⟨n, hn⟩ : ∃ n, s.length = n + 1 := ⟨s.length - 1, by omega⟩
  unfold runes
  rw [hn]
  simp only [runesLoop, hs, if_false]
  rw [runesLoop_fuel n _ (by omega)]

theorem nextToken_of_not_isCSI (s : Bytes) (h : isCSI s = false) :
    nextToken s =
      (.text (decodeRune s).1 (s.take (decodeRune s).2), s.drop (decodeRune s).2) := by
  simp [nextToken, h]

theorem nextToken_of_isCSI (s : Bytes) (h : isCSI s = true) :
    nextToken s =
      (.esc (0x1b :: 0x5b :: (scanEscape (s.drop 2)).1), (scanEscape (s.drop 2)).2) := by
  simp [nextToken, h]

theorem decodeRune_of_isCSI (s : Bytes) (h : isCSI s = true) : decodeRune s = (0x1b, 1) := by
  obtain ⟨t, rfl⟩ := (isCSI_iff s).1 h
  simp [decodeRune]

/-- In a line without the code point ESC every token is a Text token that holds
a code point of the line. -/
theorem tokens_text_of_runes (s : Bytes) (h : ∀ r ∈ runes s, r ≠ 0x1b) :
    ∀ t ∈ tokens s, ∃ r b, t = Token.text r b ∧ r ∈ runes s := by
  induction s using token_induction with
  | h0 => simp [tokens_nil]
  | hstep rest hr ih =>
    have hc : isCSI rest = false := by
      cases hc : isCSI rest with
      | false => rfl
      | true =>
        exfalso
        refine h 0x1b ?_ rfl
        rw [runes_step rest hr, decodeRune_of_isCSI rest hc]
        exact List.mem_cons_self _ _
    rw [nextToken_of_not_isCSI rest hc] at ih
    rw [tokens_step rest hr, nextToken_of_not_isCSI rest hc, runes_step rest hr]
    intro t ht
    rcases List.mem_cons.1 ht with rfl | ht
    · exact ⟨_, _, rfl, List.mem_cons_self _ _⟩
    · obtain ⟨r, b, e, hm⟩ :=
        ih (fun r hr' => h r (by rw [runes_step rest hr]; exact List.mem_cons_of_mem _ hr')) t ht
      exact ⟨r, b, e, List.mem_cons_of_mem _ hm⟩

/-- A string all of whose tokens are Text tokens has as many code points as tokens. -/
theorem runeCount_of_all_text (s : Bytes) (h : ∀ t ∈ tokens s, t.isText = true) :
    runeCount s = (tokens s).length := by
  unfold runeCount
  induction s using token_induction with
  | h0 => rfl
  | hstep rest hr ih =>
    rw [tokens_step rest hr] at h
    have hc : isCSI rest = false := by
      cases hc : isCSI rest with
      | false => rfl
      | true =>
        have := h _ (List.mem_cons_self _ _)
        rw [nextToken_of_isCSI rest hc] at this
        simp [Token.isText] at this
    rw [tokens_step rest hr, runes_step rest hr]
    have ih' := ih (fun t ht => h t (List.mem_cons_of_mem _ ht))
    rw [nextToken_of_not_isCSI rest hc] at ih' ⊢
    simp only [List.length_cons, ih']

theorem width_pos_of_not_control (r : Nat) (col tabWidth : Int)
    (h : isControl (r : Int) = false) :
    1 ≤ runeVisualWidth r col tabWidth := by
  have h' : ¬ ((r : Int) < 0x20 ∨ (r : Int) = 0x7f) := by simpa [isControl] using h
  rw [runeVisualWidth_of_ne_tab _ _ _ (by omega), if_neg h']
  split <;> omega

theorem width_one_of_narrow (r : Nat) (col tabWidth : Int)
    (h : isControl (r : Int) = false) (hn : isEastAsianWide (r : Int) = false) :
    runeVisualWidth r col tabWidth = 1 := by
  have h' : ¬ ((r : Int) < 0x20 ∨ (r : Int) = 0x7f) := by simpa [isControl] using h
  rw [runeVisualWidth_of_ne_tab _ _ _ (by omega), if_neg h']
  simp [hn]

/-- With Text tokens of width at least 1 only, no segment holds more than
`width` tokens. -/
theorem groupToks_length_le (width tabWidth : Int) (hw : 0 < width) (ts : List Token) :
    ∀ (rg : List (List Token)) (cg : List Token) (v : Int),
      (∀ t ∈ ts, ∃ r b, t = Token.text r b ∧ isControl (r : Int) = false) →
      (∀ g ∈ rg, (g.length : Int) ≤ width) →
      (cg.length : Int) ≤ v → (cg.length ≤ 1 ∨ v ≤ width) →
      (∀ g ∈ (groupToks width tabWidth ts rg cg v).1, (g.length : Int) ≤ width) ∧
        ((groupToks width tabWidth ts rg cg v).2.length : Int) ≤ width := by
  induction ts with
  | nil =>
    intro rg cg v _ hrg h1 h2
    refine ⟨by simpa [groupToks] using hrg, ?_⟩
    simp only [groupToks]
    omega
  | cons t ts ih =>
    intro rg cg v hts hrg h1 h2
    obtain ⟨r, b, rfl, hr⟩ := hts t (List.mem_cons_self _ _)
    have hts' : ∀ t ∈ ts, ∃ r b, t = Token.text r b ∧ isControl (r : Int) = false :=
      fun t ht => hts t (List.mem_cons_of_mem _ ht)
    have hrw := width_pos_of_not_control r v tabWidth hr
    simp only [groupToks]
    split
    · rename_i hf
      refine ih _ _ _ hts' ?_ (by simpa using hrw) (Or.inl (by simp))
      intro g hg
      rcases List.mem_append.1 hg with hg | hg
      · exact hrg g hg
      · have : g = cg := by simpa using hg
        subst this
        omega
    · rename_i hf
      refine ih _ _ _ hts' hrg (by simp only [List.length_append, List.length_singleton]; omega) ?_
      simp only [List.length_append, List.length_singleton]
      by_cases hv : v > 0
      · right; omega
      · left; omega

/-- With Text tokens of width 1 only, every finished segment holds exactly
`width` tokens. -/
theorem groupToks_length_eq (width tabWidth : Int) (hw : 0 < width) (ts : List Token) :
    ∀ (rg : List (List Token)) (cg : List Token) (v : Int),
      (∀ t ∈ ts, ∃ r b, t = Token.text r b ∧ isControl (r : Int) = false ∧
        isEastAsianWide (r : Int) = false) →
      (∀ g ∈ rg, (g.length : Int) = width) →
      (cg.length : Int) = v → v ≤ width →
      ∀ g ∈ (groupToks width tabWidth ts rg cg v).1, (g.length : Int) = width := by
  induction ts with
  | nil =>
    intro rg cg v _ hrg _ _
    simpa [groupToks] using hrg
  | cons t ts ih =>
    intro rg cg v hts hrg h1 h2
    obtain ⟨r, b, rfl, hr, hn⟩ := hts t (List.mem_cons_self _ _)
    have hts' : ∀ t ∈ ts, ∃ r b, t = Token.text r b ∧ isControl (r : Int) = false ∧
        isEastAsianWide (r : Int) = false :=
      fun t ht => hts t (List.mem_cons_of_mem _ ht)
    have hrw := width_one_of_narrow r v tabWidth hr hn
    simp only [groupToks, hrw]
    split
    · rename_i hf
      refine ih _ _ _ hts' ?_ (by simp) (by omega)
      intro g hg
      rcases List.mem_append.1 hg with hg | hg
      · exact hrg g hg
      · have : g = cg := by simpa using hg
        subst this
        omega
    · rename_i hf
      refine ih _ _ _ hts' hrg (by simp only [List.length_append, List.length_singleton]; omega) ?_
      by_cases hv : v > 0
      · omega
      · have : v = 0 := by omega
        omega

theorem segGroups_mem (width tabWidth : Int) (line : Bytes) (g : List Token)
    (hg : g ∈ segGroups width tabWidth line) :
    g ∈ (groupToks width tabWidth (tokens line) [] [] 0).1 ∨
      g = (groupToks width tabWidth (tokens line) [] [] 0).2 := by
  unfold segGroups at hg
  split at hg
  · exact Or.inl hg
  · rcases List.mem_append.1 hg with h | h
    · exact Or.inl h
    · exact Or.inr (by simpa using h)

theorem segGroups_dropLast_mem (width tabWidth : Int) (line : Bytes) (g : List Token)
    (hg : g ∈ (segGroups width tabWidth line).dropLast) :
    g ∈ (groupToks width tabWidth (tokens line) [] [] 0).1 := by
  unfold segGroups at hg
  split at hg
  · exact List.dropLast_subset _ hg
  · simpa using hg

theorem segGroups_mem_tokens (width tabWidth : Int) (line : Bytes) (g : List Token)
    (hg : g ∈ segGroups width tabWidth line) : ∀ t ∈ g, t ∈ tokens line := by
  intro t ht
  rw [← segGroups_flatten width tabWidth line]
  exact List.mem_flatten.2 ⟨g, hg, ht⟩

/-- C3. For a positive width and a line without control code points (hence
without escape sequences), every segment returned by `wrapLineVisual` has at
most `width` code points; when the line has no wide code point either, every
segment except the last has exactly `width` code points. -/
theorem wrapLineVisual_segment_length (line : Bytes) (width tabWidth : Int) (hw : 0 < width)
    (hctl : ∀ r ∈ runes line, isControl (r : Int) = false) :
    (∀ seg ∈ wrapLineVisual line width tabWidth, (runeCount seg : Int) ≤ width) ∧
      ((∀ r ∈ runes line, isEastAsianWide (r : Int) = false) →
        ∀ seg ∈ (wrapLineVisual line width tabWidth).dropLast, (runeCount seg : Int) = width) := by
  have hne : ∀ r ∈ runes line, r ≠ 0x1b := by
    intro r hr h
    have := hctl r hr
    rw [h] at this
    simp [isControl] at this
  have htok := tokens_text_of_runes line hne
  have hts : ∀ t ∈ tokens line, ∃ r b, t = Token.text r b ∧ isControl (r : Int) = false := by
    intro t ht
    obtain ⟨r, b, e, hm⟩ := htok t ht
    exact ⟨r, b, e, hctl r hm⟩
  have hfl := segGroups_flatten width tabWidth line
  have hcount : ∀ g ∈ segGroups width tabWidth line, runeCount (bytesOf g) = g.length := by
    intro g hg
    have hself := tokens_bytesOf_group line _ hfl g hg
    have hall : ∀ t ∈ tokens (bytesOf g), t.isText = true := by
      rw [hself]
      intro t ht
      obtain ⟨r, b, e, _⟩ := htok t (segGroups_mem_tokens width tabWidth line g hg t ht)
      rw [e]; rfl
    rw [runeCount_of_all_text _ hall, hself]
  have hle := groupToks_length_le width tabWidth hw (tokens line) [] [] 0 hts (by simp)
    (by simp) (Or.inl (by simp))
  rw [wrapLineVisual_eq, if_neg (by omega)]
  split
  · constructor
    · intro seg hseg
      have : seg = [] := by simpa using hseg
      subst this
      have : runeCount [] = 0 := rfl
      rw [this]; omega
    · intro _ seg hseg
      simp at hseg
  · constructor
    · intro seg hseg
      obtain ⟨g, hg, rfl⟩ := List.mem_map.1 hseg
      rw [hcount g hg]
      rcases segGroups_mem width tabWidth line g hg with h | h
      · exact hle.1 g h
      · rw [h]; exact hle.2
    · intro hnarrow seg hseg
      rw [← List.map_dropLast] at hseg
      obtain ⟨g, hg, rfl⟩ := List.mem_map.1 hseg
      rw [hcount g (List.dropLast_subset _ hg)]
      have hts2 : ∀ t ∈ tokens line, ∃ r b, t = Token.text r b ∧ isControl (r : Int) = false ∧
          isEastAsianWide (r : Int) = false := by
        intro t ht
        obtain ⟨r, b, e, hm⟩ := htok t ht
        exact ⟨r, b, e, hctl r hm, hnarrow r hm⟩
      exact groupToks_length_eq width tabWidth hw (tokens line) [] [] 0 hts2 (by simp) (by simp)
        (by omega) g (segGroups_dropLast_mem width tabWidth line g hg)

/-- Witness of C3: the line `abcde` at width 2. -/
theorem wrapLineVisual_segment_length_witness :
    (0 : Int) < 2 ∧ (∀ r ∈ runes [0x61, 0x62, 0x63, 0x64, 0x65], isControl (r : Int) = false) ∧
      ∀ seg ∈ wrapLineVisual [0x61, 0x62, 0x63, 0x64, 0x65] 2 8, (runeCount seg : Int) ≤ 2 :=
  ⟨by decide, by decide,
    (wrapLineVisual_segment_length [0x61, 0x62, 0x63, 0x64, 0x65] 2 8 (by decide)
      (by decide)).1⟩

/-! ## Escape stripping in terms of tokens -/

theorem stripLoop_acc (fuel : Nat) :
    ∀ (s b : Bytes), stripLoop fuel s b = b ++ stripLoop fuel s [] := by
  induction fuel with
  | zero => intro s b; simp [stripLoop]
  | succ fuel ih =>
    intro s b
    rcases s with _ | ⟨c, t⟩
    · simp [stripLoop]
    · simp only [stripLoop]
      split
      · exact ih _ _
      · rw [ih t (b ++ [c]), ih t ([] ++ [c])]
        simp

theorem stripLoop_fuel (fuel : Nat) (s : Bytes) (h : s.length ≤ fuel) :
    stripLoop fuel s [] = stripLoop s.length s [] := by
  induction fuel using Nat.strong_induction_on generalizing s with
  | _ fuel ih =>
    rcases fuel with _ | fuel
    · have : s = [] := List.length_eq_zero.1 (by omega)
      subst this; rfl
    · rcases s with _ | ⟨c, t⟩
      · simp [stripLoop]
      · have hl := scanEscape_length_le ((c :: t).drop 2)
        have hd : ((c :: t).drop 2).length ≤ t.length := by simp
        simp only [List.length_cons] at h
        simp only [stripLoop, List.length_cons]
        split
        · rw [ih fuel (by omega) _ (by omega), ih t.length (by omega) _ (by omega)]
        · rw [stripLoop_acc fuel, stripLoop_acc t.length, ih fuel (by omega) _ (by omega)]

theorem stripANSI_nil : stripANSI [] = [] := rfl

theorem stripANSI_cons (c : Nat) (t : Bytes) :
    stripANSI (c :: t) =
      if isCSI (c :: t) then stripANSI (scanEscape ((c :: t).drop 2)).2
      else c :: stripANSI t := by
  have hl := scanEscape_length_le ((c :: t).drop 2)
  have hd : ((c :: t).drop 2).length ≤ t.length := by simp
  unfold stripANSI
  simp only [stripLoop, List.length_cons]
  split
  · rw [stripLoop_fuel t.length _ (by omega)]
  · rw [stripLoop_acc]
    simp

theorem stripANSI_append_of_ne_esc (p q : Bytes) (h : ∀ b ∈ p, b ≠ 0x1b) :
    stripANSI (p ++ q) = p ++ stripANSI q := by
  induction p with
  | nil => rfl
  | cons c p ih =>
    have hc : isCSI (c :: (p ++ q)) = false := by
      cases hcs : isCSI (c :: (p ++ q)) with
      | false => rfl
      | true =>
        obtain ⟨t, ht⟩ := (isCSI_iff _).1 hcs
        have : c = 0x1b := by simpa using (List.cons.inj ht).1
        exact absurd this (h c (List.mem_cons_self _ _))
    rw [List.cons_append, stripANSI_cons, hc]
    simp only [Bool.false_eq_true, if_false]
    rw [ih (fun b hb => h b (List.mem_cons_of_mem _ hb))]
    rfl

theorem getD_ge_of_tail {s : Bytes} {k : Nat}
    (h : ∀ i, 1 ≤ i → i < k → 0x80 ≤ s.getD i 0) (hk : k ≤ s.length) :
    ∀ b ∈ (s.take k).drop 1, 0x80 ≤ b := by
  intro b hb
  obtain ⟨i, hi, rfl⟩ := List.getElem_of_mem hb
  simp only [List.length_drop, List.length_take] at hi
  have h1 := h (i + 1) (by omega) (by omega)
  have h2 : i + 1 < s.length := by omega
  rw [List.getD_eq_getElem _ _ h2] at h1
  simpa [List.getElem_drop, List.getElem_take] using h1

/-- Bytes of a decoded code point after the first are continuation bytes. -/
theorem decodeRune_tail_ge (s : Bytes) (hs : s ≠ []) :
    ∀ b ∈ (s.take (decodeRune s).2).drop 1, 0x80 ≤ b := by
  rcases decodeRune_cases s hs with he | ⟨r, k, hd, _, hk, hcont, _, _⟩
  · rw [he]
    intro b hb
    have : ((s.take 1).drop 1).length = 0 := by simp [List.length_take]
    rw [List.length_eq_zero.1 this] at hb
    exact absurd hb (List.not_mem_nil _)
  · rw [hd]
    exact getD_ge_of_tail hcont hk

/-- Stripping passes over a Text token unchanged. -/
theorem stripANSI_text (s : Bytes) (hs : s ≠ []) (hc : isCSI s = false) :
    stripANSI s = s.take (decodeRune s).2 ++ stripANSI (s.drop (decodeRune s).2) := by
  have hsz := decodeRune_size s hs
  have htail := decodeRune_tail_ge s hs
  rcases s with _ | ⟨c, t⟩
  · exact absurd rfl hs
  obtain ⟨n, hn⟩ : ∃ n, (decodeRune (c :: t)).2 = n + 1 := ⟨(decodeRune (c :: t)).2 - 1, by omega⟩
  rw [hn] at htail ⊢
  simp only [List.take_succ_cons, List.drop_succ_cons, List.drop_zero, List.cons_append] at htail ⊢
  rw [stripANSI_cons, hc]
  simp only [Bool.false_eq_true, if_false, List.cons.injEq, true_and]
  conv_lhs => rw [← List.take_append_drop n t]
  exact stripANSI_append_of_ne_esc _ _ (fun b hb => by have := htail b hb; omega)

/-- Stripping removes exactly the escape tokens. -/
theorem stripANSI_eq_text_tokens (s : Bytes) :
    stripANSI s = bytesOf ((tokens s).filter Token.isText) := by
  induction s using token_induction with
  | h0 => rfl
  | hstep rest hr ih =>
    rw [tokens_step rest hr]
    cases hc : isCSI rest with
    | true =>
      rw [nextToken_of_isCSI rest hc] at ih ⊢
      obtain ⟨c, t, rfl⟩ := List.exists_cons_of_ne_nil hr
      rw [stripANSI_cons, hc]
      simp only [if_true, ih]
      simp [Token.isText]
    | false =>
      rw [nextToken_of_not_isCSI rest hc] at ih ⊢
      rw [stripANSI_text rest hr hc, ih]
      simp [Token.isText, bytesOf_cons, Token.bytes]

/-! ## Escape opacity of the wrapper -/

theorem tokens_mem_nextToken (s : Bytes) :
    ∀ t ∈ tokens s, ∃ rest : Bytes, rest ≠ [] ∧ t = (nextToken rest).1 := by
  induction s using token_induction with
  | h0 => simp [tokens_nil]
  | hstep rest hr ih =>
    rw [tokens_step rest hr]
    intro t ht
    rcases List.mem_cons.1 ht with rfl | ht
    · exact ⟨rest, hr, rfl⟩
    · exact ih t ht

/-- A validly encoded Text token other than ESC is read back as the same token
whatever follows it. -/
theorem nextToken_text_append (rest : Bytes) (hr : rest ≠ []) (r : Nat) (b : Bytes)
    (ht : (nextToken rest).1 = Token.text r b) (hesc : r ≠ 0x1b)
    (hval : ¬ (r = RuneError ∧ b.length = 1)) (x : Bytes) :
    nextToken (b ++ x) = (Token.text r b, x) := by
  have hc : isCSI rest = false := by
    cases hc : isCSI rest with
    | false => rfl
    | true => rw [nextToken_of_isCSI rest hc] at ht; cases ht
  rw [nextToken_of_not_isCSI rest hc] at ht
  simp only [Token.text.injEq] at ht
  obtain ⟨hr1, hb⟩ := ht
  have hsz := decodeRune_size rest hr
  have hlen : b.length = (decodeRune rest).2 := by
    rw [← hb, List.length_take]; omega
  rcases decodeRune_cases rest hr with he | ⟨r', k, hd, hk1, hk, _, hone, hv⟩
  · exfalso
    rw [he] at hr1 hlen
    exact hval ⟨hr1.symm, hlen⟩
  · rw [hd] at hr1 hb hlen
    simp only at hr1 hb hlen
    subst hr1
    have hdec : decodeRune (b ++ x) = (r', k) :=
      hv (b ++ x) (by rw [List.take_left' hlen, hb])
    have hc2 : isCSI (b ++ x) = false := by
      cases hcs : isCSI (b ++ x) with
      | false => rfl
      | true =>
        exfalso
        have := decodeRune_of_isCSI _ hcs
        rw [hdec] at this
        exact hesc (Prod.mk.inj this).1
    rw [nextToken_of_not_isCSI _ hc2, hdec]
    simp only [List.take_left' hlen, List.drop_left' hlen]

theorem tokens_bytesOf_self (ts : List Token)
    (h : ∀ t ∈ ts, t.bytes ≠ [] ∧ ∀ x : Bytes, nextToken (t.bytes ++ x) = (t, x)) :
    tokens (bytesOf ts) = ts := by
  induction ts with
  | nil => rfl
  | cons t ts ih =>
    have ht := h t (List.mem_cons_self _ _)
    have hne : bytesOf (t :: ts) ≠ [] := by
      rw [bytesOf_cons]; simp [ht.1]
    rw [tokens_step _ hne, bytesOf_cons, ht.2]
    simp only [ih (fun t' ht' => h t' (List.mem_cons_of_mem _ ht'))]

/-- In a well-formed line, tokenising the stripped line gives the Text tokens of
the line. -/
theorem tokens_stripANSI (line : Bytes) (hwf : TextWellFormed line) :
    tokens (stripANSI line) = (tokens line).filter Token.isText := by
  rw [stripANSI_eq_text_tokens]
  apply tokens_bytesOf_self
  intro t ht
  obtain ⟨htm, htx⟩ := List.mem_filter.1 ht
  refine ⟨tokens_bytes_ne_nil line t htm, ?_⟩
  cases t with
  | esc b => simp [Token.isText] at htx
  | text r b =>
    obtain ⟨rest, hr, hrest⟩ := tokens_mem_nextToken line _ htm
    have hw := hwf _ htm
    simp only [Token.wellFormed, Bool.and_eq_true, decide_eq_true_eq, Bool.not_eq_true',
      decide_eq_false_iff_not] at hw
    obtain ⟨h1, h2⟩ := hw
    intro x
    exact nextToken_text_append rest hr r b hrest.symm h1 h2 x

/-- The wrap decisions ignore escape tokens. -/
theorem groupToks_filter (width tabWidth : Int) (ts : List Token) :
    ∀ (rg : List (List Token)) (cg : List Token) (v : Int),
      groupToks width tabWidth (ts.filter Token.isText)
          (rg.map (List.filter Token.isText)) (cg.filter Token.isText) v =
        ((groupToks width tabWidth ts rg cg v).1.map (List.filter Token.isText),
          (groupToks width tabWidth ts rg cg v).2.filter Token.isText) := by
  induction ts with
  | nil => intro rg cg v; simp [groupToks]
  | cons t ts ih =>
    intro rg cg v
    cases t with
    | esc b =>
      have := ih rg (cg ++ [.esc b]) v
      simp only [List.filter_append, List.filter_cons, Token.isText, Bool.false_eq_true,
        if_false, List.filter_nil, List.append_nil] at this
      simp only [List.filter_cons, Token.isText, Bool.false_eq_true, if_false, groupToks]
      exact this
    | text r b =>
      simp only [List.filter_cons, Token.isText, if_true, groupToks]
      split
      · have := ih (rg ++ [cg]) [.text r b] (0 + runeVisualWidth r v tabWidth)
        simpa [List.filter_cons, Token.isText] using this
      · have := ih rg (cg ++ [.text r b]) (v + runeVisualWidth r v tabWidth)
        simpa [List.filter_cons, Token.isText] using this

theorem groupToks_cur_text (width tabWidth : Int) (line : Bytes)
    (h : (groupToks width tabWidth (tokens line) [] [] 0).1 ≠ []) :
    (groupToks width tabWidth (tokens line) [] [] 0).2.filter Token.isText ≠ [] := by
  obtain ⟨ext, new, h1, h2⟩ := groupToks_heads width tabWidth (tokens line) [] [] 0
  simp only [List.nil_append] at h1
  rcases List.eq_nil_or_concat new with hn | ⟨new', lst, hn⟩
  · subst hn
    exfalso
    have := congrArg List.length h1
    simp only [List.length_append, List.length_singleton, List.length_nil, zero_add,
      add_left_eq_self, List.length_eq_zero] at this
    exact h this
  · rw [hn, List.concat_eq_append, ← List.cons_append] at h1
    have hl := (List.append_inj' h1 rfl).2
    simp only [List.cons.injEq, and_true] at hl
    obtain ⟨r, b, rest, hlst⟩ := h2 lst (by rw [hn]; simp [List.concat_eq_append])
    rw [hl, hlst]
    simp [List.filter_cons, Token.isText]

theorem stripANSI_bytesOf_group (line : Bytes) (gs : List (List Token))
    (h : gs.flatten = tokens line) :
    ∀ g ∈ gs, stripANSI (bytesOf g) = bytesOf (g.filter Token.isText) := by
  intro g hg
  rw [stripANSI_eq_text_tokens, tokens_bytesOf_group line gs h g hg]

theorem map_stripANSI_groups (gs : List (List Token))
    (h : ∀ g ∈ gs, stripANSI (bytesOf g) = bytesOf (g.filter Token.isText)) :
    (gs.map bytesOf).map stripANSI = (gs.map (List.filter Token.isText)).map bytesOf := by
  simp only [List.map_map]
  exact List.map_congr_left (fun g hg => h g hg)

/-- Escape opacity for well-formed lines. -/
theorem wrapLineVisual_stripANSI (line : Bytes) (width tabWidth : Int)
    (hwf : TextWellFormed line) :
    (wrapLineVisual line width tabWidth).map stripANSI =
      wrapLineVisual (stripANSI line) width tabWidth := by
  rw [wrapLineVisual_eq, wrapLineVisual_eq]
  by_cases hw : width ≤ 0
  · simp [hw]
  simp only [hw, if_false]
  have hfl := segGroups_flatten width tabWidth line
  have hstrip := stripANSI_bytesOf_group line _ hfl
  have hf := groupToks_filter width tabWidth (tokens line) [] [] 0
  simp only [List.map_nil, List.filter_nil] at hf
  have hseg' : segGroups width tabWidth (stripANSI line) =
      if (groupToks width tabWidth (tokens line) [] [] 0).2.filter Token.isText = [] then
        (groupToks width tabWidth (tokens line) [] [] 0).1.map (List.filter Token.isText)
      else
        (groupToks width tabWidth (tokens line) [] [] 0).1.map (List.filter Token.isText) ++
          [(groupToks width tabWidth (tokens line) [] [] 0).2.filter Token.isText] := by
    unfold segGroups
    rw [tokens_stripANSI line hwf, hf]
  have hcur := groupToks_cur_text width tabWidth line
  rw [hseg']
  have hmap := map_stripANSI_groups _ hstrip
  revert hmap hstrip
  unfold segGroups
  generalize (groupToks width tabWidth (tokens line) [] [] 0).1 = R at hcur ⊢
  generalize (groupToks width tabWidth (tokens line) [] [] 0).2 = C at hcur ⊢
  intro hstrip hmap
  by_cases hC : C = []
  · subst hC
    simp only [if_true, List.filter_nil] at hstrip hmap ⊢
    by_cases hR : R = []
    · subst hR; simp [stripANSI_nil]
    · simp only [hR, if_false, List.map_eq_nil_iff]
      exact hmap
  · simp only [hC, if_false] at hstrip hmap ⊢
    by_cases hFC : C.filter Token.isText = []
    · have hR : R = [] := by
        by_contra hR
        exact hcur hR hFC
      subst hR
      simp only [hFC, if_true, List.map_nil, List.nil_append, List.cons_ne_nil, if_false,
        List.map_cons]
      rw [hstrip C (by simp), hFC]
      rfl
    · simp only [hFC, if_false, List.append_eq_nil, List.cons_ne_nil, and_false]
      rw [hmap]
      simp

/-- C2 (amended). Escape opacity for well-formed lines: when every Text token of
the line is a validly encoded code point other than ESC, escape-stripping each
segment of `wrapLineVisual line width tabWidth` gives the segments of
`wrapLineVisual (stripANSI line) width tabWidth`, for every width and tab width. -/
theorem wrapLineVisual_escape_opacity (line : Bytes) (width tabWidth : Int)
    (hwf : TextWellFormed line) :
    (wrapLineVisual line width tabWidth).map stripANSI =
      wrapLineVisual (stripANSI line) width tabWidth :=
  wrapLineVisual_stripANSI line width tabWidth hwf

/-- Witness of C2 (amended): the line `a ESC[0m b` followed by U+4F60, width 1. -/
theorem wrapLineVisual_escape_opacity_witness :
    TextWellFormed [0x61, 0x1b, 0x5b, 0x30, 0x6d, 0x62, 0xE4, 0xBD, 0xA0] ∧
      (wrapLineVisual [0x61, 0x1b, 0x5b, 0x30, 0x6d, 0x62, 0xE4, 0xBD, 0xA0] 1 8).map stripANSI =
        wrapLineVisual (stripANSI [0x61, 0x1b, 0x5b, 0x30, 0x6d, 0x62, 0xE4, 0xBD, 0xA0]) 1 8 :=
  ⟨by decide, wrapLineVisual_escape_opacity _ 1 8 (by decide)⟩

/-- Counterexample to C2 as stated: in the line `ESC ESC[m [ x` the stripped line
`ESC [ x` is itself an escape sequence, so the stripped segments are `ESC [` and
`x` while the stripped line wraps into the single segment `ESC [ x`.  In the line
`E4 ESC[m BD A0` the escape sequence separates the bytes of U+4F60: the line
wraps as three rejected bytes, the stripped line as one wide code point. -/
theorem wrapLineVisual_escape_opacity_fails :
    (wrapLineVisual [0x1b, 0x1b, 0x5b, 0x6d, 0x5b, 0x78] 1 8).map stripANSI = [[0x1b, 0x5b], [0x78]] ∧
      wrapLineVisual (stripANSI [0x1b, 0x1b, 0x5b, 0x6d, 0x5b, 0x78]) 1 8 = [[0x1b, 0x5b, 0x78]] ∧
      (wrapLineVisual [0x1b, 0x1b, 0x5b, 0x6d, 0x5b, 0x78] 1 8).map stripANSI ≠
        wrapLineVisual (stripANSI [0x1b, 0x1b, 0x5b, 0x6d, 0x5b, 0x78]) 1 8 ∧
      (wrapLineVisual [0xE4, 0x1b, 0x5b, 0x6d, 0xBD, 0xA0] 1 8).map stripANSI =
        [[0xE4], [0xBD], [0xA0]] ∧
      wrapLineVisual (stripANSI [0xE4, 0x1b, 0x5b, 0x6d, 0xBD, 0xA0]) 1 8 = [[0xE4, 0xBD, 0xA0]] := by
  decide

/-! ## The end marker -/

theorem scanBack_none (line : Bytes) (h : ∀ b ∈ line, b ≠ 0x1b) (k : Nat) :
    scanBack line k = none := by
  induction k with
  | zero => rfl
  | succ k ih =>
    have : line.get? k ≠ some 0x1b := by
      intro hk
      exact h _ (List.get?_mem hk) rfl
    rw [scanBack, if_pos this, ih]

theorem scanBack_found (pre mid : Bytes) (n : Nat) (hn : n ≤ mid.length)
    (h : ∀ b ∈ mid.take n, b ≠ 0x1b) :
    scanBack (pre ++ 0x1b :: mid) (pre.length + 1 + n) = some pre.length := by
  induction n with
  | zero =>
    have : (pre ++ 0x1b :: mid).get? pre.length = some 0x1b := by
      rw [List.get?_eq_getElem?, List.getElem?_append_right (le_refl _), Nat.sub_self]
      simp
    rw [add_zero, scanBack, this]
    simp
  | succ n ih =>
    have hlt : n < mid.length := by omega
    have hget : (pre ++ 0x1b :: mid).get? (pre.length + 1 + n) = some mid[n] := by
      rw [List.get?_eq_getElem?, List.getElem?_append_right (by omega)]
      have : pre.length + 1 + n - pre.length = n + 1 := by omega
      rw [this, List.getElem?_cons_succ, List.getElem?_eq_getElem hlt]
    have hne : mid[n] ≠ 0x1b := by
      apply h
      rw [List.mem_iff_getElem]
      exact ⟨n, by simp [List.length_take]; omega, by simp [List.getElem_take]⟩
    have hstep : scanBack (pre ++ 0x1b :: mid) (pre.length + 1 + (n + 1)) =
        scanBack (pre ++ 0x1b :: mid) (pre.length + 1 + n) := by
      rw [show pre.length + 1 + (n + 1) = (pre.length + 1 + n) + 1 from by omega, scanBack, hget,
        if_pos (by simpa using hne)]
    rw [hstep]
    exact ih (by omega) (fun b hb => h b (List.take_subset_take_left mid (Nat.le_succ n) hb))

/-- Splice before a final `ESC [ ... m`: the backward scan stops at the last ESC. -/
theorem appendBeforeTrailingReset_splice (pre params ins : Bytes)
    (h : ∀ b ∈ params, b ≠ 0x1b) :
    appendBeforeTrailingReset (pre ++ 0x1b :: 0x5b :: (params ++ [0x6d])) ins =
      pre ++ ins ++ 0x1b :: 0x5b :: (params ++ [0x6d]) := by
  have hlen : (pre ++ 0x1b :: 0x5b :: (params ++ [0x6d])).length = pre.length + 1 + (params.length + 2) := by
    simp; omega
  have hlast : (pre ++ 0x1b :: 0x5b :: (params ++ [0x6d])).get?
      ((pre ++ 0x1b :: 0x5b :: (params ++ [0x6d])).length - 1) = some 0x6d := by
    rw [hlen, List.get?_eq_getElem?, List.getElem?_append_right (by omega)]
    have : pre.length + 1 + (params.length + 2) - 1 - pre.length = params.length + 1 + 1 := by omega
    rw [this, List.getElem?_cons_succ, List.getElem?_cons_succ,
      List.getElem?_append_right (le_refl _), Nat.sub_self]
    rfl
  have hscan : scanBack (pre ++ 0x1b :: 0x5b :: (params ++ [0x6d]))
      ((pre ++ 0x1b :: 0x5b :: (params ++ [0x6d])).length - 1) = some pre.length := by
    rw [hlen, show pre.length + 1 + (params.length + 2) - 1 = pre.length + 1 + (params.length + 1)
      from by omega]
    refine scanBack_found pre (0x5b :: (params ++ [0x6d])) (params.length + 1) (by simp) ?_
    intro b hb
    rw [List.take_succ_cons, List.take_left' rfl] at hb
    rcases List.mem_cons.1 hb with rfl | hb
    · decide
    · exact h b hb
  have hnext : (pre ++ 0x1b :: 0x5b :: (params ++ [0x6d])).get? (pre.length + 1) = some 0x5b := by
    rw [List.get?_eq_getElem?, List.getElem?_append_right (by omega)]
    have : pre.length + 1 - pre.length = 0 + 1 := by omega
    rw [this, List.getElem?_cons_succ]
    simp
  unfold appendBeforeTrailingReset
  rw [if_neg (by rw [hlen]; omega), if_pos hlast, hscan]
  simp only
  rw [if_pos ⟨by rw [hlen]; omega, hnext⟩, List.take_left' rfl, List.drop_left' rfl]

theorem appendBeforeTrailingReset_of_last_ne (line ins : Bytes)
    (h : line.getLast? ≠ some 0x6d) : appendBeforeTrailingReset line ins = line ++ ins := by
  unfold appendBeforeTrailingReset
  split
  · rename_i h0
    rw [List.length_eq_zero.1 h0]; rfl
  · rw [if_neg]
    rw [List.get?_eq_getElem?, ← List.getLast?_eq_getElem?]
    exact h

theorem appendBeforeTrailingReset_of_no_esc (line ins : Bytes)
    (h : ∀ b ∈ line, b ≠ 0x1b) : appendBeforeTrailingReset line ins = line ++ ins := by
  unfold appendBeforeTrailingReset
  split
  · rename_i h0
    rw [List.length_eq_zero.1 h0]; rfl
  · split
    · rw [scanBack_none line h]
    · rfl

/-- An escape token starts with `ESC [`, and when its last byte is in
`0x40..0x7e` that byte is its only one in that range after `ESC [`. -/
theorem esc_token_shape (line : Bytes) (e : Bytes) (h : Token.esc e ∈ tokens line) :
    ∃ params, e = 0x1b :: 0x5b :: params := by
  obtain ⟨rest, hr, hrest⟩ := tokens_mem_nextToken line _ h
  cases hc : isCSI rest with
  | false => rw [nextToken_of_not_isCSI rest hc] at hrest; cases hrest
  | true =>
    rw [nextToken_of_isCSI rest hc] at hrest
    simp only [Token.esc.injEq] at hrest
    exact ⟨_, hrest⟩

/-- C5 (amended). End-marker rule: `appendBeforeTrailingReset line "$"` splices
`$` immediately before the final escape token when the last token of the line is
an escape token that ends in `m` and has no ESC byte after its first byte; it
returns the line followed by `$` when the line does not end in the byte `m` (an
empty line, a final Text token other than `m`, a final escape token with another
terminator) and when the line has no ESC byte. -/
theorem appendBeforeTrailingReset_rule (line : Bytes) :
    (∀ ts e, tokens line = ts ++ [Token.esc e] → e.getLast? = some 0x6d →
        (∀ b ∈ e.tail, b ≠ 0x1b) →
        appendBeforeTrailingReset line [0x24] = bytesOf ts ++ [0x24] ++ e) ∧
      (line.getLast? ≠ some 0x6d → appendBeforeTrailingReset line [0x24] = line ++ [0x24]) ∧
      ((∀ b ∈ line, b ≠ 0x1b) → appendBeforeTrailingReset line [0x24] = line ++ [0x24]) := by
  refine ⟨?_, appendBeforeTrailingReset_of_last_ne line _,
    appendBeforeTrailingReset_of_no_esc line _⟩
  intro ts e htok hlast hesc
  have hline : line = bytesOf ts ++ e := by
    have := bytesOf_tokens line
    rw [htok, bytesOf_append] at this
    simpa [bytesOf, Token.bytes] using this.symm
  obtain ⟨params, rfl⟩ := esc_token_shape line e (by rw [htok]; simp)
  rcases List.eq_nil_or_concat params with hp | ⟨p, c, hp⟩
  · subst hp
    simp at hlast
  · rw [List.concat_eq_append] at hp
    subst hp
    have hc : c = 0x6d := by
      rw [show (0x1b :: 0x5b :: (p ++ [c])) = ([0x1b, 0x5b] ++ p) ++ [c] from by simp,
        List.getLast?_append] at hlast
      simpa using hlast
    subst hc
    rw [hline]
    refine appendBeforeTrailingReset_splice (bytesOf ts) p [0x24] ?_
    intro b hb
    exact hesc b (by simp [hb])

/-- Witness of C5 (amended): `abc ESC[0m` gives `abc$ ESC[0m`, and `abc` gives `abc$`. -/
theorem appendBeforeTrailingReset_rule_witness :
    appendBeforeTrailingReset [0x61, 0x62, 0x63, 0x1b, 0x5b, 0x30, 0x6d] [0x24] =
        [0x61, 0x62, 0x63, 0x24, 0x1b, 0x5b, 0x30, 0x6d] ∧
      appendBeforeTrailingReset [0x61, 0x62, 0x63] [0x24] = [0x61, 0x62, 0x63, 0x24] :=
  ⟨(appendBeforeTrailingReset_rule [0x61, 0x62, 0x63, 0x1b, 0x5b, 0x30, 0x6d]).1
      [.text 0x61 [0x61], .text 0x62 [0x62], .text 0x63 [0x63]] [0x1b, 0x5b, 0x30, 0x6d]
      (by decide) (by decide) (by decide),
    (appendBeforeTrailingReset_rule [0x61, 0x62, 0x63]).2.1 (by decide)⟩

/-- Counterexample to C5 as stated: the line `abc ESC[0K` ends in one contiguous
escape token whose terminator `K` lies in `0x40..0x7e`, yet `$` is appended after
it instead of spliced before it.  The same happens for the token `ESC [ ESC m`,
which ends in `m` but holds a second ESC byte. -/
theorem appendBeforeTrailingReset_terminator_K :
    tokens [0x61, 0x62, 0x63, 0x1b, 0x5b, 0x30, 0x4b] =
        [.text 0x61 [0x61], .text 0x62 [0x62], .text 0x63 [0x63], .esc [0x1b, 0x5b, 0x30, 0x4b]] ∧
      appendBeforeTrailingReset [0x61, 0x62, 0x63, 0x1b, 0x5b, 0x30, 0x4b] [0x24] =
        [0x61, 0x62, 0x63, 0x1b, 0x5b, 0x30, 0x4b, 0x24] ∧
      appendBeforeTrailingReset [0x61, 0x62, 0x63, 0x1b, 0x5b, 0x30, 0x4b] [0x24] ≠
        [0x61, 0x62, 0x63, 0x24, 0x1b, 0x5b, 0x30, 0x4b] ∧
      tokens [0x1b, 0x5b, 0x1b, 0x6d] = [.esc [0x1b, 0x5b, 0x1b, 0x6d]] ∧
      appendBeforeTrailingReset [0x1b, 0x5b, 0x1b, 0x6d] [0x24] =
        [0x1b, 0x5b, 0x1b, 0x6d, 0x24] := by
  decide

/-! ## The tab transformation -/

theorem replaceTabs_append (a b : Bytes) :
    replaceTabs (a ++ b) = replaceTabs a ++ replaceTabs b := by
  induction a with
  | nil => rfl
  | cons c a ih =>
    simp only [List.cons_append, replaceTabs]
    split <;> simp [ih]

theorem replaceTabs_of_no_tab (a : Bytes) (h : ∀ b ∈ a, b ≠ 0x09) : replaceTabs a = a := by
  induction a with
  | nil => rfl
  | cons c a ih =>
    rw [replaceTabs, if_neg (h c (List.mem_cons_self _ _)),
      ih (fun b hb => h b (List.mem_cons_of_mem _ hb))]

theorem replaceTabs_take (n : Nat) :
    ∀ x : Bytes, (∀ b ∈ x.take n, b ≠ 0x09) →
      (replaceTabs x).take n = x.take n ∧ (replaceTabs x).drop n = replaceTabs (x.drop n) := by
  induction n with
  | zero => intro x _; simp
  | succ n ih =>
    intro x h
    rcases x with _ | ⟨c, x⟩
    · simp [replaceTabs]
    · have hc : c ≠ 0x09 := h c (by simp)
      rw [replaceTabs, if_neg hc]
      simp only [List.take_succ_cons, List.drop_succ_cons, List.cons.injEq, true_and]
      exact ih x (fun b hb => h b (by simp [hb]))

theorem take_of_replaceTabs_high (n : Nat) :
    ∀ x : Bytes, (∀ b ∈ (replaceTabs x).take n, 0x80 ≤ b) →
      x.take n = (replaceTabs x).take n := by
  induction n with
  | zero => intro x _; simp
  | succ n ih =>
    intro x h
    rcases x with _ | ⟨c, x⟩
    · simp [replaceTabs]
    · by_cases hc : c = 0x09
      · exfalso
        rw [replaceTabs, if_pos hc] at h
        have := h 0x5E (by simp)
        omega
      · rw [replaceTabs, if_neg hc] at h ⊢
        simp only [List.take_succ_cons, List.cons.injEq, true_and]
        exact ih x (fun b hb => h b (by simp [hb]))

/-- Replacing the TABs after the first byte does not change what the decoder
returns. -/
theorem decodeRune_replaceTabs (c : Nat) (x : Bytes) :
    decodeRune (c :: replaceTabs x) = decodeRune (c :: x) := by
  rcases decodeRune_cases (c :: x) (List.cons_ne_nil _ _) with he | ⟨r, k, hd, hk1, hk, _, _, hv⟩
  · rcases decodeRune_cases (c :: replaceTabs x) (List.cons_ne_nil _ _) with
      he' | ⟨r', k', hd', hk1', hk', _, _, hv'⟩
    · rw [he, he']
    · have htail := decodeRune_tail_ge (c :: replaceTabs x) (List.cons_ne_nil _ _)
      rw [hd'] at htail
      obtain ⟨n, rfl⟩ : ∃ n, k' = n + 1 := ⟨k' - 1, by omega⟩
      simp only [List.take_succ_cons, List.drop_succ_cons, List.drop_zero] at htail
      rw [hd', ← hv' (c :: x) (by
        simp only [List.take_succ_cons, List.cons.injEq, true_and]
        exact take_of_replaceTabs_high n x htail)]
  · have htail := decodeRune_tail_ge (c :: x) (List.cons_ne_nil _ _)
    rw [hd] at htail ⊢
    obtain ⟨n, rfl⟩ : ∃ n, k = n + 1 := ⟨k - 1, by omega⟩
    simp only [List.take_succ_cons, List.drop_succ_cons, List.drop_zero] at htail
    exact hv _ (by
      simp only [List.take_succ_cons, List.cons.injEq, true_and]
      exact (replaceTabs_take n x (fun b hb => by have := htail b hb; omega)).1)

theorem isCSI_replaceTabs (c : Nat) (x : Bytes) :
    isCSI (c :: replaceTabs x) = isCSI (c :: x) := by
  rcases x with _ | ⟨d, x⟩
  · rfl
  · rw [replaceTabs]
    split
    · rename_i hd
      subst hd
      simp [isCSI]
    · rfl

/-- After a complete escape sequence the scanner stops, whatever follows. -/
theorem scanEscape_append_of (after : Bytes) :
    ∀ x : Bytes, ((scanEscape after).2 = [] → x = []) →
      scanEscape ((scanEscape after).1 ++ x) = ((scanEscape after).1, x) := by
  induction after with
  | nil =>
    intro x hx
    have : x = [] := hx (by simp [scanEscape])
    subst this
    simp [scanEscape]
  | cons b rest ih =>
    intro x hx
    by_cases hb : b < 0x40 ∨ b > 0x7e
    · have e : scanEscape (b :: rest) = (b :: (scanEscape rest).1, (scanEscape rest).2) := by
        rw [scanEscape, if_pos hb]
      rw [e] at hx ⊢
      simp only [List.cons_append]
      rw [scanEscape, if_pos hb, ih x hx]
    · have e : scanEscape (b :: rest) = ([b], rest) := by
        rw [scanEscape, if_neg hb]
      rw [e]
      simp only [List.cons_append, List.nil_append]
      rw [scanEscape, if_neg hb]

theorem replaceTabs_eq_nil (x : Bytes) (h : x = []) : replaceTabs x = [] := by
  subst h; rfl

theorem replaceTabs_ne_nil (x : Bytes) (h : x ≠ []) : replaceTabs x ≠ [] := by
  rcases x with _ | ⟨c, x⟩
  · exact absurd rfl h
  · rw [replaceTabs]; split <;> simp

theorem flatMap_showTabToken_cons (t : Token) (ts : List Token) :
    (t :: ts).flatMap showTabToken = showTabToken t ++ ts.flatMap showTabToken := by
  simp

/-- The tab transformation in terms of tokens, for a line no escape token of
which holds a TAB byte. -/
theorem tokens_replaceTabs (line : Bytes)
    (h : ∀ t ∈ tokens line, ∀ e, t = Token.esc e → ∀ b ∈ e, b ≠ 0x09) :
    tokens (replaceTabs line) = (tokens line).flatMap showTabToken := by
  induction line using token_induction with
  | h0 => rfl
  | hstep rest hr ih =>
    rw [tokens_step rest hr] at h ⊢
    have ih' := ih (fun t ht => h t (List.mem_cons_of_mem _ ht))
    rw [flatMap_showTabToken_cons, ← ih']
    cases hc : isCSI rest with
    | true =>
      obtain ⟨after, rfl⟩ := (isCSI_iff rest).1 hc
      have hn := nextToken_of_isCSI _ hc
      simp only [List.drop_succ_cons, List.drop_zero] at hn
      rw [hn] at h ⊢
      have hno := h _ (List.mem_cons_self _ _) _ rfl
      have hp : ∀ b ∈ (scanEscape after).1, b ≠ 0x09 := fun b hb => hno b (by simp [hb])
      have hrep : replaceTabs (0x1b :: 0x5b :: after) =
          0x1b :: 0x5b :: ((scanEscape after).1 ++ replaceTabs (scanEscape after).2) := by
        rw [replaceTabs, if_neg (by decide), replaceTabs, if_neg (by decide)]
        conv_lhs => rw [← scanEscape_append after]
        rw [replaceTabs_append, replaceTabs_of_no_tab _ hp]
      rw [hrep, tokens_step _ (List.cons_ne_nil _ _)]
      have hc2 : isCSI (0x1b :: 0x5b :: ((scanEscape after).1 ++ replaceTabs (scanEscape after).2))
          = true := by simp [isCSI]
      rw [nextToken_of_isCSI _ hc2]
      simp only [List.drop_succ_cons, List.drop_zero]
      rw [scanEscape_append_of after _ (replaceTabs_eq_nil _)]
      simp [showTabToken]
    | false =>
      obtain ⟨c, x, rfl⟩ := List.exists_cons_of_ne_nil hr
      rw [nextToken_of_not_isCSI _ hc]
      by_cases hc9 : c = 0x09
      · subst hc9
        have hd : decodeRune (0x09 :: x) = (0x09, 1) := by simp [decodeRune]
        rw [hd]
        simp only [List.take_succ_cons, List.take_zero, List.drop_succ_cons, List.drop_zero]
        rw [replaceTabs, if_pos rfl, tokens_step _ (List.cons_ne_nil _ _)]
        have h1 : nextToken (0x5E :: 0x49 :: replaceTabs x) =
            (.text 0x5E [0x5E], 0x49 :: replaceTabs x) := by
          rw [nextToken_of_not_isCSI _ (by simp [isCSI])]
          simp [decodeRune]
        rw [h1]
        simp only
        rw [tokens_step _ (List.cons_ne_nil _ _)]
        have h2 : nextToken (0x49 :: replaceTabs x) = (.text 0x49 [0x49], replaceTabs x) := by
          cases hx : isCSI (0x49 :: replaceTabs x) with
          | true =>
            obtain ⟨t, ht⟩ := (isCSI_iff _).1 hx
            simp at ht
          | false =>
            rw [nextToken_of_not_isCSI _ hx]
            simp [decodeRune]
        rw [h2]
        simp [showTabToken]
      · have hsz := decodeRune_size (c :: x) (List.cons_ne_nil _ _)
        have htail := decodeRune_tail_ge (c :: x) (List.cons_ne_nil _ _)
        obtain ⟨n, hn⟩ : ∃ n, (decodeRune (c :: x)).2 = n + 1 :=
          ⟨(decodeRune (c :: x)).2 - 1, by omega⟩
        rw [hn] at htail ⊢
        simp only [List.take_succ_cons, List.drop_succ_cons, List.drop_zero] at htail ⊢
        have hrt := replaceTabs_take n x (fun b hb => by have := htail b hb; omega)
        rw [replaceTabs, if_neg hc9, tokens_step _ (List.cons_ne_nil _ _)]
        have hc2 : isCSI (c :: replaceTabs x) = false := by rw [isCSI_replaceTabs, hc]
        rw [nextToken_of_not_isCSI _ hc2, decodeRune_replaceTabs, hn]
        simp only [List.take_succ_cons, List.drop_succ_cons, List.drop_zero]
        rw [hrt.1, hrt.2]
        have hne : Token.text (decodeRune (c :: x)).1 (c :: List.take n x) ≠
            Token.text 0x09 [0x09] := by
          intro he
          simp only [Token.text.injEq, List.cons.injEq] at he
          exact hc9 he.2.1
        simp [showTabToken, hne]

theorem filter_esc_showTabToken (ts : List Token) :
    (ts.flatMap showTabToken).filter (fun t => !t.isText) = ts.filter (fun t => !t.isText) := by
  induction ts with
  | nil => rfl
  | cons t ts ih =>
    rw [flatMap_showTabToken_cons, List.filter_append, ih]
    cases t with
    | esc e => simp [showTabToken, Token.isText]
    | text r b =>
      unfold showTabToken
      split <;> simp [Token.isText]

theorem tabbedLineOf_showTabs (f : Flags) (line : Bytes) (htabs : f.flagShowTabs = true) :
    tabbedLineOf f line = replaceTabs line := by
  simp [tabbedLineOf, htabs]

/-- C6 (amended). With show-tabs on, for every line no escape token of which
contains a TAB byte, the tab transformation of the render loop turns every TAB
that is a Text token into the two Text tokens `^` and `I` and leaves every other
token, in particular every escape token, byte for byte as it is. -/
theorem showTabs_tokens (f : Flags) (line : Bytes) (htabs : f.flagShowTabs = true)
    (h : ∀ t ∈ tokens line, t.tabFree = true) :
    tokens (tabbedLineOf f line) = (tokens line).flatMap showTabToken ∧
      (tokens (tabbedLineOf f line)).filter (fun t => !t.isText) =
        (tokens line).filter (fun t => !t.isText) := by
  have h' : ∀ t ∈ tokens line, ∀ e, t = Token.esc e → ∀ b ∈ e, b ≠ 0x09 := by
    intro t ht e he b hb
    have := h t ht
    rw [he] at this
    simp only [Token.tabFree, List.all_eq_true, decide_eq_true_eq] at this
    exact this b hb
  rw [tabbedLineOf_showTabs f line htabs, tokens_replaceTabs line h']
  exact ⟨rfl, filter_esc_showTabToken _⟩

/-- Witness of C6 (amended): the line `a TAB ESC[0m b`. -/
theorem showTabs_tokens_witness :
    tokens (tabbedLineOf ⟨false, false, false, true, false, false, 8, false, 80⟩
        [0x61, 0x09, 0x1b, 0x5b, 0x30, 0x6d, 0x62]) =
      [.text 0x61 [0x61], .text 0x5E [0x5E], .text 0x49 [0x49], .esc [0x1b, 0x5b, 0x30, 0x6d],
        .text 0x62 [0x62]] := by
  have h := (showTabs_tokens ⟨false, false, false, true, false, false, 8, false, 80⟩
    [0x61, 0x09, 0x1b, 0x5b, 0x30, 0x6d, 0x62] rfl (by decide)).1
  rw [h]
  decide

/-- Counterexample to C6 as stated: in the line `ESC [ TAB m` the TAB lies inside
the escape token; the transformation replaces it too, and the escape token
`ESC [ TAB m` becomes the escape token `ESC [ ^` followed by the text `Im`. -/
theorem showTabs_rewrites_escape :
    tokens [0x1b, 0x5b, 0x09, 0x6d] = [.esc [0x1b, 0x5b, 0x09, 0x6d]] ∧
      tabbedLineOf ⟨false, false, false, true, false, false, 8, false, 80⟩
          [0x1b, 0x5b, 0x09, 0x6d] = [0x1b, 0x5b, 0x5E, 0x49, 0x6d] ∧
      tokens (tabbedLineOf ⟨false, false, false, true, false, false, 8, false, 80⟩
          [0x1b, 0x5b, 0x09, 0x6d]) =
        [.esc [0x1b, 0x5b, 0x5E], .text 0x49 [0x49], .text 0x6d [0x6d]] := by
  decide

/-! ## The render loop -/

theorem catLoop_map_line (f : Flags) (numWidth : Int) (hs : f.flagSqueezeBlank = true)
    (lines : List Bytes) :
    ∀ (n : Nat) (pb : Bool),
      (catLoop f numWidth lines n pb).map (fun e => e.line) = squeezeLines lines pb := by
  induction lines with
  | nil => intro n pb; rfl
  | cons l rest ih =>
    intro n pb
    simp only [catLoop, squeezeLines, hs, true_and]
    split
    · exact ih n pb
    · simp only [List.map_cons, ih]

theorem splitBy_loop_heads (as : List Bytes) :
    ∀ (ag : Bytes) (g : List Bytes) (gs : List (List Bytes)),
      (List.splitBy.loop (fun a b => isBlank a && isBlank b) as ag g gs).filterMap List.head? =
        (((ag :: g).reverse :: gs).reverse).filterMap List.head? ++
          squeezeLines as (isBlank ag) := by
  induction as with
  | nil => intro ag g gs; simp [List.splitBy.loop, squeezeLines]
  | cons a as ih =>
    intro ag g gs
    rw [List.splitBy.loop]
    cases hR : (isBlank ag && isBlank a) with
    | true =>
      simp only [Bool.and_eq_true] at hR
      simp only
      rw [ih, squeezeLines, if_pos ⟨hR.2, hR.1⟩, hR.1, hR.2]
      congr 1
      simp only [List.reverse_cons, List.filterMap_append, List.filterMap_cons, List.filterMap_nil,
        List.append_assoc]
      congr 1
      rcases hrev : g.reverse with _ | ⟨x, xs⟩ <;> simp
    | false =>
      simp only
      have hn : ¬ (isBlank a = true ∧ isBlank ag = true) := by
        intro h
        rw [h.1, h.2] at hR
        simp at hR
      rw [ih, squeezeLines, if_neg hn]
      rcases hrev : g.reverse with _ | ⟨x, xs⟩ <;> simp [hrev]

theorem collapseBlankRuns_eq (lines : List Bytes) :
    collapseBlankRuns lines = squeezeLines lines false := by
  unfold collapseBlankRuns
  cases lines with
  | nil => rfl
  | cons a as =>
    rw [List.splitBy, splitBy_loop_heads, squeezeLines]
    simp

theorem squeezeLines_chain (lines : List Bytes) :
    ∀ pb : Bool,
      List.Chain' (fun a b => ¬ (isBlank a = true ∧ isBlank b = true)) (squeezeLines lines pb) ∧
        (pb = true → ∀ l ∈ (squeezeLines lines pb).head?, isBlank l = false) := by
  induction lines with
  | nil => intro pb; simp [squeezeLines]
  | cons l rest ih =>
    intro pb
    rw [squeezeLines]
    split
    · rename_i h
      exact ih pb
    · rename_i h
      obtain ⟨hc, hh⟩ := ih (isBlank l)
      constructor
      · rw [List.chain'_cons']
        refine ⟨?_, hc⟩
        intro y hy hb
        have := hh hb.1 y hy
        rw [hb.2] at this
        exact Bool.noConfusion this
      · intro hpb y hy
        simp only [List.head?_cons, Option.mem_def, Option.some.injEq] at hy
        subst hy
        cases hb : isBlank l with
        | false => rfl
        | true => exact absurd ⟨hb, hpb⟩ h

theorem squeezeLines_filter (lines : List Bytes) :
    ∀ pb : Bool,
      (squeezeLines lines pb).filter (fun l => !isBlank l) =
        lines.filter (fun l => !isBlank l) := by
  induction lines with
  | nil => intro pb; rfl
  | cons l rest ih =>
    intro pb
    rw [squeezeLines]
    split
    · rename_i h
      rw [ih, List.filter_cons]
      simp [h.1]
    · rw [List.filter_cons, List.filter_cons, ih]

theorem wrapLineVisual_ne_nil (line : Bytes) (width tabWidth : Int) :
    wrapLineVisual line width tabWidth ≠ [] := by
  rw [wrapLineVisual_eq]
  split
  · simp
  · split
    · simp
    · rename_i h
      simpa using h

theorem outputLinesOf_ne_nil (f : Flags) (numWidth : Int) (d : Bytes) :
    outputLinesOf f numWidth d ≠ [] := by
  unfold outputLinesOf
  split
  · exact wrapLineVisual_ne_nil _ _ _
  · simp

/-- What the render loop records for every line it emits. -/
theorem catLoop_mem (f : Flags) (numWidth : Int) (lines : List Bytes) :
    ∀ (n : Nat) (pb : Bool), ∀ e ∈ catLoop f numWidth lines n pb,
      e.printNum = (f.flagNumber || (f.flagNumberNonblank && !isBlank e.line)) ∧
      e.segments = outputLinesOf f numWidth (displayLineOf f e.line) ∧
      e.rows = e.segments.enum.map
        (fun p => emitRow f numWidth e.printNum e.lineNum p.1 p.2) := by
  induction lines with
  | nil => intro n pb e he; simp [catLoop] at he
  | cons l rest ih =>
    intro n pb e he
    rw [catLoop] at he
    split at he
    · exact ih n pb e he
    · rcases List.mem_cons.1 he with rfl | he
      · exact ⟨rfl, rfl, rfl⟩
      · exact ih _ _ e he

/-- The counter after an emitted line is the start value plus the number of
numbered lines emitted up to and including it. -/
theorem catLoop_lineNum (f : Flags) (numWidth : Int) (lines : List Bytes) :
    ∀ (n : Nat) (pb : Bool) (pre : List Emitted) (e : Emitted) (post : List Emitted),
      catLoop f numWidth lines n pb = pre ++ e :: post →
      e.lineNum = n + (pre.filter (fun x => x.printNum)).length +
        (if e.printNum = true then 1 else 0) := by
  induction lines with
  | nil => intro n pb pre e post h; simp [catLoop] at h
  | cons l rest ih =>
    intro n pb pre e post h
    rw [catLoop] at h
    split at h
    · exact ih n pb pre e post h
    · rcases pre with _ | ⟨p, pre⟩
      · simp only [List.nil_append, List.cons.injEq] at h
        rw [← h.1]
        simp only [List.filter_nil, List.length_nil, add_zero]
        split <;> simp_all
      · simp only [List.cons_append, List.cons.injEq] at h
        have := ih _ _ pre e post h.2
        rw [this, ← h.1, List.filter_cons]
        simp only
        split <;> simp_all
        all_goals omega

theorem catLoop_numbers (f : Flags) (numWidth : Int) (lines : List Bytes) :
    ∀ (n : Nat) (pb : Bool),
      ((catLoop f numWidth lines n pb).filter (fun x => x.printNum)).map (fun x => x.lineNum) =
        List.range' (n + 1)
          ((catLoop f numWidth lines n pb).filter (fun x => x.printNum)).length := by
  induction lines with
  | nil => intro n pb; simp [catLoop]
  | cons l rest ih =>
    intro n pb
    rw [catLoop]
    split
    · exact ih n pb
    · cases hp : (f.flagNumber || (f.flagNumberNonblank && !isBlank l)) with
      | true =>
        simp only [hp, if_true, List.filter_cons, List.map_cons, List.length_cons, List.range'_succ]
        rw [ih]
      | false =>
        simp only [hp, Bool.false_eq_true, if_false, List.filter_cons]
        rw [ih]

theorem catLoop_rows_ne_nil (f : Flags) (numWidth : Int) (lines : List Bytes) (n : Nat)
    (pb : Bool) : ∀ e ∈ catLoop f numWidth lines n pb, e.rows ≠ [] := by
  intro e he
  obtain ⟨_, hseg, hrows⟩ := catLoop_mem f numWidth lines n pb e he
  rw [hrows, hseg]
  have := outputLinesOf_ne_nil f numWidth (displayLineOf f e.line)
  simpa [List.enum] using this

/-- C9. Squeeze-blank: with squeeze-blank on, the logical lines that the render
loop emits are the input lines with each maximal run of consecutive blank lines
collapsed to its first line; no two consecutive emitted lines are blank, the
non-blank lines are emitted once each and in order, and every emitted line
produces at least one output row. -/
theorem squeeze_blank (f : Flags) (lines : List Bytes) (hs : f.flagSqueezeBlank = true) :
    (catLines f lines).map (fun e => e.line) = collapseBlankRuns lines ∧
      List.Chain' (fun a b => ¬ (isBlank a = true ∧ isBlank b = true))
        ((catLines f lines).map (fun e => e.line)) ∧
      ((catLines f lines).map (fun e => e.line)).filter (fun l => !isBlank l) =
        lines.filter (fun l => !isBlank l) ∧
      ∀ e ∈ catLines f lines, e.rows ≠ [] := by
  have h := catLoop_map_line f (numWidthOf f lines.length) hs lines 0 false
  unfold catLines
  rw [h]
  exact ⟨(collapseBlankRuns_eq lines).symm, (squeezeLines_chain lines false).1,
    squeezeLines_filter lines false, catLoop_rows_ne_nil f _ lines 0 false⟩

/-- Witness of C9: the lines `a`, empty, empty, `b` with squeeze-blank alone give
the lines `a`, empty, `b`: exactly one blank line between `a` and `b`. -/
theorem squeeze_blank_witness :
    (catLines ⟨false, false, false, false, true, false, 8, false, 80⟩
        [[0x61], [], [], [0x62]]).map (fun e => e.line) = [[0x61], [], [0x62]] ∧
      outputOf (catLines ⟨false, false, false, false, true, false, 8, false, 80⟩
        [[0x61], [], [], [0x62]]) = [0x61, 0x0a, 0x0a, 0x62, 0x0a] := by
  refine ⟨?_, by decide⟩
  rw [(squeeze_blank ⟨false, false, false, false, true, false, 8, false, 80⟩
    [[0x61], [], [], [0x62]] rfl).1]
  decide

/-- C10. Line numbering: an emitted line is numbered exactly when the mode is
"always" or the mode is "non-blank only" and the line is not blank; the counter
after an emitted line is the number of numbered lines emitted so far, that line
included, so the numbers of the numbered lines are 1, 2, 3, ... without gaps and
neither skipped lines nor lines that are not numbered advance the counter; the
first row of a numbered line shows that number. -/
theorem line_numbering (f : Flags) (lines : List Bytes) :
    (∀ e ∈ catLines f lines,
        e.printNum = (f.flagNumber || (f.flagNumberNonblank && !isBlank e.line))) ∧
      (∀ pre e post, catLines f lines = pre ++ e :: post →
        e.lineNum = (pre.filter (fun x => x.printNum)).length +
          (if e.printNum = true then 1 else 0)) ∧
      ((catLines f lines).filter (fun x => x.printNum)).map (fun x => x.lineNum) =
        List.range' 1 ((catLines f lines).filter (fun x => x.printNum)).length ∧
      (∀ e ∈ catLines f lines, e.printNum = true →
        ∃ seg rest, e.segments = seg :: rest ∧
          e.rows.head? = some (numberedRow f (numWidthOf f lines.length) e.lineNum seg)) := by
  refine ⟨fun e he => (catLoop_mem f _ lines 0 false e he).1, ?_, ?_, ?_⟩
  · intro pre e post h
    have := catLoop_lineNum f _ lines 0 false pre e post h
    simpa using this
  · have := catLoop_numbers f (numWidthOf f lines.length) lines 0 false
    simpa using this
  · intro e he hp
    obtain ⟨_, hseg, hrows⟩ := catLoop_mem f _ lines 0 false e he
    have hne := outputLinesOf_ne_nil f (numWidthOf f lines.length) (displayLineOf f e.line)
    rw [← hseg] at hne
    obtain ⟨seg, rest, hsr⟩ := List.exists_cons_of_ne_nil hne
    refine ⟨seg, rest, hsr, ?_⟩
    rw [hrows, hsr]
    simp [List.enum, List.enumFrom, emitRow, hp]

/-- Witness of C10: the lines `a`, empty, `b` in the mode "non-blank only": `a`
is numbered 1, the blank line is not numbered, `b` is numbered 2. -/
theorem line_numbering_witness :
    ((catLines ⟨false, true, false, false, false, false, 8, false, 80⟩
        [[0x61], [], [0x62]]).filter (fun x => x.printNum)).map (fun x => x.lineNum) = [1, 2] ∧
      outputOf (catLines ⟨false, true, false, false, false, false, 8, false, 80⟩
        [[0x61], [], [0x62]]) = [0x31, 0x20, 0x61, 0x0a, 0x20, 0x20, 0x0a, 0x32, 0x20, 0x62, 0x0a] := by
  refine ⟨?_, by decide⟩
  rw [(line_numbering ⟨false, true, false, false, false, false, 8, false, 80⟩
    [[0x61], [], [0x62]]).2.2.1]
  decide

/-! ## The number column -/

theorem decimalLoop_length (fuel : Nat) :
    ∀ (u : Nat) (buf : Bytes), u ≤ fuel →
      (decimalLoop fuel u buf).length = buf.length + (Nat.log 10 u + 1) := by
  induction fuel with
  | zero =>
    intro u buf h
    have : u = 0 := by omega
    subst this
    simp [decimalLoop]
  | succ fuel ih =>
    intro u buf h
    rw [decimalLoop]
    split
    · rename_i h10
      rw [ih _ _ (by omega), Nat.log_of_one_lt_of_le (by omega) h10]
      simp only [List.length_cons]
      omega
    · rename_i h10
      rw [Nat.log_of_lt (by omega)]
      simp

theorem decimalLoop_digits (fuel : Nat) :
    ∀ (u : Nat) (buf : Bytes), ∀ b ∈ decimalLoop fuel u buf, b ∈ buf ∨ (0x30 ≤ b ∧ b ≤ 0x39) := by
  induction fuel with
  | zero =>
    intro u buf b hb
    simp only [decimalLoop, List.mem_cons] at hb
    rcases hb with rfl | hb
    · right; omega
    · exact Or.inl hb
  | succ fuel ih =>
    intro u buf b hb
    rw [decimalLoop] at hb
    split at hb
    · rcases ih _ _ b hb with h | h
      · rcases List.mem_cons.1 h with rfl | h
        · right; omega
        · exact Or.inl h
      · exact Or.inr h
    · rcases List.mem_cons.1 hb with rfl | h
      · right; omega
      · exact Or.inl h

/-- The text of `%d` has as many bytes as the number has decimal digits. -/
theorem decimal_length (n : Nat) : (decimal n).length = Nat.log 10 n + 1 := by
  unfold decimal
  rw [decimalLoop_length n n [] (le_refl _)]
  simp

theorem decimal_digits (n : Nat) : ∀ b ∈ decimal n, 0x30 ≤ b ∧ b ≤ 0x39 := by
  intro b hb
  rcases decimalLoop_digits n n [] b hb with h | h
  · exact absurd h (List.not_mem_nil _)
  · exact h

theorem decimal_length_mono {n m : Nat} (h : n ≤ m) :
    (decimal n).length ≤ (decimal m).length := by
  rw [decimal_length, decimal_length]
  have := @Nat.log_mono_right 10 n m h
  omega

theorem catLoop_length_le (f : Flags) (numWidth : Int) (lines : List Bytes) :
    ∀ (n : Nat) (pb : Bool), (catLoop f numWidth lines n pb).length ≤ lines.length := by
  induction lines with
  | nil => intro n pb; simp [catLoop]
  | cons l rest ih =>
    intro n pb
    rw [catLoop]
    split
    · have := ih n pb
      simp only [List.length_cons]
      omega
    · simp only [List.length_cons]
      have := ih (if (f.flagNumber || (f.flagNumberNonblank && !isBlank l)) = true then n + 1 else n)
        (isBlank l)
      omega

/-- The line counter never exceeds the number of logical lines. -/
theorem catLines_lineNum_le (f : Flags) (lines : List Bytes) :
    ∀ e ∈ catLines f lines, e.lineNum ≤ lines.length := by
  intro e he
  obtain ⟨pre, post, hsplit⟩ := List.append_of_mem he
  have h1 := catLoop_lineNum f (numWidthOf f lines.length) lines 0 false pre e post hsplit
  have h2 := catLoop_length_le f (numWidthOf f lines.length) lines 0 false
  unfold catLines at hsplit
  rw [hsplit] at h2
  have h3 : (pre.filter (fun x => x.printNum)).length ≤ pre.length := List.length_filter_le _ _
  simp only [List.length_append, List.length_cons] at h2
  rw [h1]
  split <;> omega

theorem stripANSI_sgr_dim (rest : Bytes) :
    stripANSI ([0x1b, 0x5b, 0x32, 0x3b, 0x33, 0x37, 0x6d] ++ rest) = stripANSI rest := by
  rw [List.cons_append, stripANSI_cons]
  simp [isCSI, scanEscape]

theorem stripANSI_sgr_reset (rest : Bytes) :
    stripANSI ([0x1b, 0x5b, 0x30, 0x6d] ++ rest) = stripANSI rest := by
  rw [List.cons_append, stripANSI_cons]
  simp [isCSI, scanEscape]

theorem stripANSI_of_no_esc (a : Bytes) (h : ∀ b ∈ a, b ≠ 0x1b) : stripANSI a = a := by
  have := stripANSI_append_of_ne_esc a [] h
  simpa [stripANSI_nil] using this

theorem padDecimal_eq (w : Int) (n : Nat) (hw : 0 ≤ w) :
    padDecimal w n = List.replicate (w.toNat - (decimal n).length) 0x20 ++ decimal n := by
  unfold padDecimal
  rw [if_neg (by omega)]

theorem padDecimal_no_esc (w : Int) (n : Nat) (hw : 0 ≤ w) : ∀ b ∈ padDecimal w n, b ≠ 0x1b := by
  intro b hb
  rw [padDecimal_eq w n hw] at hb
  rcases List.mem_append.1 hb with h | h
  · have := (List.mem_replicate.1 h).2
    omega
  · have := decimal_digits n b h
    omega

/-- The visible text of the number column of a numbered row. -/
theorem stripANSI_numberedRow (f : Flags) (numWidth : Int) (n : Nat) (hw : 1 ≤ numWidth) :
    stripANSI (numberedRow f numWidth n []) =
      List.replicate ((numWidth - 1).toNat - (decimal n).length) 0x20 ++ decimal n ++ [0x20] := by
  have hpad := padDecimal_no_esc (numWidth - 1) n (by omega)
  have hno : ∀ b ∈ padDecimal (numWidth - 1) n ++ [0x20], b ≠ 0x1b := by
    intro b hb
    rcases List.mem_append.1 hb with h | h
    · exact hpad b h
    · have : b = 0x20 := by simpa using h
      omega
  unfold numberedRow
  split
  · rw [List.append_assoc, List.append_assoc, List.append_assoc, stripANSI_sgr_dim,
      stripANSI_append_of_ne_esc _ _ hpad, stripANSI_sgr_reset,
      stripANSI_of_no_esc _ (by intro b hb; have : b = 0x20 := by simpa using hb
                                omega),
      padDecimal_eq _ _ (by omega)]
    simp
  · rw [List.append_nil, stripANSI_of_no_esc _ hno, padDecimal_eq _ _ (by omega)]

theorem numberedRow_append (f : Flags) (numWidth : Int) (n : Nat) (l : Bytes) :
    numberedRow f numWidth n l = numberedRow f numWidth n [] ++ l := by
  unfold numberedRow
  split <;> simp

theorem emitRow_eq (f : Flags) (numWidth : Int) (printNum : Bool) (lineNum j : Nat) (l : Bytes)
    (hnum : f.flagNumber = true ∨ f.flagNumberNonblank = true) (hw : 0 < numWidth) :
    emitRow f numWidth printNum lineNum j l =
      (if printNum = true ∧ j = 0 then numberedRow f numWidth lineNum []
        else List.replicate numWidth.toNat 0x20) ++ l := by
  unfold emitRow
  by_cases h1 : printNum = true ∧ j = 0
  · rw [if_pos h1, if_pos h1, numberedRow_append]
  · rw [if_neg h1, if_neg h1]
    by_cases h2 : j = 0
    · rw [if_pos ⟨hnum, h2⟩]
    · rw [if_neg (fun h => h2 h.2), if_pos ⟨hw, by omega⟩]

/-- C11. Number column alignment: with numbering on, `numWidth` is the decimal
digit count of the total logical line count plus one; the line counter never
exceeds the total line count; every emitted row is its segment preceded by a
lead that is the number column on the first row of a numbered line and
`numWidth` spaces on every other row; and the visible text of the number column
is the number right-aligned in `numWidth - 1` columns followed by one separator
space, `numWidth` columns in all. -/
theorem number_column (f : Flags) (lines : List Bytes)
    (hnum : f.flagNumber = true ∨ f.flagNumberNonblank = true) :
    numWidthOf f lines.length = ((Nat.log 10 lines.length + 1 : Nat) : Int) + 1 ∧
      ∀ e ∈ catLines f lines,
        e.lineNum ≤ lines.length ∧
        e.rows = e.segments.enum.map (fun p =>
          (if e.printNum = true ∧ p.1 = 0 then
              numberedRow f (numWidthOf f lines.length) e.lineNum []
            else List.replicate (numWidthOf f lines.length).toNat 0x20) ++ p.2) ∧
        stripANSI (numberedRow f (numWidthOf f lines.length) e.lineNum []) =
          List.replicate ((numWidthOf f lines.length).toNat - 1 - (decimal e.lineNum).length) 0x20
            ++ decimal e.lineNum ++ [0x20] ∧
        (stripANSI (numberedRow f (numWidthOf f lines.length) e.lineNum [])).length =
          (numWidthOf f lines.length).toNat := by
  have hw : numWidthOf f lines.length = ((decimal lines.length).length : Int) + 1 := by
    unfold numWidthOf
    rw [if_pos hnum]
  refine ⟨by rw [hw, decimal_length], ?_⟩
  intro e he
  have hle := catLines_lineNum_le f lines e he
  have hlen := decimal_length_mono hle
  obtain ⟨_, _, hrows⟩ := catLoop_mem f _ lines 0 false e he
  have hstrip := stripANSI_numberedRow f (numWidthOf f lines.length) e.lineNum (by omega)
  have hto : (numWidthOf f lines.length - 1).toNat = (numWidthOf f lines.length).toNat - 1 := by
    omega
  rw [hto] at hstrip
  refine ⟨hle, ?_, hstrip, ?_⟩
  · rw [hrows]
    apply List.map_congr_left
    intro p _
    exact emitRow_eq f _ _ _ _ _ hnum (by omega)
  · rw [hstrip]
    simp only [List.length_append, List.length_replicate, List.length_singleton]
    omega

/-- Witness of C11: one line `a`, numbering all lines, no colour. -/
theorem number_column_witness :
    numWidthOf ⟨true, false, false, false, false, false, 8, false, 80⟩ 1 = 2 ∧
      outputOf (catLines ⟨true, false, false, false, false, false, 8, false, 80⟩ [[0x61]]) =
        [0x31, 0x20, 0x61, 0x0a] := by
  have h := (number_column ⟨true, false, false, false, false, false, 8, false, 80⟩ [[0x61]]
    (Or.inl rfl)).1
  exact ⟨by simpa using h, by decide⟩

/-! ## Wide enough widths -/

theorem runeVisualWidth_bounds (r col tabWidth : Int) (hcol : 0 ≤ col) :
    0 ≤ runeVisualWidth r col tabWidth ∧
      runeVisualWidth r col tabWidth ≤ max 2 (effectiveTab tabWidth) := by
  by_cases hr : r = 0x09
  · subst hr
    have h := runeVisualWidth_tab_eq col tabWidth hcol
    have he : (if tabWidth > 0 then tabWidth else 8) = effectiveTab tabWidth := by
      unfold effectiveTab
      split <;> split <;> omega
    rw [he] at h
    have hpos : 0 < effectiveTab tabWidth := by unfold effectiveTab; split <;> omega
    have h1 := Int.emod_nonneg col (ne_of_gt hpos)
    have h2 := Int.emod_lt_of_pos col hpos
    rw [h]
    constructor
    · omega
    · have := le_max_right 2 (effectiveTab tabWidth)
      omega
  · rw [runeVisualWidth_of_ne_tab r col tabWidth hr]
    have := le_max_left 2 (effectiveTab tabWidth)
    split
    · omega
    · split <;> omega

theorem lineWidth_ge (tabWidth : Int) (ts : List Token) :
    ∀ v : Int, 0 ≤ v → v ≤ lineWidth tabWidth ts v := by
  induction ts with
  | nil => intro v _; exact le_refl _
  | cons t ts ih =>
    intro v hv
    cases t with
    | esc b => exact ih v hv
    | text r b =>
      have hb := (runeVisualWidth_bounds r v tabWidth hv).1
      have := ih (v + runeVisualWidth r v tabWidth) (by omega)
      rw [lineWidth]
      omega

theorem lineWidth_le (tabWidth : Int) (ts : List Token) (hne : ∀ t ∈ ts, t.bytes ≠ []) :
    ∀ v : Int, 0 ≤ v →
      lineWidth tabWidth ts v ≤ v + (bytesOf ts).length * max 2 (effectiveTab tabWidth) := by
  have hM : 0 ≤ max 2 (effectiveTab tabWidth) := le_trans (by norm_num) (le_max_left _ _)
  induction ts with
  | nil => intro v _; simp [lineWidth, bytesOf_nil]
  | cons t ts ih =>
    intro v hv
    have ih' := ih (fun t ht => hne t (List.mem_cons_of_mem _ ht))
    rw [bytesOf_cons, List.length_append]
    push_cast
    cases t with
    | esc b =>
      rw [lineWidth]
      have := ih' v hv
      have h2 : 0 ≤ ((Token.esc b).bytes.length : Int) * max 2 (effectiveTab tabWidth) :=
        mul_nonneg (by omega) hM
      rw [add_mul]
      omega
    | text r b =>
      rw [lineWidth]
      have hb := runeVisualWidth_bounds r v tabWidth hv
      have := ih' (v + runeVisualWidth r v tabWidth) (by omega)
      have hlen : 1 ≤ ((Token.text r b).bytes.length : Int) := by
        have := List.length_pos.2 (hne _ (List.mem_cons_self _ _))
        omega
      have h2 : max 2 (effectiveTab tabWidth) ≤
          ((Token.text r b).bytes.length : Int) * max 2 (effectiveTab tabWidth) := by
        nlinarith
      rw [add_mul]
      omega

/-- With a width that is at least the visual width of the tokens, no segment is
flushed. -/
theorem groupToks_no_flush (width tabWidth : Int) (ts : List Token) :
    ∀ (rg : List (List Token)) (cg : List Token) (v : Int), 0 ≤ v →
      lineWidth tabWidth ts v ≤ width →
      groupToks width tabWidth ts rg cg v = (rg, cg ++ ts) := by
  induction ts with
  | nil => intro rg cg v _ _; simp [groupToks]
  | cons t ts ih =>
    intro rg cg v hv hw
    cases t with
    | esc b =>
      rw [groupToks, ih rg _ v hv hw]
      simp
    | text r b =>
      rw [lineWidth] at hw
      have hb := (runeVisualWidth_bounds r v tabWidth hv).1
      have hge := lineWidth_ge tabWidth ts (v + runeVisualWidth r v tabWidth) (by omega)
      rw [groupToks, if_neg (by omega), ih rg _ _ (by omega) hw]
      simp

/-- C12. For every line and every tab width, the total visual width `W` of the
line is at most `len(line)` times the larger of 2 and the effective tab width,
and for every width that is at least `W`, `wrapLineVisual` returns the
one-element list `[line]`. -/
theorem wrapLineVisual_wide (line : Bytes) (tabWidth : Int) :
    lineWidth tabWidth (tokens line) 0 ≤ line.length * max 2 (effectiveTab tabWidth) ∧
      ∀ width : Int, lineWidth tabWidth (tokens line) 0 ≤ width →
        wrapLineVisual line width tabWidth = [line] := by
  constructor
  · have := lineWidth_le tabWidth (tokens line) (tokens_bytes_ne_nil line) 0 (le_refl _)
    rw [bytesOf_tokens] at this
    simpa using this
  · intro width hw
    rw [wrapLineVisual_eq]
    split
    · rfl
    · have hg := groupToks_no_flush width tabWidth (tokens line) [] [] 0 (le_refl _) hw
      unfold segGroups
      rw [hg]
      simp only [List.nil_append]
      by_cases ht : tokens line = []
      · have : line = [] := (tokens_eq_nil_iff line).1 ht
        subst this
        simp [tokens_nil]
      · simp [ht, bytesOf_tokens]

/-! ## Wide code points at width 2 -/

theorem width_two_of_wide (r : Nat) (col tabWidth : Int)
    (h : isEastAsianWide (r : Int) = true) : runeVisualWidth r col tabWidth = 2 := by
  have h1 := ((isEastAsianWide_iff r).1 h).1
  rw [runeVisualWidth_of_ne_tab _ _ _ (by omega), if_neg (by omega), if_pos h]

theorem flatten_map_singleton (ts : List Token) :
    (ts.map (fun t => [t])).flatten = ts := by
  induction ts with
  | nil => rfl
  | cons t ts ih => simp [ih]

/-- At width 2 every wide Text token after the first opens a segment of its own. -/
theorem groupToks_wide (tabWidth : Int) (ts : List Token)
    (hts : ∀ t ∈ ts, ∃ r b, t = Token.text r b ∧ isEastAsianWide (r : Int) = true) :
    ∀ (rg : List (List Token)) (cg : List Token), cg ≠ [] →
      (groupToks 2 tabWidth ts rg cg 2).1 ++ [(groupToks 2 tabWidth ts rg cg 2).2] =
          rg ++ [cg] ++ ts.map (fun t => [t]) ∧
        (groupToks 2 tabWidth ts rg cg 2).2 ≠ [] := by
  induction ts with
  | nil => intro rg cg hcg; simp [groupToks, hcg]
  | cons t ts ih =>
    intro rg cg hcg
    obtain ⟨r, b, rfl, hr⟩ := hts t (List.mem_cons_self _ _)
    have hw := width_two_of_wide r 2 tabWidth hr
    rw [groupToks, if_pos (by rw [hw]; omega), hw]
    have := ih (fun t ht => hts t (List.mem_cons_of_mem _ ht)) (rg ++ [cg]) [.text r b]
      (List.cons_ne_nil _ _)
    simp only [show (0 : Int) + 2 = 2 from rfl]
    refine ⟨?_, this.2⟩
    rw [this.1]
    simp

theorem segGroups_wide (tabWidth : Int) (line : Bytes) (hne : line ≠ [])
    (hts : ∀ t ∈ tokens line, ∃ r b, t = Token.text r b ∧ isEastAsianWide (r : Int) = true) :
    segGroups 2 tabWidth line = (tokens line).map (fun t => [t]) := by
  have hne' : tokens line ≠ [] := fun h => hne ((tokens_eq_nil_iff line).1 h)
  obtain ⟨t, ts, hcons⟩ := List.exists_cons_of_ne_nil hne'
  unfold segGroups
  rw [hcons] at hts ⊢
  obtain ⟨r, b, rfl, hr⟩ := hts t (List.mem_cons_self _ _)
  have hw := width_two_of_wide r 0 tabWidth hr
  have hg : groupToks 2 tabWidth (.text r b :: ts) [] [] 0 =
      groupToks 2 tabWidth ts [] [.text r b] 2 := by
    rw [groupToks, hw, if_neg (by omega)]
    simp
  rw [hg]
  have := groupToks_wide tabWidth ts (fun t ht => hts t (List.mem_cons_of_mem _ ht)) []
    [.text r b] (List.cons_ne_nil _ _)
  rw [if_neg this.2, this.1]
  simp

/-- C13. For every non-empty line made only of East-Asian-Wide code points and
width 2, `wrapLineVisual` returns one segment per code point, in order, each
holding exactly one code point. -/
theorem wrapLineVisual_wide_chars (line : Bytes) (tabWidth : Int) (hne : line ≠ [])
    (hwide : ∀ r ∈ runes line, isEastAsianWide (r : Int) = true) :
    wrapLineVisual line 2 tabWidth = (tokens line).map Token.bytes ∧
      (wrapLineVisual line 2 tabWidth).length = runeCount line ∧
      ∀ seg ∈ wrapLineVisual line 2 tabWidth, runeCount seg = 1 := by
  have hesc : ∀ r ∈ runes line, r ≠ 0x1b := by
    intro r hr h
    have := ((isEastAsianWide_iff r).1 (hwide r hr)).1
    omega
  have htok := tokens_text_of_runes line hesc
  have hts : ∀ t ∈ tokens line, ∃ r b, t = Token.text r b ∧ isEastAsianWide (r : Int) = true := by
    intro t ht
    obtain ⟨r, b, e, hm⟩ := htok t ht
    exact ⟨r, b, e, hwide r hm⟩
  have hall : ∀ t ∈ tokens line, t.isText = true := by
    intro t ht
    obtain ⟨r, b, e, _⟩ := htok t ht
    rw [e]; rfl
  have hseg := segGroups_wide tabWidth line hne hts
  have hne' : tokens line ≠ [] := fun h => hne ((tokens_eq_nil_iff line).1 h)
  have hwrap : wrapLineVisual line 2 tabWidth = (tokens line).map Token.bytes := by
    rw [wrapLineVisual_eq, if_neg (by omega), hseg,
      if_neg (by simpa using hne'), List.map_map]
    apply List.map_congr_left
    intro t _
    simp [bytesOf]
  refine ⟨hwrap, ?_, ?_⟩
  · rw [hwrap, List.length_map, runeCount_of_all_text line hall]
  · intro seg hseg'
    rw [hwrap] at hseg'
    obtain ⟨t, ht, rfl⟩ := List.mem_map.1 hseg'
    have hfl : ((tokens line).map (fun t => [t])).flatten = tokens line :=
      flatten_map_singleton (tokens line)
    have hself := tokens_bytesOf_group line _ hfl [t] (List.mem_map.2 ⟨t, ht, rfl⟩)
    have hb : bytesOf [t] = t.bytes := by simp [bytesOf]
    rw [hb] at hself
    rw [runeCount_of_all_text _ (by rw [hself]; intro t' ht'; exact hall t' ((List.mem_singleton.1 ht') ▸ ht)),
      hself]
    rfl

/-- Witness of C13: the line U+4F60 U+597D at width 2 and tab width 8. -/
theorem wrapLineVisual_wide_chars_witness :
    wrapLineVisual [0xE4, 0xBD, 0xA0, 0xE5, 0xA5, 0xBD] 2 8 =
      [[0xE4, 0xBD, 0xA0], [0xE5, 0xA5, 0xBD]] := by
  rw [(wrapLineVisual_wide_chars [0xE4, 0xBD, 0xA0, 0xE5, 0xA5, 0xBD] 8 (by decide)
    (by decide)).1]
  decide

/-! ## Values of decoded code points -/

theorem le_lor_left (a b : Nat) : a ≤ a ||| b :=
  Nat.le_of_testBit (fun i h => by simp [Nat.testBit_or, h])

theorem le_lor_right (a b : Nat) : b ≤ a ||| b :=
  Nat.le_of_testBit (fun i h => by simp [Nat.testBit_or, h])

theorem land_31 (a : Nat) : a &&& 0x1F = a % 32 := Nat.and_pow_two_sub_one_eq_mod a 5

theorem land_15 (a : Nat) : a &&& 0x0F = a % 16 := Nat.and_pow_two_sub_one_eq_mod a 4

theorem land_7 (a : Nat) : a &&& 0x07 = a % 8 := Nat.and_pow_two_sub_one_eq_mod a 3

theorem land_63 (a : Nat) : a &&& 0x3F = a % 64 := Nat.and_pow_two_sub_one_eq_mod a 6

/-- A code point decoded from more than one byte is not an ASCII code point. -/
theorem decodeRune_multibyte_ge (s : Bytes) (h : 2 ≤ (decodeRune s).2) :
    0x80 ≤ (decodeRune s).1 := by
  rcases s with _ | ⟨s0, t⟩
  · simp [decodeRune] at h
  have hsz := leadSize_bounds s0
  by_cases h0 : s0 < 0x80
  · simp [decodeRune, h0] at h
  by_cases h1 : s0 < 0xC2 ∨ 0xF4 < s0
  · simp [decodeRune, h0, h1] at h
  by_cases h2 : (s0 :: t).length < leadSize s0
  · simp only [decodeRune, h0, h1, h2, if_false, if_true] at h
    omega
  rcases t with _ | ⟨s1, t1⟩
  · simp [decodeRune, h0, h1] at h
  by_cases h3 : s1 < acceptLo s0 ∨ acceptHi s0 < s1
  · simp only [decodeRune, h0, h1, h2, h3, if_false, if_true] at h
    omega
  have hlo : acceptLo s0 ≤ s1 := by omega
  by_cases h4 : leadSize s0 ≤ 2
  · simp only [decodeRune, h0, h1, h2, h3, h4, if_false, if_true]
    have hs0 : s0 < 0xE0 := by
      unfold leadSize at h4
      split at h4
      · assumption
      · split at h4 <;> omega
    have := le_lor_left ((s0 &&& 0x1F) <<< 6) (s1 &&& 0x3F)
    have hA : (s0 &&& 0x1F) <<< 6 = s0 % 32 * 64 := by rw [land_31, Nat.shiftLeft_eq]
    omega
  rcases t1 with _ | ⟨s2, t2⟩
  · simp only [decodeRune, h0, h1, h2, h3, h4, if_false, if_true] at h
    omega
  by_cases h5 : s2 < 0x80 ∨ 0xBF < s2
  · simp only [decodeRune, h0, h1, h2, h3, h4, h5, if_false, if_true] at h
    omega
  have hs0 : 0xE0 ≤ s0 := by
    unfold leadSize at h4
    split at h4
    · omega
    · omega
  have hacc : s0 = 0xE0 → 0xA0 ≤ s1 := by
    intro e
    unfold acceptLo at hlo
    rw [if_pos e] at hlo
    exact hlo
  have hacc2 : s0 = 0xF0 → 0x90 ≤ s1 := by
    intro e
    unfold acceptLo at hlo
    rw [if_neg (by omega), if_pos e] at hlo
    exact hlo
  have hhi : s1 ≤ 0xBF := by
    have : acceptHi s0 ≤ 0xBF := by unfold acceptHi; split <;> [omega; (split <;> omega)]
    omega
  have hlo80 := acceptLo_ge s0
  by_cases h6 : leadSize s0 ≤ 3
  · simp only [decodeRune, h0, h1, h2, h3, h4, h5, h6, if_false, if_true]
    have hs0' : s0 < 0xF0 := by
      unfold leadSize at h6
      split at h6
      · omega
      · split at h6 <;> omega
    have h12 := le_lor_left ((s0 &&& 0x0F) <<< 12 ||| (s1 &&& 0x3F) <<< 6) (s2 &&& 0x3F)
    have ha := le_lor_left ((s0 &&& 0x0F) <<< 12) ((s1 &&& 0x3F) <<< 6)
    have hb := le_lor_right ((s0 &&& 0x0F) <<< 12) ((s1 &&& 0x3F) <<< 6)
    have hA : (s0 &&& 0x0F) <<< 12 = s0 % 16 * 4096 := by rw [land_15, Nat.shiftLeft_eq]
    have hB : (s1 &&& 0x3F) <<< 6 = s1 % 64 * 64 := by rw [land_63, Nat.shiftLeft_eq]
    by_cases e : s0 = 0xE0
    · have := hacc e
      omega
    · omega
  rcases t2 with _ | ⟨s3, t3⟩
  · simp only [decodeRune, h0, h1, h2, h3, h4, h5, h6, if_false, if_true] at h
    omega
  by_cases h7 : s3 < 0x80 ∨ 0xBF < s3
  · simp only [decodeRune, h0, h1, h2, h3, h4, h5, h6, h7, if_false, if_true] at h
    omega
  · simp only [decodeRune, h0, h1, h2, h3, h4, h5, h6, h7, if_false, if_true]
    have hs0' : 0xF0 ≤ s0 := by
      unfold leadSize at h6
      split at h6
      · omega
      · split at h6 <;> omega
    have h123 := le_lor_left
      ((s0 &&& 0x07) <<< 18 ||| (s1 &&& 0x3F) <<< 12 ||| (s2 &&& 0x3F) <<< 6) (s3 &&& 0x3F)
    have h12 := le_lor_left ((s0 &&& 0x07) <<< 18 ||| (s1 &&& 0x3F) <<< 12) ((s2 &&& 0x3F) <<< 6)
    have ha := le_lor_left ((s0 &&& 0x07) <<< 18) ((s1 &&& 0x3F) <<< 12)
    have hb := le_lor_right ((s0 &&& 0x07) <<< 18) ((s1 &&& 0x3F) <<< 12)
    have hA : (s0 &&& 0x07) <<< 18 = s0 % 8 * 262144 := by rw [land_7, Nat.shiftLeft_eq]
    have hB : (s1 &&& 0x3F) <<< 12 = s1 % 64 * 4096 := by rw [land_63, Nat.shiftLeft_eq]
    by_cases e : s0 = 0xF0
    · have := hacc2 e
      omega
    · omega

/-- The decoder returns an ASCII code point only for that ASCII byte. -/
theorem decodeRune_ascii (c : Nat) (x : Bytes) (r : Nat) (hr : r < 0x80)
    (h : (decodeRune (c :: x)).1 = r) : c = r := by
  by_cases hc : c < 0x80
  · simpa [decodeRune, hc] using h
  · exfalso
    rcases decodeRune_cases (c :: x) (List.cons_ne_nil _ _) with he | ⟨r', k, hd, hk1, _, _, hone, _⟩
    · rw [he] at h
      simp only [RuneError] at h
      omega
    · by_cases hk : k = 1
      · have := hone hk
        simp at this
        omega
      · have := decodeRune_multibyte_ge (c :: x) (by rw [hd]; simp only; omega)
        omega

/-! ## Wrapping after the tab transformation -/

theorem replaceTabs_no_tab (s : Bytes) : ∀ b ∈ replaceTabs s, b ≠ 0x09 := by
  induction s with
  | nil => intro b hb; simp [replaceTabs] at hb
  | cons c s ih =>
    intro b hb
    rw [replaceTabs] at hb
    split at hb
    · simp only [List.mem_cons] at hb
      rcases hb with rfl | rfl | hb
      · decide
      · decide
      · exact ih b hb
    · rename_i hc
      rcases List.mem_cons.1 hb with rfl | hb
      · exact hc
      · exact ih b hb

/-- A line without a TAB byte has no Text token TAB. -/
theorem tokens_no_tab (s : Bytes) (h : ∀ b ∈ s, b ≠ 0x09) :
    ∀ t ∈ tokens s, ∀ r b, t = Token.text r b → r ≠ 0x09 := by
  induction s using token_induction with
  | h0 => simp [tokens_nil]
  | hstep rest hr ih =>
    have hsub : ∀ b ∈ (nextToken rest).2, b ≠ 0x09 := by
      intro b hb
      apply h
      rw [← nextToken_bytes rest]
      exact List.mem_append_right _ hb
    rw [tokens_step rest hr]
    intro t ht r b e
    rcases List.mem_cons.1 ht with rfl | ht
    · obtain ⟨c, x, rfl⟩ := List.exists_cons_of_ne_nil hr
      cases hc : isCSI (c :: x) with
      | true => rw [nextToken_of_isCSI _ hc] at e; cases e
      | false =>
        rw [nextToken_of_not_isCSI _ hc] at e
        simp only [Token.text.injEq] at e
        intro h9
        have := decodeRune_ascii c x 0x09 (by omega) (by rw [e.1, h9])
        exact h c (List.mem_cons_self _ _) this
    · exact ih hsub t ht r b e

/-- Without a Text token TAB the wrap decisions do not depend on the tab width. -/
theorem groupToks_tab_indep (width t1 t2 : Int) (ts : List Token)
    (h : ∀ t ∈ ts, ∀ r b, t = Token.text r b → r ≠ 0x09) :
    ∀ (rg : List (List Token)) (cg : List Token) (v : Int),
      groupToks width t1 ts rg cg v = groupToks width t2 ts rg cg v := by
  induction ts with
  | nil => intro rg cg v; rfl
  | cons t ts ih =>
    intro rg cg v
    have ih' := ih (fun t ht => h t (List.mem_cons_of_mem _ ht))
    cases t with
    | esc b => rw [groupToks, groupToks, ih']
    | text r b =>
      have hr : (r : Int) ≠ 0x09 := by
        have := h _ (List.mem_cons_self _ _) r b rfl
        omega
      have hw : runeVisualWidth r v t1 = runeVisualWidth r v t2 := by
        rw [runeVisualWidth_of_ne_tab _ _ _ hr, runeVisualWidth_of_ne_tab _ _ _ hr]
      rw [groupToks, groupToks, hw]
      split
      · exact ih' _ _ _
      · exact ih' _ _ _

theorem wrapLineVisual_tab_indep (line : Bytes) (width t1 t2 : Int)
    (h : ∀ b ∈ line, b ≠ 0x09) :
    wrapLineVisual line width t1 = wrapLineVisual line width t2 := by
  have hg := groupToks_tab_indep width t1 t2 (tokens line) (tokens_no_tab line h) [] [] 0
  rw [wrapLineVisual_eq, wrapLineVisual_eq]
  unfold segGroups
  rw [hg]

theorem marker_width (v t : Int) :
    runeVisualWidth 0x5E v t = 1 ∧ runeVisualWidth 0x49 v t = 1 := by
  constructor <;> rw [runeVisualWidth_of_ne_tab _ _ _ (by decide)] <;> decide

/-- C14 (amended). With show-tabs on, TABs are replaced before wrapping, so for
every line, width and tab widths `t1`, `t2`, wrapping the tab-transformed line
gives the same segments with `t1` and with `t2`; and for every line no escape
token of which contains a TAB byte, each former TAB is the two Text tokens `^`
and `I` of the transformed line, 1 column each at every column and tab width. -/
theorem showTabs_wrap (f : Flags) (line : Bytes) (width t1 t2 : Int)
    (htabs : f.flagShowTabs = true) :
    wrapLineVisual (tabbedLineOf f line) width t1 = wrapLineVisual (tabbedLineOf f line) width t2 ∧
      ((∀ t ∈ tokens line, t.tabFree = true) →
        tokens (tabbedLineOf f line) = (tokens line).flatMap showTabToken ∧
        ∀ v t : Int, runeVisualWidth 0x5E v t = 1 ∧ runeVisualWidth 0x49 v t = 1) := by
  constructor
  · rw [tabbedLineOf_showTabs f line htabs]
    exact wrapLineVisual_tab_indep _ width t1 t2 (replaceTabs_no_tab line)
  · intro h
    have h' : ∀ t ∈ tokens line, ∀ e, t = Token.esc e → ∀ b ∈ e, b ≠ 0x09 := by
      intro t ht e he b hb
      have := h t ht
      rw [he] at this
      simp only [Token.tabFree, List.all_eq_true, decide_eq_true_eq] at this
      exact this b hb
    rw [tabbedLineOf_showTabs f line htabs]
    exact ⟨tokens_replaceTabs line h', marker_width⟩

/-- Witness of C14 (amended): the line `a TAB b` at width 3 wraps after `a ^ I`
with the tab widths 8 and 4 alike. -/
theorem showTabs_wrap_witness :
    wrapLineVisual (tabbedLineOf ⟨false, false, false, true, false, false, 8, false, 80⟩
        [0x61, 0x09, 0x62]) 3 4 = [[0x61, 0x5E, 0x49], [0x62]] := by
  rw [← (showTabs_wrap ⟨false, false, false, true, false, false, 8, false, 80⟩
    [0x61, 0x09, 0x62] 3 8 4 rfl).1]
  decide

/-- Counterexample to C14 as stated: in the line `ESC [ TAB` the TAB lies inside
the escape token; of its marker the `^` ends the escape sequence and only the
`I` is a Text token, so the former TAB takes 1 column, not 2. -/
theorem showTabs_marker_in_escape :
    tabbedLineOf ⟨false, false, false, true, false, false, 8, false, 80⟩ [0x1b, 0x5b, 0x09] =
        [0x1b, 0x5b, 0x5E, 0x49] ∧
      tokens (tabbedLineOf ⟨false, false, false, true, false, false, 8, false, 80⟩
          [0x1b, 0x5b, 0x09]) = [.esc [0x1b, 0x5b, 0x5E], .text 0x49 [0x49]] ∧
      lineWidth 8 (tokens (tabbedLineOf ⟨false, false, false, true, false, false, 8, false, 80⟩
          [0x1b, 0x5b, 0x09])) 0 = 1 ∧
      wrapLineVisual (tabbedLineOf ⟨false, false, false, true, false, false, 8, false, 80⟩
          [0x1b, 0x5b, 0x09]) 1 8 = [[0x1b, 0x5b, 0x5E, 0x49]] := by
  decide

/-! ## Unterminated escape sequences -/

theorem scanEscape_unterminated (tail : Bytes) (h : ∀ b ∈ tail, b < 0x40 ∨ b > 0x7e) :
    scanEscape tail = (tail, []) := by
  induction tail with
  | nil => rfl
  | cons b rest ih =>
    rw [scanEscape, if_pos (h b (List.mem_cons_self _ _)),
      ih (fun b hb => h b (List.mem_cons_of_mem _ hb))]

theorem tokens_unterminated (tail : Bytes) (h : ∀ b ∈ tail, b < 0x40 ∨ b > 0x7e) :
    tokens (0x1b :: 0x5b :: tail) = [Token.esc (0x1b :: 0x5b :: tail)] := by
  have hc : isCSI (0x1b :: 0x5b :: tail) = true := by simp [isCSI]
  rw [tokens_step _ (List.cons_ne_nil _ _), nextToken_of_isCSI _ hc]
  simp only [List.drop_succ_cons, List.drop_zero]
  rw [scanEscape_unterminated tail h]
  simp [tokens_nil]

/-- When `ESC [` stands at a token start and no terminator follows, the last
token of the line is the escape token that runs to the end of the line. -/
theorem tokens_append_unterminated (pre tail : Bytes) (h : ∀ b ∈ tail, b < 0x40 ∨ b > 0x7e)
    (hstart : tokens pre <+: tokens (pre ++ 0x1b :: 0x5b :: tail)) :
    tokens (pre ++ 0x1b :: 0x5b :: tail) = tokens pre ++ [Token.esc (0x1b :: 0x5b :: tail)] := by
  obtain ⟨rest, hrest⟩ := hstart
  have hb := bytesOf_tokens (pre ++ 0x1b :: 0x5b :: tail)
  rw [← hrest, bytesOf_append, bytesOf_tokens] at hb
  have hb' : bytesOf rest = 0x1b :: 0x5b :: tail := List.append_cancel_left hb
  have := tokens_bytesOf_final (tokens pre) _ rest hrest.symm
  rw [hb', tokens_unterminated tail h] at this
  rw [← hrest, ← this]

theorem groupToks_append_esc (width tabWidth : Int) (e : Bytes) (ts : List Token) :
    ∀ (rg : List (List Token)) (cg : List Token) (v : Int),
      groupToks width tabWidth (ts ++ [Token.esc e]) rg cg v =
        ((groupToks width tabWidth ts rg cg v).1,
          (groupToks width tabWidth ts rg cg v).2 ++ [Token.esc e]) := by
  induction ts with
  | nil => intro rg cg v; simp [groupToks]
  | cons t ts ih =>
    intro rg cg v
    cases t with
    | esc b => simp only [List.cons_append, groupToks]; exact ih _ _ _
    | text r b =>
      simp only [List.cons_append, groupToks]
      split
      · exact ih _ _ _
      · exact ih _ _ _

theorem groupToks_result_nil_of_cur_nil (width tabWidth : Int) (ts : List Token)
    (h : (groupToks width tabWidth ts [] [] 0).2 = []) :
    (groupToks width tabWidth ts [] [] 0).1 = [] := by
  obtain ⟨ext, new, h1, h2⟩ := groupToks_heads width tabWidth ts [] [] 0
  simp only [List.nil_append] at h1
  rw [h] at h1
  rcases List.eq_nil_or_concat new with hn | ⟨new', lst, hn⟩
  · subst hn
    have := congrArg List.length h1
    simpa using this
  · exfalso
    rw [hn, List.concat_eq_append, ← List.cons_append] at h1
    have hl := (List.append_inj' h1 rfl).2
    simp only [List.cons.injEq, and_true] at hl
    obtain ⟨r, b, rest, hlst⟩ := h2 lst (by rw [hn]; simp [List.concat_eq_append])
    rw [← hl] at hlst
    exact List.cons_ne_nil _ _ hlst.symm

/-- C15. Unterminated escape: when `ESC [` stands at a token start of the line
and no byte in `0x40..0x7e` follows the `[`, the escape token runs to the end of
the line; `stripANSI` removes everything from the `ESC` to the end; and
`wrapLineVisual` returns the segments of the part before the `ESC` with the
whole rest of the line appended to the last of them, whatever the width and the
tab width, so no break occurs after the `ESC`. -/
theorem unterminated_escape (pre tail : Bytes) (width tabWidth : Int)
    (h : ∀ b ∈ tail, b < 0x40 ∨ b > 0x7e)
    (hstart : tokens pre <+: tokens (pre ++ 0x1b :: 0x5b :: tail)) :
    tokens (pre ++ 0x1b :: 0x5b :: tail) = tokens pre ++ [Token.esc (0x1b :: 0x5b :: tail)] ∧
      stripANSI (pre ++ 0x1b :: 0x5b :: tail) = stripANSI pre ∧
      ∃ init last, wrapLineVisual pre width tabWidth = init ++ [last] ∧
        wrapLineVisual (pre ++ 0x1b :: 0x5b :: tail) width tabWidth =
          init ++ [last ++ 0x1b :: 0x5b :: tail] := by
  have htok := tokens_append_unterminated pre tail h hstart
  refine ⟨htok, ?_, ?_⟩
  · rw [stripANSI_eq_text_tokens, stripANSI_eq_text_tokens, htok]
    simp [List.filter_append, Token.isText]
  · rw [wrapLineVisual_eq, wrapLineVisual_eq]
    by_cases hw : width ≤ 0
    · exact ⟨[], pre, by simp [hw], by simp [hw]⟩
    · simp only [hw, if_false]
      have hg := groupToks_append_esc width tabWidth (0x1b :: 0x5b :: tail) (tokens pre) [] [] 0
      have hsegL : segGroups width tabWidth (pre ++ 0x1b :: 0x5b :: tail) =
          (groupToks width tabWidth (tokens pre) [] [] 0).1 ++
            [(groupToks width tabWidth (tokens pre) [] [] 0).2 ++
              [Token.esc (0x1b :: 0x5b :: tail)]] := by
        unfold segGroups
        rw [htok, hg]
        simp
      rw [hsegL]
      unfold segGroups
      by_cases hc : (groupToks width tabWidth (tokens pre) [] [] 0).2 = []
      · have hr := groupToks_result_nil_of_cur_nil width tabWidth (tokens pre) hc
        refine ⟨[], [], by simp [hc, hr], ?_⟩
        simp [hc, hr, bytesOf, Token.bytes]
      · refine ⟨(groupToks width tabWidth (tokens pre) [] [] 0).1.map bytesOf,
          bytesOf (groupToks width tabWidth (tokens pre) [] [] 0).2, by simp [hc], ?_⟩
        simp [bytesOf_append, bytesOf, Token.bytes]

/-- Witness of C15: the line `ab ESC [ 1 ; 2` at width 1. -/
theorem unterminated_escape_witness :
    wrapLineVisual [0x61, 0x62, 0x1b, 0x5b, 0x31, 0x3b, 0x32] 1 8 =
        [[0x61], [0x62, 0x1b, 0x5b, 0x31, 0x3b, 0x32]] ∧
      stripANSI [0x61, 0x62, 0x1b, 0x5b, 0x31, 0x3b, 0x32] = [0x61, 0x62] := by
  have h := unterminated_escape [0x61, 0x62] [0x31, 0x3b, 0x32] 1 8 (by decide)
    ⟨[Token.esc [0x1b, 0x5b, 0x31, 0x3b, 0x32]], by decide⟩
  refine ⟨by decide, ?_⟩
  have h2 := h.2.1
  simp only [List.cons_append, List.nil_append] at h2
  rw [h2]
  decide

/-! ## slice: offsets of lines -/

theorem splitAfterNL_flatten (s : Bytes) : (splitAfterNL s).flatten = s := by
  induction s with
  | nil => rfl
  | cons b rest ih =>
    rw [splitAfterNL]
    split
    · simp [ih]
    · split
      · rename_i h
        rw [h] at ih
        simp at ih
        simp [← ih]
      · rename_i l ls h
        rw [h] at ih
        simp only [List.flatten_cons] at ih ⊢
        rw [List.cons_append, ih]

theorem nlEnd_eq (s : Bytes) :
    ∀ n : Nat, nlEnd n s = ((splitAfterNL s).take n).flatten.length := by
  induction s with
  | nil => intro n; cases n <;> simp [nlEnd, splitAfterNL]
  | cons b rest ih =>
    intro n
    cases n with
    | zero => simp [nlEnd]
    | succ n =>
      rw [nlEnd, splitAfterNL]
      split
      · rw [ih n]
        simp
        omega
      · rw [ih (n + 1)]
        split
        · rename_i h
          simp [h]
        · rename_i l ls h
          simp [h]
          omega

theorem take_flatten_take (L : List Bytes) (n : Nat) :
    L.flatten.take ((L.take n).flatten.length) = (L.take n).flatten := by
  have h : L.flatten = (L.take n).flatten ++ (L.drop n).flatten := by
    rw [← List.flatten_append, List.take_append_drop]
  rw [h, List.take_left' rfl]

/-- The first `nlEnd n` bytes of a text are its first `n` lines. -/
theorem take_nlEnd (s : Bytes) (n : Nat) :
    s.take (nlEnd n s) = ((splitAfterNL s).take n).flatten := by
  have := take_flatten_take (splitAfterNL s) n
  rw [splitAfterNL_flatten] at this
  rw [nlEnd_eq]
  exact this

theorem nlEnd_le_length (s : Bytes) : ∀ n : Nat, nlEnd n s ≤ s.length := by
  induction s with
  | nil => intro n; cases n <;> simp [nlEnd]
  | cons b rest ih =>
    intro n
    cases n with
    | zero => simp [nlEnd]
    | succ n =>
      rw [nlEnd]
      have h1 := ih n
      have h2 := ih (n + 1)
      simp only [List.length_cons]
      split <;> omega

theorem nlEnd_append_of_no_nl (p q : Bytes) (n : Nat) (h : ∀ b ∈ p, b ≠ 0x0A) :
    nlEnd (n + 1) (p ++ q) = p.length + nlEnd (n + 1) q := by
  induction p with
  | nil => simp
  | cons c p ih =>
    rw [List.cons_append, nlEnd, if_neg (h c (List.mem_cons_self _ _)),
      ih (fun b hb => h b (List.mem_cons_of_mem _ hb))]
    simp only [List.length_cons]
    omega

/-- One decoded code point in terms of newlines: it is the newline byte, or it
holds no newline byte. -/
theorem nlEnd_rune (rest : Bytes) (hr : rest ≠ []) (m : Nat) :
    ((decodeRune rest).1 = 0x0A →
        (decodeRune rest).2 = 1 ∧ nlEnd (m + 1) rest = 1 + nlEnd m (rest.drop 1)) ∧
      ((decodeRune rest).1 ≠ 0x0A →
        nlEnd (m + 1) rest = (decodeRune rest).2 + nlEnd (m + 1) (rest.drop (decodeRune rest).2)) := by
  obtain ⟨c, x, rfl⟩ := List.exists_cons_of_ne_nil hr
  constructor
  · intro h
    have hc := decodeRune_ascii c x 0x0A (by omega) h
    subst hc
    refine ⟨by simp [decodeRune], ?_⟩
    rw [nlEnd, if_pos rfl]
    simp
  · intro h
    have hsz := decodeRune_size (c :: x) hr
    have htail := decodeRune_tail_ge (c :: x) hr
    have hc : c ≠ 0x0A := by
      intro e
      subst e
      simp [decodeRune] at h
    obtain ⟨k, hk⟩ : ∃ k, (decodeRune (c :: x)).2 = k + 1 :=
      ⟨(decodeRune (c :: x)).2 - 1, by omega⟩
    rw [hk] at htail ⊢
    simp only [List.take_succ_cons, List.drop_succ_cons, List.drop_zero] at htail ⊢
    have hp : ∀ b ∈ c :: x.take k, b ≠ 0x0A := by
      intro b hb
      rcases List.mem_cons.1 hb with rfl | hb
      · exact hc
      · have := htail b hb
        omega
    have := nlEnd_append_of_no_nl (c :: x.take k) (x.drop k) m hp
    rw [List.cons_append, List.take_append_drop] at this
    rw [this]
    simp only [List.length_cons, List.length_take] at hsz ⊢
    have : min k x.length = k := by omega
    omega

/-- The loop of the `k_line` case finds the end of the `n`-th line. -/
theorem lineLoop_eq (n : Nat) (fuel : Nat) :
    ∀ (rest : Bytes) (i count : Nat), rest.length ≤ fuel → count < n →
      (lineLoop fuel rest i count n).getD (i + rest.length) = i + nlEnd (n - count) rest := by
  induction fuel with
  | zero =>
    intro rest i count hf hc
    have : rest = [] := List.length_eq_zero.1 (by omega)
    subst this
    obtain ⟨m, hm⟩ : ∃ m, n - count = m + 1 := ⟨n - count - 1, by omega⟩
    simp [lineLoop, hm, nlEnd]
  | succ fuel ih =>
    intro rest i count hf hc
    obtain ⟨m, hm⟩ : ∃ m, n - count = m + 1 := ⟨n - count - 1, by omega⟩
    by_cases hr : rest = []
    · subst hr
      simp [lineLoop, hm, nlEnd]
    · have hsz := decodeRune_size rest hr
      have hrune := nlEnd_rune rest hr m
      have hlen : 0 < rest.length := List.length_pos.2 hr
      rw [lineLoop, if_neg hr, hm]
      by_cases hnl : (decodeRune rest).1 = 0x0A
      · obtain ⟨h1, h2⟩ := hrune.1 hnl
        rw [if_pos hnl, h2, h1]
        by_cases hlast : count + 1 = n
        · have hm0 : m = 0 := by omega
          subst hm0
          rw [if_pos hlast]
          simp [nlEnd]
        · rw [if_neg hlast]
          have := ih (rest.drop 1) (i + 1) (count + 1) (by simp; omega) (by omega)
          have hm' : n - (count + 1) = m := by omega
          rw [hm'] at this
          simp only [List.length_drop] at this
          rw [show i + 1 + (rest.length - 1) = i + rest.length from by omega] at this
          rw [this]
          omega
      · have h2 := hrune.2 hnl
        rw [if_neg hnl, h2]
        have := ih (rest.drop (decodeRune rest).2) (i + (decodeRune rest).2) count
          (by simp; omega) hc
        rw [hm] at this
        simp only [List.length_drop] at this
        rw [show i + (decodeRune rest).2 + (rest.length - (decodeRune rest).2) = i + rest.length
          from by omega] at this
        rw [this]
        omega

theorem start_offset_line (content : Bytes) (n : Nat) :
    start_offset content .k_line n = (nlEnd n content : Int) := by
  unfold start_offset
  simp only
  by_cases hn : n = 0
  · subst hn
    simp [nlEnd]
  · rw [if_neg hn]
    have := lineLoop_eq n content.length content 0 0 (le_refl _) (by omega)
    simp only [Nat.zero_add, Nat.sub_zero] at this
    rw [← this]
    cases hl : lineLoop content.length content 0 0 n with
    | none => rfl
    | some j => rfl

theorem clamp_slice (content : Bytes) (S E s' e' : Int) (hs : s'.toNat = S.toNat)
    (he : content.take e'.toNat = content.take E.toNat) (hs' : 0 ≤ s') :
    (if s' ≥ e' then [] else (content.take e'.toNat).drop s'.toNat) =
      (content.take E.toNat).drop S.toNat := by
  rw [← hs, ← he]
  split
  · symm
    apply List.drop_eq_nil_of_le
    rw [List.length_take]
    omega
  · rfl

/-- The result of `slice_content` is the part of the content between the two
offsets. -/
theorem slice_content_eq (content : Bytes) (lower upper : Bound) (z : Bool) :
    slice_content content lower upper z =
      (content.take (bound_to_byte_offset content upper z false).toNat).drop
        (bound_to_byte_offset content lower z true).toNat := by
  unfold slice_content
  generalize bound_to_byte_offset content lower z true = S
  generalize bound_to_byte_offset content upper z false = E
  have hS : (if S < 0 then 0 else S).toNat = S.toNat := by split <;> omega
  have hS' : 0 ≤ (if S < 0 then 0 else S) := by split <;> omega
  have hE : content.take (if E > content.length then (content.length : Int) else E).toNat =
      content.take E.toNat := by
    split
    · rw [List.take_of_length_le (by omega), List.take_of_length_le (by omega)]
    · rfl
  exact clamp_slice content S E _ _ hS hE hS'

theorem drop_take_flatten (L : List Bytes) (m n : Nat) (h : m ≤ n) :
    ((L.take n).flatten).drop ((L.take m).flatten.length) = ((L.drop m).take (n - m)).flatten := by
  have h1 : L.take n = L.take m ++ (L.drop m).take (n - m) := by
    conv_lhs => rw [← List.take_append_drop m (L.take n)]
    rw [List.take_take, Nat.min_eq_left h, List.drop_take]
  rw [h1, List.flatten_append]
  exact List.drop_left' rfl

/-- C16. slice, line ranges: for `1 ≤ a ≤ b`, `slice_content` with the lower
bound `(line, a)`, the upper bound `(line, b)` and 1-based indexing returns
exactly the lines `a` through `b` of the content, each with its terminating
newline (up to the end of the content when it has fewer than `b` lines). -/
theorem slice_lines (content : Bytes) (a b : Nat) (ha : 1 ≤ a) (hab : a ≤ b) (hb : b < 2 ^ 64) :
    slice_content content ⟨.k_line, a, false⟩ ⟨.k_line, b, false⟩ false =
      (((splitAfterNL content).drop (a - 1)).take (b + 1 - a)).flatten := by
  rw [slice_content_eq]
  have hlo : bound_to_byte_offset content ⟨.k_line, a, false⟩ false true =
      (nlEnd (a - 1) content : Int) := by
    unfold bound_to_byte_offset
    simp only [Bool.false_eq_true, if_false, not_false_eq_true, if_true]
    rw [if_pos (by omega), start_offset_line]
  have hup : bound_to_byte_offset content ⟨.k_line, b, false⟩ false false =
      (nlEnd b content : Int) := by
    unfold bound_to_byte_offset
    simp only [Bool.false_eq_true, if_false, not_false_eq_true, if_true]
    rw [if_pos (by omega), start_offset_line]
    have : (b - 1 + 1) % 2 ^ 64 = b := by
      rw [Nat.sub_add_cancel (by omega), Nat.mod_eq_of_lt hb]
    rw [this]
  rw [hlo, hup, Int.toNat_ofNat, Int.toNat_ofNat, take_nlEnd, nlEnd_eq,
    drop_take_flatten _ _ _ (by omega)]
  rw [show b - (a - 1) = b + 1 - a from by omega]

/-- Witness of C16: lines 2 to 3 of a text of four lines, and `main.go[1l:20l]`
asks for the lines 1 to 20. -/
theorem slice_lines_witness :
    slice_content (str "a\nb\nc\nd") ⟨.k_line, 2, false⟩ ⟨.k_line, 3, false⟩ false = str "b\nc\n" ∧
      parse_arg (fun _ => 0) (str "main.go[1l:20l]") =
        .ok (str "main.go", ⟨.k_line, 1, false⟩, ⟨.k_line, 20, false⟩) := by
  refine ⟨?_, by rfl⟩
  rw [slice_lines (str "a\nb\nc\nd") 2 3 (by decide) (by decide) (by decide)]
  decide

/-! ## slice: indexing modes -/

theorem bound_offset_shift (content : Bytes) (kind : Kind) (n : Nat) (isLower : Bool) :
    bound_to_byte_offset content ⟨kind, n, false⟩ true isLower =
      bound_to_byte_offset content ⟨kind, n + 1, false⟩ false isLower := by
  unfold bound_to_byte_offset
  simp

theorem start_offset_char_zero (content : Bytes) : start_offset content .k_char 0 = 0 := by
  unfold start_offset
  rcases content with _ | ⟨c, x⟩
  · simp [charLoop]
  · simp [charLoop]

theorem start_offset_char_one (content : Bytes) :
    start_offset content .k_char 1 = ((decodeRune content).2 : Int) := by
  unfold start_offset
  rcases content with _ | ⟨c, x⟩
  · simp [charLoop, decodeRune]
  · have hsz := decodeRune_size (c :: x) (List.cons_ne_nil _ _)
    simp only [List.length_cons, charLoop, List.cons_ne_nil, if_false, Nat.zero_ne_one,
      Nat.zero_add]
    rcases hx : x.length with _ | k
    · simp only [charLoop]
      simp only [List.length_cons, hx] at hsz
      have : (decodeRune (c :: x)).2 = 1 := by omega
      simp [this]
    · simp only [charLoop, if_true]
      by_cases hd : (c :: x).drop (decodeRune (c :: x)).2 = []
      · rw [if_pos hd]
        have := congrArg List.length hd
        simp only [List.length_drop, List.length_cons, List.length_nil, hx] at this hsz
        simp only
        omega
      · rw [if_neg hd]

/-- C18. slice, indexing modes: a 0-based pair of bounds selects what the pair
shifted by one selects with 1-based indexing, for every content, kind and `n`,
`m` below `2^64 - 1`; and `file[1:]` (lower bound 1 character, open upper bound)
is the whole content in the default mode and the content from the second
character on with `-z`. -/
theorem zero_indexed_shift (content : Bytes) :
    (∀ (kind : Kind) (n m : Nat), n + 1 < 2 ^ 64 → m + 1 < 2 ^ 64 →
        slice_content content ⟨kind, n, false⟩ ⟨kind, m, false⟩ true =
          slice_content content ⟨kind, n + 1, false⟩ ⟨kind, m + 1, false⟩ false) ∧
      slice_content content ⟨.k_char, 1, false⟩ ⟨.k_char, 0, true⟩ false = content ∧
      slice_content content ⟨.k_char, 1, false⟩ ⟨.k_char, 0, true⟩ true =
        content.drop (decodeRune content).2 := by
  refine ⟨?_, ?_, ?_⟩
  · intro kind n m _ _
    rw [slice_content_eq, slice_content_eq, bound_offset_shift, bound_offset_shift]
  · rw [slice_content_eq]
    have h1 : bound_to_byte_offset content ⟨.k_char, 1, false⟩ false true = 0 := by
      unfold bound_to_byte_offset
      simp [start_offset_char_zero]
    have h2 : bound_to_byte_offset content ⟨.k_char, 0, true⟩ false false = content.length := by
      unfold bound_to_byte_offset
      simp
    rw [h1, h2]
    simp
  · rw [slice_content_eq]
    have h1 : bound_to_byte_offset content ⟨.k_char, 1, false⟩ true true =
        ((decodeRune content).2 : Int) := by
      unfold bound_to_byte_offset
      simp [start_offset_char_one]
    have h2 : bound_to_byte_offset content ⟨.k_char, 0, true⟩ true false = content.length := by
      unfold bound_to_byte_offset
      simp
    rw [h1, h2]
    simp

/-- Witness of C18: `main.go[1:]` asks for the lower bound 1 character and an
open upper bound; on the text `héllo` this is the whole text in the default mode
and `éllo` with `-z`; the words 0 to 1 (0-based) are the words 1 to 2. -/
theorem zero_indexed_shift_witness :
    parse_arg (fun _ => 0) (str "main.go[1:]") =
        .ok (str "main.go", ⟨.k_char, 1, false⟩, ⟨.k_char, 0, true⟩) ∧
      slice_content [0x68, 0xC3, 0xA9, 0x6C, 0x6C, 0x6F] ⟨.k_char, 1, false⟩ ⟨.k_char, 0, true⟩
        true = [0xC3, 0xA9, 0x6C, 0x6C, 0x6F] ∧
      slice_content (str "ab cd ef") ⟨.k_word, 0, false⟩ ⟨.k_word, 1, false⟩ true =
        str "ab cd " := by
  refine ⟨by rfl, ?_, ?_⟩
  · rw [(zero_indexed_shift [0x68, 0xC3, 0xA9, 0x6C, 0x6C, 0x6F]).2.2]
    decide
  · rw [(zero_indexed_shift (str "ab cd ef")).1 .k_word 0 1 (by decide) (by decide)]
    decide

/-! ## slice: bound syntax -/

theorem takeWhile_digits (ds suffix : Bytes) (hds : ds.all isDigit = true)
    (hsuf : ∀ c ∈ suffix.head?, isDigit c = false) :
    (ds ++ suffix).takeWhile isDigit = ds := by
  induction ds with
  | nil =>
    rcases suffix with _ | ⟨c, t⟩
    · rfl
    · have := hsuf c (by simp)
      simp [List.takeWhile, this]
  | cons d ds ih =>
    simp only [List.all_cons, Bool.and_eq_true] at hds
    rw [List.cons_append, List.takeWhile_cons, if_pos hds.1, ih hds.2]

theorem parseUint_digits (ds : Bytes) (hne : ds ≠ []) (hds : ds.all isDigit = true)
    (hfit : digitsValue ds < 2 ^ 64) : parseUint ds = some (digitsValue ds) := by
  unfold parseUint
  rw [if_neg (by simp [hne, hds]), if_pos hfit]

/-- The two steps of `parse_bound` before the suffix is looked at: the digits
are read and converted. -/
theorem parse_bound_digits (ovf : Int → Nat) (ds suffix : Bytes) (hne : ds ≠ [])
    (hds : ds.all isDigit = true) (hfit : digitsValue ds < 2 ^ 64)
    (hsuf : ∀ c ∈ suffix.head?, isDigit c = false) :
    parse_bound ovf (ds ++ suffix) =
      if suffix = [] ∨ suffix = str "c" then .ok ⟨.k_char, digitsValue ds, false⟩
      else if suffix = str "l" then .ok ⟨.k_line, digitsValue ds, false⟩
      else if suffix = str "w" then .ok ⟨.k_word, digitsValue ds, false⟩
      else
        match sizeSuffixes.lookup suffix with
        | some mult => .ok ⟨.k_byte, (digitsValue ds * mult) % 2 ^ 64, false⟩
        | none =>
          if suffix.head? = some 0x5F then
            match parseInt (suffix.drop 1) with
            | none => .error .badPower
            | some power =>
              .ok ⟨.k_char, (digitsValue ds * pow10Uint64 ovf power) % 2 ^ 64, false⟩
          else .error .unknownSuffix := by
  have hlen : 0 < ds.length := List.length_pos.2 hne
  unfold parse_bound
  rw [if_neg (by simp [hne]), takeWhile_digits ds suffix hds hsuf]
  simp only [hlen, if_true, List.take_left' rfl, List.drop_left' rfl,
    parseUint_digits ds hne hds hfit]

theorem sizeSuffixes_ok :
    ∀ p ∈ sizeSuffixes,
      sizeSuffixes.lookup p.1 = some p.2 ∧ p.1 ≠ [] ∧ (∀ c ∈ p.1.head?, isDigit c = false) ∧
        p.1 ≠ str "c" ∧ p.1 ≠ str "l" ∧ p.1 ≠ str "w" := by
  decide

theorem lookup_underscore (t : Bytes) : sizeSuffixes.lookup (0x5F :: t) = none := by
  have h : sizeSuffixes = [([0x62], 1),
      ([0x6b, 0x62], 1000), ([0x6b, 0x42], 1000), ([0x4b, 0x42], 1000),
      ([0x6d, 0x62], 1000 * 1000), ([0x6d, 0x42], 1000 * 1000), ([0x4d, 0x42], 1000 * 1000),
      ([0x67, 0x62], 1000 * 1000 * 1000), ([0x67, 0x42], 1000 * 1000 * 1000),
      ([0x47, 0x42], 1000 * 1000 * 1000),
      ([0x6b, 0x69, 0x62], 1024), ([0x4b, 0x69, 0x42], 1024), ([0x4b, 0x69], 1024),
      ([0x6d, 0x69, 0x62], 1024 * 1024), ([0x4d, 0x69, 0x42], 1024 * 1024),
      ([0x4d, 0x69], 1024 * 1024),
      ([0x67, 0x69, 0x62], 1024 * 1024 * 1024), ([0x47, 0x69, 0x42], 1024 * 1024 * 1024),
      ([0x47, 0x69], 1024 * 1024 * 1024)] := by decide
  rw [h]
  simp [List.lookup]

theorem parseInt_digits (pd : Bytes) (hne : pd ≠ []) (hds : pd.all isDigit = true)
    (hfit : digitsValue pd < 2 ^ 63) : parseInt pd = some (digitsValue pd : Int) := by
  obtain ⟨c, t, rfl⟩ := List.exists_cons_of_ne_nil hne
  have hc : isDigit c = true := by
    simp only [List.all_cons, Bool.and_eq_true] at hds
    exact hds.1
  simp only [isDigit, Bool.decide_and, Bool.and_eq_true, decide_eq_true_eq] at hc
  unfold parseInt
  simp only
  rw [if_neg (by omega), if_neg (by omega),
    parseUint_digits _ (List.cons_ne_nil _ _) hds (by omega)]
  simp only [hfit, if_true]

/-- C19 (amended). slice, bound syntax: for every decimal number `n` that fits in
`uint64`, `parse_bound` maps `n` and `n` followed by `c` to `n` characters, `l`
to `n` lines, `w` to `n` words, every suffix of the table `sizeSuffixes` (`b`;
`kb`, `kB`, `KB`; `mb`, `mB`, `MB`; `gb`, `gB`, `GB`; `kib`, `KiB`, `Ki`; `mib`,
`MiB`, `Mi`; `gib`, `GiB`, `Gi`) to `n` times its multiplier modulo `2^64`
bytes, and `<n>_<p>` with a decimal `p ≤ 19` to `n * 10^p` modulo `2^64`
characters; the empty string is the open end bound; `_` followed by something
that is not an integer is an error, and so is every other suffix that does not
start with `_`. -/
theorem parse_bound_syntax (ovf : Int → Nat) (ds : Bytes) (hne : ds ≠ [])
    (hds : ds.all isDigit = true) (hfit : digitsValue ds < 2 ^ 64) :
    parse_bound ovf ds = .ok ⟨.k_char, digitsValue ds, false⟩ ∧
      parse_bound ovf (ds ++ str "c") = .ok ⟨.k_char, digitsValue ds, false⟩ ∧
      parse_bound ovf (ds ++ str "l") = .ok ⟨.k_line, digitsValue ds, false⟩ ∧
      parse_bound ovf (ds ++ str "w") = .ok ⟨.k_word, digitsValue ds, false⟩ ∧
      (∀ p ∈ sizeSuffixes,
        parse_bound ovf (ds ++ p.1) = .ok ⟨.k_byte, (digitsValue ds * p.2) % 2 ^ 64, false⟩) ∧
      (∀ pd : Bytes, pd ≠ [] → pd.all isDigit = true → digitsValue pd ≤ 19 →
        parse_bound ovf (ds ++ 0x5F :: pd) =
          .ok ⟨.k_char, (digitsValue ds * 10 ^ digitsValue pd) % 2 ^ 64, false⟩) ∧
      parse_bound ovf [] = .ok ⟨.k_char, 0, true⟩ ∧
      (∀ t : Bytes, parseInt t = none →
        parse_bound ovf (ds ++ 0x5F :: t) = .error .badPower) ∧
      (∀ suffix : Bytes, suffix ≠ [] → (∀ c ∈ suffix.head?, isDigit c = false) →
        suffix ≠ str "c" → suffix ≠ str "l" → suffix ≠ str "w" →
        sizeSuffixes.lookup suffix = none → suffix.head? ≠ some 0x5F →
        parse_bound ovf (ds ++ suffix) = .error .unknownSuffix) := by
  have key := parse_bound_digits ovf ds
  refine ⟨?_, ?_, ?_, ?_, ?_, ?_, ?_, ?_, ?_⟩
  · have := key [] hne hds hfit (by simp)
    simpa using this
  · rw [key _ hne hds hfit (by decide)]
    simp
  · rw [key _ hne hds hfit (by decide), if_neg (by decide), if_pos rfl]
  · rw [key _ hne hds hfit (by decide), if_neg (by decide), if_neg (by decide), if_pos rfl]
  · intro p hp
    obtain ⟨h1, h2, h3, h4, h5, h6⟩ := sizeSuffixes_ok p hp
    rw [key _ hne hds hfit h3, if_neg (by simp [h2, h4]), if_neg h5, if_neg h6, h1]
  · intro pd hpne hpd hp19
    rw [key _ hne hds hfit (by simp [isDigit]), if_neg (by simp [str]), if_neg (by simp [str]),
      if_neg (by simp [str]), lookup_underscore]
    simp only [List.head?_cons, if_true, List.drop_succ_cons, List.drop_zero]
    rw [parseInt_digits pd hpne hpd (by omega)]
    simp only [pow10Uint64]
    rw [if_neg (by omega), if_pos (by omega)]
    simp
  · rfl
  · intro t ht
    rw [key _ hne hds hfit (by simp [isDigit]), if_neg (by simp [str]), if_neg (by simp [str]),
      if_neg (by simp [str]), lookup_underscore]
    simp only [List.head?_cons, if_true, List.drop_succ_cons, List.drop_zero, ht]
  · intro suffix hsne hhead hc hl hw hlook hund
    rw [key _ hne hds hfit hhead, if_neg (by simp [hsne, hc]), if_neg hl, if_neg hw, hlook]
    simp only [hund, if_false]

/-- Witness of C19 (amended): `12kb` is 12000 bytes and `1_3` is 1000 characters. -/
theorem parse_bound_syntax_witness :
    parse_bound (fun _ => 0) (str "12kb") = .ok ⟨.k_byte, 12000, false⟩ ∧
      parse_bound (fun _ => 0) (str "1_3") = .ok ⟨.k_char, 1000, false⟩ := by
  have h := parse_bound_syntax (fun _ => 0) (str "12") (by decide) (by decide) (by decide)
  have h1 := h.2.2.2.2.1 (str "kb", 1000) (by decide)
  have h2 := parse_bound_syntax (fun _ => 0) (str "1") (by decide) (by decide) (by decide)
  have h3 := h2.2.2.2.2.2.1 (str "3") (by decide) (by decide) (by decide)
  exact ⟨h1, h3⟩

/-- Counterexample to C19 as stated: the suffix `KB`, which the claim does not
list, is accepted (`5KB` is 5000 bytes, not an error), and the product wraps
around: `18446744073709551615kb` is `2^64 - 1000` bytes, not
`18446744073709551615 * 1000`. -/
theorem parse_bound_KB_and_wrap :
    parse_bound (fun _ => 0) (str "5KB") = .ok ⟨.k_byte, 5000, false⟩ ∧
      parse_bound (fun _ => 0) (str "18446744073709551615kb") =
        .ok ⟨.k_byte, 18446744073709550616, false⟩ ∧
      18446744073709550616 ≠ 18446744073709551615 * 1000 := by
  refine ⟨by rfl, by rfl, by decide⟩

/-! ## slice: single-bound shorthand -/

theorem cutAt_append (sep : Nat) (p q : Bytes) (h : sep ∉ p) :
    cutAt sep (p ++ sep :: q) = some (p, q) := by
  induction p with
  | nil => simp [cutAt]
  | cons a p ih =>
    have ha : a ≠ sep := fun e => h (by simp [e])
    have hp : sep ∉ p := fun e => h (by simp [e])
    simp [cutAt, ha, ih hp]

theorem cutAt_none (sep : Nat) (s : Bytes) (h : sep ∉ s) : cutAt sep s = none := by
  induction s with
  | nil => rfl
  | cons a s ih =>
    have ha : a ≠ sep := fun e => h (by simp [e])
    have hp : sep ∉ s := fun e => h (by simp [e])
    simp [cutAt, ha, ih hp]

theorem parse_arg_single (ovf : Int → Nat) (file inner : Bytes) (hfile : 0x5B ∉ file)
    (hinner : 0x3A ∉ inner) :
    parse_arg ovf (file ++ 0x5B :: (inner ++ [0x5D])) =
      match parse_bound ovf inner with
      | .error e => .error e
      | .ok b => .ok (file, ⟨b.kind, 1, false⟩, b) := by
  have hl : (inner ++ [0x5D]).getLast? = some 0x5D := by simp
  unfold parse_arg
  rw [cutAt_append _ _ _ hfile]
  simp only [hl, ne_eq, not_true_eq_false, if_false, List.dropLast_concat]
  rw [cutAt_none _ _ hinner]

theorem parse_arg_pair (ovf : Int → Nat) (file lo hi : Bytes) (hfile : 0x5B ∉ file)
    (hlo : 0x3A ∉ lo) :
    parse_arg ovf (file ++ 0x5B :: (lo ++ 0x3A :: hi ++ [0x5D])) =
      match parse_bound ovf lo with
      | .error e => .error (.lowerBound e)
      | .ok lower =>
        match parse_bound ovf hi with
        | .error e => .error (.upperBound e)
        | .ok upper => .ok (file, lower, upper) := by
  have e : lo ++ 0x3A :: hi ++ [0x5D] = (lo ++ 0x3A :: hi) ++ [0x5D] := by simp
  have hl : ((lo ++ 0x3A :: hi) ++ [0x5D]).getLast? = some 0x5D := List.getLast?_concat _
  rw [e]
  unfold parse_arg
  rw [cutAt_append _ _ _ hfile]
  simp only [hl, ne_eq, not_true_eq_false, if_false, List.dropLast_concat]
  rw [cutAt_append _ _ _ hlo]

theorem digits_no_colon (ds : Bytes) (hds : ds.all isDigit = true) : 0x3A ∉ ds := by
  intro h
  have := List.all_eq_true.1 hds _ h
  revert this
  decide

theorem runeEnd_nil (n : Nat) : runeEnd n [] = 0 := by
  cases n <;> simp [runeEnd]

theorem runeEnd_le (n : Nat) : ∀ s : Bytes, runeEnd n s ≤ s.length := by
  induction n with
  | zero => intro s; simp [runeEnd]
  | succ n ih =>
    intro s
    by_cases hs : s = []
    · subst hs; simp [runeEnd]
    · have hsz := decodeRune_size s hs
      have := ih (s.drop (decodeRune s).2)
      simp only [runeEnd, hs, if_false]
      simp only [List.length_drop] at this
      omega

theorem runes_take_runeEnd (n : Nat) :
    ∀ s : Bytes, runes (s.take (runeEnd n s)) = (runes s).take n := by
  induction n with
  | zero => intro s; simp [runeEnd, runes_nil]
  | succ n ih =>
    intro s
    by_cases hs : s = []
    · subst hs; simp [runeEnd, runes_nil]
    · have hsz := decodeRune_size s hs
      have hk := runeEnd_le n (s.drop (decodeRune s).2)
      simp only [List.length_drop] at hk
      simp only [runeEnd, hs, if_false]
      generalize hkd : runeEnd n (s.drop (decodeRune s).2) = k at hk
      have hp : s.take ((decodeRune s).2 + k) ≠ [] := by
        intro e
        have := congrArg List.length e
        simp only [List.length_take, List.length_nil] at this
        omega
      have hcut : decodeRune (s.take ((decodeRune s).2 + k)) = decodeRune s := by
        have := decodeRune_cut (s.take ((decodeRune s).2 + k)) (s.drop ((decodeRune s).2 + k)) hp
          (by rw [List.take_append_drop, List.length_take]; omega)
        rw [this, List.take_append_drop]
      rw [runes_step _ hp, runes_step s hs, hcut, List.take_succ_cons, List.drop_take,
        Nat.add_sub_cancel_left, ← hkd, ih]

theorem charLoop_eq (n : Nat) :
    ∀ (fuel : Nat) (rest : Bytes) (i count : Nat), rest.length ≤ fuel → count ≤ n →
      (charLoop fuel rest i count n).getD (i + rest.length) = i + runeEnd (n - count) rest := by
  intro fuel
  induction fuel with
  | zero =>
    intro rest i count hf _
    have : rest = [] := List.length_eq_zero.1 (by omega)
    subst this
    simp [charLoop, runeEnd_nil]
  | succ fuel ih =>
    intro rest i count hf hc
    by_cases hr : rest = []
    · subst hr
      simp [charLoop, runeEnd_nil]
    · have hsz := decodeRune_size rest hr
      by_cases hcn : count = n
      · subst hcn
        simp [charLoop, hr, runeEnd]
      · simp only [charLoop, hr, if_false, hcn]
        have hlen : (rest.drop (decodeRune rest).2).length = rest.length - (decodeRune rest).2 :=
          List.length_drop _ _
        have := ih (rest.drop (decodeRune rest).2) (i + (decodeRune rest).2) (count + 1)
          (by omega) (by omega)
        rw [hlen, show i + (decodeRune rest).2 + (rest.length - (decodeRune rest).2) =
          i + rest.length from by omega] at this
        rw [this, show n - count = (n - (count + 1)) + 1 from by omega]
        simp only [runeEnd, hr, if_false]
        omega

theorem start_offset_char (content : Bytes) (n : Nat) :
    start_offset content .k_char n = (runeEnd n content : Int) := by
  unfold start_offset
  have := charLoop_eq n content.length content 0 0 (Nat.le_refl _) (Nat.zero_le _)
  simp only [Nat.zero_add, Nat.sub_zero] at this
  rcases h : charLoop content.length content 0 0 n with _ | i
  · rw [h] at this
    simp only [Option.getD_none] at this
    simp only
    omega
  · rw [h] at this
    simp only [Option.getD_some] at this
    simp only
    omega

theorem start_offset_byte (content : Bytes) (n : Nat) (hn : n < 2 ^ 63) :
    (start_offset content .k_byte n).toNat = min n content.length := by
  unfold start_offset intOfUint64
  have h1 : n % 2 ^ 64 = n := Nat.mod_eq_of_lt (by omega)
  simp only [h1, hn, if_true]
  split <;> omega

theorem shorthand_offsets (content : Bytes) (kind : Kind) (n : Nat) (h1 : 1 ≤ n)
    (hn : n < 2 ^ 64) :
    slice_content content ⟨kind, 1, false⟩ ⟨kind, n, false⟩ false =
      (content.take (start_offset content kind n).toNat).drop
        (start_offset content kind 0).toNat := by
  rw [slice_content_eq]
  have hlo : bound_to_byte_offset content ⟨kind, 1, false⟩ false true =
      start_offset content kind 0 := by
    unfold bound_to_byte_offset
    simp
  have hup : bound_to_byte_offset content ⟨kind, n, false⟩ false false =
      start_offset content kind n := by
    unfold bound_to_byte_offset
    simp only [Bool.false_eq_true, if_false, not_false_eq_true, if_true]
    rw [if_pos (by omega)]
    have : (n - 1 + 1) % 2 ^ 64 = n := by
      rw [Nat.sub_add_cancel (by omega), Nat.mod_eq_of_lt hn]
    rw [this]
  rw [hlo, hup]

theorem parse_bound_unit (ovf : Int → Nat) (ds : Bytes) (hne : ds ≠ [])
    (hds : ds.all isDigit = true) (hfit : digitsValue ds < 2 ^ 64) :
    ∀ p ∈ [(([] : Bytes), Kind.k_char), (str "c", Kind.k_char), (str "l", Kind.k_line),
        (str "w", Kind.k_word), (str "b", Kind.k_byte)],
      parse_bound ovf (ds ++ p.1) = .ok ⟨p.2, digitsValue ds, false⟩ ∧ 0x3A ∉ p.1 := by
  have key := parse_bound_digits ovf ds
  intro p hp
  simp only [List.mem_cons, List.mem_singleton, List.not_mem_nil, or_false] at hp
  rcases hp with rfl | rfl | rfl | rfl | rfl
  · refine ⟨?_, by decide⟩
    rw [key [] hne hds hfit (by simp)]
    simp
  · refine ⟨?_, by decide⟩
    rw [key _ hne hds hfit (by decide)]
    simp
  · refine ⟨?_, by decide⟩
    rw [key _ hne hds hfit (by decide), if_neg (by decide), if_pos rfl]
  · refine ⟨?_, by decide⟩
    rw [key _ hne hds hfit (by decide), if_neg (by decide), if_neg (by decide), if_pos rfl]
  · refine ⟨?_, by decide⟩
    obtain ⟨h1, h2, h3, h4, h5, h6⟩ := sizeSuffixes_ok (str "b", 1) (by decide)
    have hm : digitsValue ds * 1 % 2 ^ 64 = digitsValue ds := by
      rw [Nat.mul_one, Nat.mod_eq_of_lt hfit]
    rw [key _ hne hds hfit h3, if_neg (by decide), if_neg h5, if_neg h6, h1]
    show (Except.ok ⟨Kind.k_byte, digitsValue ds * 1 % 2 ^ 64, false⟩ :
      Except ParseError Bound) = _
    rw [hm]

/-- C17 (amended). slice, single-bound shorthand: `parse_arg` on `file[inner]`,
with no `:` in `inner`, gives the lower bound `(kind, 1)` and the upper bound
`parse_bound inner` of kind `kind`; for a number `n ≥ 1` and the suffixes none,
`c`, `l`, `w`, `b` this is the parse of `file[1S:<n>S]`.  In the default
(1-based) mode `slice_content` on the bounds `(kind, 1)` and `(kind, n)` returns
the content from the start of the first unit to the start of unit `n + 1`: the
first `n` lines, the first `n` code points, the first `n` bytes. -/
theorem single_bound_shorthand (ovf : Int → Nat) (content file ds : Bytes)
    (hfile : 0x5B ∉ file) (hne : ds ≠ []) (hds : ds.all isDigit = true)
    (hpos : 1 ≤ digitsValue ds) (hfit : digitsValue ds < 2 ^ 64) :
    (∀ p ∈ [(([] : Bytes), Kind.k_char), (str "c", Kind.k_char), (str "l", Kind.k_line),
        (str "w", Kind.k_word), (str "b", Kind.k_byte)],
      parse_arg ovf (file ++ 0x5B :: (ds ++ p.1 ++ [0x5D])) =
          .ok (file, ⟨p.2, 1, false⟩, ⟨p.2, digitsValue ds, false⟩) ∧
        parse_arg ovf (file ++ 0x5B :: ((str "1" ++ p.1) ++ 0x3A :: (ds ++ p.1) ++ [0x5D])) =
          .ok (file, ⟨p.2, 1, false⟩, ⟨p.2, digitsValue ds, false⟩)) ∧
      (∀ (inner : Bytes) (b : Bound), 0x3A ∉ inner → parse_bound ovf inner = .ok b →
        parse_arg ovf (file ++ 0x5B :: (inner ++ [0x5D])) =
          .ok (file, ⟨b.kind, 1, false⟩, b)) ∧
      (∀ kind : Kind,
        slice_content content ⟨kind, 1, false⟩ ⟨kind, digitsValue ds, false⟩ false =
          (content.take (start_offset content kind (digitsValue ds)).toNat).drop
            (start_offset content kind 0).toNat) ∧
      slice_content content ⟨.k_line, 1, false⟩ ⟨.k_line, digitsValue ds, false⟩ false =
        ((splitAfterNL content).take (digitsValue ds)).flatten ∧
      slice_content content ⟨.k_char, 1, false⟩ ⟨.k_char, digitsValue ds, false⟩ false =
        content.take (runeEnd (digitsValue ds) content) ∧
      runes (content.take (runeEnd (digitsValue ds) content)) =
        (runes content).take (digitsValue ds) ∧
      (digitsValue ds < 2 ^ 63 →
        slice_content content ⟨.k_byte, 1, false⟩ ⟨.k_byte, digitsValue ds, false⟩ false =
          content.take (digitsValue ds)) := by
  refine ⟨?_, ?_, ?_, ?_, ?_, ?_, ?_⟩
  · intro p hp
    obtain ⟨hn, hc⟩ := parse_bound_unit ovf ds hne hds hfit p hp
    obtain ⟨h1, _⟩ := parse_bound_unit ovf (str "1") (by decide) (by decide) (by decide) p hp
    have hcol : 0x3A ∉ ds ++ p.1 := by
      intro h
      rcases List.mem_append.1 h with h | h
      · exact digits_no_colon ds hds h
      · exact hc h
    have hcol1 : 0x3A ∉ str "1" ++ p.1 := by
      intro h
      rcases List.mem_append.1 h with h | h
      · revert h; decide
      · exact hc h
    refine ⟨?_, ?_⟩
    · rw [parse_arg_single ovf file _ hfile hcol, hn]
    · rw [parse_arg_pair ovf file _ _ hfile hcol1, h1, hn]
      rfl
  · intro inner b hcol hb
    rw [parse_arg_single ovf file _ hfile hcol, hb]
  · intro kind
    exact shorthand_offsets content kind _ hpos hfit
  · rw [shorthand_offsets content _ _ hpos hfit, start_offset_line, start_offset_line]
    simp [nlEnd, take_nlEnd]
  · rw [shorthand_offsets content _ _ hpos hfit, start_offset_char, start_offset_char]
    simp [runeEnd]
  · exact runes_take_runeEnd _ _
  · intro h63
    rw [shorthand_offsets content _ _ hpos hfit, start_offset_byte content _ h63,
      start_offset_byte content 0 (by decide)]
    rw [Nat.zero_min, List.drop_zero]
    rcases Nat.le_total (digitsValue ds) content.length with h | h
    · rw [Nat.min_eq_left h]
    · rw [Nat.min_eq_right h, List.take_of_length_le (Nat.le_refl _), List.take_of_length_le h]

/-- Witness of C17 (amended): `main.go[10l]` parses like `main.go[1l:10l]`, and
the first two lines of a text of three lines. -/
theorem single_bound_shorthand_witness :
    parse_arg (fun _ => 0) (str "main.go[10l]") =
        .ok (str "main.go", ⟨.k_line, 1, false⟩, ⟨.k_line, 10, false⟩) ∧
      parse_arg (fun _ => 0) (str "main.go[1l:10l]") =
        .ok (str "main.go", ⟨.k_line, 1, false⟩, ⟨.k_line, 10, false⟩) ∧
      slice_content (str "a\nb\nc\n") ⟨.k_line, 1, false⟩ ⟨.k_line, 2, false⟩ false =
        str "a\nb\n" := by
  have h := single_bound_shorthand (fun _ => 0) (str "a\nb\nc\n") (str "main.go") (str "10")
    (by decide) (by decide) (by decide) (by decide) (by decide)
  have h2 := single_bound_shorthand (fun _ => 0) (str "a\nb\nc\n") (str "main.go") (str "2")
    (by decide) (by decide) (by decide) (by decide) (by decide)
  have hp := h.1 (str "l", Kind.k_line) (by decide)
  exact ⟨hp.1, hp.2, h2.2.2.2.1.trans (by decide)⟩

/-- Counterexample to C17 as stated: `f[5kb]` has the lower bound 1 byte, while
`f[1kb:5kb]` has the lower bound 1000 bytes; and with `-z` the bounds of `f[2l]`
select the second and third line of `a, b, c`, not the first two. -/
theorem shorthand_kb_and_zero_indexed :
    parse_arg (fun _ => 0) (str "f[5kb]") =
        .ok (str "f", ⟨.k_byte, 1, false⟩, ⟨.k_byte, 5000, false⟩) ∧
      parse_arg (fun _ => 0) (str "f[1kb:5kb]") =
        .ok (str "f", ⟨.k_byte, 1000, false⟩, ⟨.k_byte, 5000, false⟩) ∧
      parse_arg (fun _ => 0) (str "f[2l]") =
        .ok (str "f", ⟨.k_line, 1, false⟩, ⟨.k_line, 2, false⟩) ∧
      slice_content (str "a\nb\nc\n") ⟨.k_line, 1, false⟩ ⟨.k_line, 2, false⟩ true =
        str "b\nc\n" ∧
      ((splitAfterNL (str "a\nb\nc\n")).take 2).flatten = str "a\nb\n" := by
  refine ⟨by rfl, by rfl, by rfl, by decide, by decide⟩

/-! ## slice: input source -/

/-- C20. slice, input source: `read_source` as written returns the bytes of
standard input for every file name other than `-`, without reading the named
file, and calls `os.ReadFile` on the name `-` itself: the test `filename != "-"`
is the reverse of the documented one. -/
theorem read_source_inverted {ε : Type} (stdin : Bytes) (readFile : Bytes → Except ε Bytes) :
    (∀ filename : Bytes, filename ≠ str "-" →
        read_source stdin readFile filename = .ok stdin) ∧
      read_source stdin readFile (str "main.go") = .ok stdin ∧
      read_source stdin readFile (str "-") = readFile (str "-") := by
  refine ⟨?_, ?_, ?_⟩
  · intro filename h
    simp [read_source, h]
  · have h : str "main.go" ≠ str "-" := by decide
    simp [read_source, h]
  · simp [read_source]

/-! ## choice: weighted items -/

theorem parseItemsLoop_eq (args : List Bytes) :
    ∀ items : List item, parseItemsLoop args items = items ++ args.map parseItem := by
  induction args with
  | nil => intro items; simp [parseItemsLoop]
  | cons a rest ih => intro items; simp [parseItemsLoop, ih]

theorem parseItems_eq_map (args : List Bytes) : parseItems args = args.map parseItem := by
  unfold parseItems
  rw [parseItemsLoop_eq]
  rfl

theorem lastIndexByte_ge (sep : Nat) (s : Bytes) : -1 ≤ lastIndexByte sep s := by
  induction s with
  | nil => simp [lastIndexByte]
  | cons b rest ih =>
    unfold lastIndexByte
    split
    · omega
    · split <;> omega

theorem lastIndexByte_none (sep : Nat) (s : Bytes) (h : sep ∉ s) :
    lastIndexByte sep s = -1 := by
  induction s with
  | nil => rfl
  | cons b rest ih =>
    have hb : b ≠ sep := fun e => h (by simp [e])
    have hr := ih (fun e => h (List.mem_cons_of_mem _ e))
    unfold lastIndexByte
    rw [hr, if_neg (by omega), if_neg hb]

theorem lastIndexByte_append (sep : Nat) (v n : Bytes) (h : sep ∉ n) :
    lastIndexByte sep (v ++ sep :: n) = v.length := by
  induction v with
  | nil =>
    simp only [List.nil_append, List.length_nil, Nat.cast_zero]
    unfold lastIndexByte
    rw [lastIndexByte_none sep n h, if_neg (by omega), if_pos rfl]
  | cons b v ih =>
    rw [List.cons_append]
    unfold lastIndexByte
    rw [ih, if_pos (by omega)]
    simp

theorem lastIndexByte_cases (sep : Nat) (s : Bytes) :
    (sep ∉ s ∧ lastIndexByte sep s = -1) ∨
      ∃ v n, s = v ++ sep :: n ∧ sep ∉ n ∧ lastIndexByte sep s = v.length := by
  induction s with
  | nil => exact Or.inl ⟨by simp, rfl⟩
  | cons b rest ih =>
    rcases ih with ⟨hno, _⟩ | ⟨v, n, hs, hn, _⟩
    · by_cases hb : b = sep
      · subst hb
        exact Or.inr ⟨[], rest, rfl, hno, lastIndexByte_append b [] rest hno⟩
      · refine Or.inl ⟨?_, lastIndexByte_none _ _ ?_⟩
        · simp [hno, Ne.symm hb]
        · simp [hno, Ne.symm hb]
    · refine Or.inr ⟨b :: v, n, by rw [hs]; rfl, hn, ?_⟩
      rw [hs]
      exact lastIndexByte_append sep (b :: v) n hn

theorem parseItem_split (v n : Bytes) (hv : v ≠ []) (hn : 0x3A ∉ n) :
    parseItem (v ++ 0x3A :: n) =
      match atoi n with
      | some w => if w > 0 then ⟨v, w⟩ else ⟨v ++ 0x3A :: n, 1⟩
      | none => ⟨v ++ 0x3A :: n, 1⟩ := by
  have hlen : 0 < v.length := List.length_pos.2 hv
  unfold parseItem
  simp only [lastIndexByte_append _ v n hn]
  rw [if_pos (by omega)]
  have h1 : ((v.length : Int) + 1).toNat = v.length + 1 := by omega
  have h2 : ((v.length : Int)).toNat = v.length := by omega
  rw [h1, h2, List.take_left' rfl]
  have h3 : (v ++ 0x3A :: n).drop (v.length + 1) = n := by
    rw [show v ++ 0x3A :: n = (v ++ [0x3A]) ++ n from by simp]
    exact List.drop_left' (by simp)
  rw [h3]

theorem parseItem_no_split (a : Bytes) (h : lastIndexByte 0x3A a ≤ 0) :
    parseItem a = ⟨a, 1⟩ := by
  unfold parseItem
  simp only
  rw [if_neg (by omega)]

theorem parseUint_some (s : Bytes) (un : Nat) (h : parseUint s = some un) :
    s ≠ [] ∧ s.all isDigit = true ∧ un = digitsValue s ∧ un < 2 ^ 64 := by
  unfold parseUint at h
  split at h
  · exact absurd h (by simp)
  · rename_i hs
    split at h
    · rename_i hfit
      simp only [Option.some.injEq] at h
      simp only [not_or, Decidable.not_not] at hs
      exact ⟨hs.1, hs.2, h.symm, by rw [← h]; exact hfit⟩
    · exact absurd h (by simp)

theorem atoi_digits (ds : Bytes) (hne : ds ≠ []) (hds : ds.all isDigit = true)
    (hfit : digitsValue ds < 2 ^ 63) :
    atoi ds = some (digitsValue ds : Int) ∧ atoi (0x2B :: ds) = some (digitsValue ds : Int) := by
  refine ⟨parseInt_digits ds hne hds hfit, ?_⟩
  unfold atoi parseInt
  simp only [if_true]
  rw [parseUint_digits ds hne hds (by omega)]
  simp only [hfit, if_true]

theorem atoi_pos (n : Bytes) (w : Int) (h : atoi n = some w) (hw : 0 < w) :
    ∃ ds : Bytes, (n = ds ∨ n = 0x2B :: ds) ∧ ds ≠ [] ∧ ds.all isDigit = true ∧
      0 < digitsValue ds ∧ digitsValue ds < 2 ^ 63 ∧ w = digitsValue ds := by
  unfold atoi parseInt at h
  rcases n with _ | ⟨c, t⟩
  · exact absurd h (by simp)
  · simp only at h
    split at h
    · rename_i hc
      rcases hu : parseUint t with _ | un
      · rw [hu] at h
        exact absurd h (by simp)
      · rw [hu] at h
        obtain ⟨h1, h2, h3, _⟩ := parseUint_some t un hu
        simp only at h
        split at h
        · simp only [Option.some.injEq] at h
          refine ⟨t, Or.inr (by rw [hc]), h1, h2, ?_, ?_, ?_⟩ <;> omega
        · exact absurd h (by simp)
    · split at h
      · rcases hu : parseUint t with _ | un
        · rw [hu] at h
          exact absurd h (by simp)
        · rw [hu] at h
          simp only at h
          split at h
          · simp only [Option.some.injEq] at h
            omega
          · exact absurd h (by simp)
      · rcases hu : parseUint (c :: t) with _ | un
        · rw [hu] at h
          exact absurd h (by simp)
        · rw [hu] at h
          obtain ⟨h1, h2, h3, _⟩ := parseUint_some (c :: t) un hu
          simp only at h
          split at h
          · simp only [Option.some.injEq] at h
            refine ⟨c :: t, Or.inl rfl, h1, h2, ?_, ?_, ?_⟩ <;> omega
          · exact absurd h (by simp)

theorem parseItem_weight (a : Bytes) : 1 ≤ (parseItem a).weight := by
  unfold parseItem
  simp only
  split
  · split
    · split
      · simp only
        omega
      · simp
    · simp
  · simp

/-! ## choice: unique picks -/

theorem mem_expandWeights (items : List item) (x : Bytes) :
    x ∈ expandWeights items ↔ ∃ it ∈ items, 0 < it.weight ∧ it.value = x := by
  induction items with
  | nil => simp [expandWeights]
  | cons it rest ih =>
    simp only [expandWeights, List.mem_append, List.mem_replicate, ih, List.mem_cons,
      exists_eq_or_imp]
    constructor
    · rintro (⟨h1, h2⟩ | h)
      · exact Or.inl ⟨by omega, h2.symm⟩
      · exact Or.inr h
    · rintro (⟨h1, h2⟩ | h)
      · exact Or.inl ⟨by omega, h2.symm⟩
      · exact Or.inr h

theorem mem_applyExcludes (excludes : List Bytes) (items : List item) (it : item)
    (h : it ∈ applyExcludes excludes items) : it ∈ items := by
  unfold applyExcludes at h
  split at h
  · exact (List.mem_filter.1 h).1
  · exact h

theorem toFinset_expandWeights (items : List item) (hw : ∀ it ∈ items, 1 ≤ it.weight) :
    (expandWeights items).toFinset = (items.map item.value).toFinset := by
  ext x
  simp only [List.mem_toFinset, mem_expandWeights, List.mem_map]
  constructor
  · rintro ⟨it, h1, _, h3⟩
    exact ⟨it, h1, h3⟩
  · rintro ⟨it, h1, h3⟩
    exact ⟨it, h1, by have := hw it h1; omega, h3⟩

theorem card_insert_sdiff (v : Bytes) (R S : Finset Bytes) (hv : v ∉ S) :
    ((insert v R) \ S).card = 1 + (R \ insert v S).card := by
  rw [Finset.insert_sdiff_of_not_mem _ hv, Finset.sdiff_insert]
  by_cases h : v ∈ R \ S
  · rw [Finset.insert_eq_of_mem h, Finset.card_erase_of_mem h]
    have := Finset.card_pos.2 ⟨v, h⟩
    omega
  · rw [Finset.card_insert_of_not_mem h, Finset.erase_eq_of_not_mem h]
    omega

theorem uniqueLoop_spec (K : Int) :
    ∀ (pool seen result : List Bytes), (∀ x, x ∈ seen ↔ x ∈ result) → result.Nodup →
      (result.length : Int) < K →
      (uniqueLoop K pool seen result).Nodup ∧
        (∀ x ∈ uniqueLoop K pool seen result, x ∈ result ∨ x ∈ pool) ∧
        ((uniqueLoop K pool seen result).length : Int) =
          min K (result.length + ((pool.toFinset \ seen.toFinset).card : Nat)) := by
  intro pool
  induction pool with
  | nil =>
    intro seen result _ hnd hlt
    refine ⟨hnd, fun x hx => Or.inl hx, ?_⟩
    simp only [uniqueLoop, List.toFinset_nil, Finset.empty_sdiff, Finset.card_empty]
    omega
  | cons v rest ih =>
    intro seen result hseen hnd hlt
    by_cases hv : v ∈ seen
    · have hstep : uniqueLoop K (v :: rest) seen result = uniqueLoop K rest seen result := by
        rw [uniqueLoop, if_neg (not_not.2 hv), if_neg (by omega)]
      obtain ⟨h1, h2, h3⟩ := ih seen result hseen hnd hlt
      rw [hstep]
      refine ⟨h1, ?_, ?_⟩
      · intro x hx
        rcases h2 x hx with h | h
        · exact Or.inl h
        · exact Or.inr (List.mem_cons_of_mem _ h)
      · rw [h3, List.toFinset_cons, Finset.insert_sdiff_of_mem _ (List.mem_toFinset.2 hv)]
    · have hvr : v ∉ result := fun h => hv ((hseen v).2 h)
      have hnd2 : (result ++ [v]).Nodup := by
        rw [List.nodup_append]
        refine ⟨hnd, List.nodup_singleton v, ?_⟩
        intro a ha hb
        rw [List.mem_singleton] at hb
        exact hvr (hb ▸ ha)
      have hcard := card_insert_sdiff v rest.toFinset seen.toFinset
        (fun h => hv (List.mem_toFinset.1 h))
      by_cases hK : ((result ++ [v]).length : Int) = K
      · have hstep : uniqueLoop K (v :: rest) seen result = result ++ [v] := by
          rw [uniqueLoop, if_pos hv, if_pos hK]
        rw [hstep]
        refine ⟨hnd2, ?_, ?_⟩
        · intro x hx
          rcases List.mem_append.1 hx with h | h
          · exact Or.inl h
          · exact Or.inr (by rw [List.mem_singleton.1 h]; exact List.mem_cons_self _ _)
        · rw [List.toFinset_cons, hcard]
          simp only [List.length_append, List.length_singleton, Nat.cast_add, Nat.cast_one] at hK ⊢
          omega
      · have hstep : uniqueLoop K (v :: rest) seen result =
            uniqueLoop K rest (v :: seen) (result ++ [v]) := by
          rw [uniqueLoop, if_pos hv, if_neg hK]
        have hseen2 : ∀ x, x ∈ v :: seen ↔ x ∈ result ++ [v] := by
          intro x
          rw [List.mem_cons, List.mem_append, List.mem_singleton, hseen x]
          exact Or.comm
        have hlt2 : ((result ++ [v]).length : Int) < K := by
          simp only [List.length_append, List.length_singleton, Nat.cast_add, Nat.cast_one] at hK ⊢
          omega
        obtain ⟨h1, h2, h3⟩ := ih (v :: seen) (result ++ [v]) hseen2 hnd2 hlt2
        rw [hstep]
        refine ⟨h1, ?_, ?_⟩
        · intro x hx
          rcases h2 x hx with h | h
          · rcases List.mem_append.1 h with h | h
            · exact Or.inl h
            · exact Or.inr (by rw [List.mem_singleton.1 h]; exact List.mem_cons_self _ _)
          · exact Or.inr (List.mem_cons_of_mem _ h)
        · rw [h3, List.toFinset_cons, List.toFinset_cons, hcard]
          simp only [List.length_append, List.length_singleton, Nat.cast_add, Nat.cast_one]
          omega

theorem uniqueLoop_start (K : Int) (pool : List Bytes) (h1 : 1 ≤ K) :
    (uniqueLoop K pool [] []).Nodup ∧
      (∀ x ∈ uniqueLoop K pool [] [], x ∈ pool) ∧
      ((uniqueLoop K pool [] []).length : Int) = min K (pool.dedup.length : Nat) := by
  obtain ⟨h2, h3, h4⟩ := uniqueLoop_spec K pool [] [] (fun x => Iff.rfl) List.nodup_nil
    (by simp only [List.length_nil, Nat.cast_zero]; omega)
  refine ⟨h2, ?_, ?_⟩
  · intro x hx
    rcases h3 x hx with h | h
    · exact absurd h (List.not_mem_nil _)
    · exact h
  · rw [h4, List.toFinset_nil, Finset.sdiff_empty, List.card_toFinset]
    simp

theorem applyExcludes_weight (args excludes : List Bytes) :
    ∀ it ∈ applyExcludes excludes (parseItems args), 1 ≤ it.weight := by
  intro it hit
  have := mem_applyExcludes excludes _ it hit
  rw [parseItems_eq_map] at this
  obtain ⟨a, _, rfl⟩ := List.mem_map.1 this
  exact parseItem_weight a

theorem pool_dedup_length (shuffle : List Bytes → List Bytes)
    (hshuffle : ∀ l, (shuffle l).Perm l) (items : List item)
    (hw : ∀ it ∈ items, 1 ≤ it.weight) :
    (shuffle (expandWeights items)).dedup.length = (items.map item.value).dedup.length := by
  rw [← List.card_toFinset, ← List.card_toFinset,
    List.toFinset_eq_of_perm _ _ (hshuffle (expandWeights items)), toFinset_expandWeights items hw]

/-- Where the choices (after excludes) hold at least `K` distinct values, the
`-nu K` procedure does what its usage text says: for every `K ≥ 1` and every
outcome of the shuffle of the weighted pool it outputs exactly `K` items, no two
of them equal, each the value of a choice. -/
theorem pickUnique_distinct (shuffle : List Bytes → List Bytes)
    (hshuffle : ∀ l, (shuffle l).Perm l) (args excludes : List Bytes) (K : Int) (h1 : 1 ≤ K)
    (hK : K ≤ ((((applyExcludes excludes (parseItems args)).map item.value).dedup).length : Nat)) :
    ∃ result, pickUnique shuffle (applyExcludes excludes (parseItems args)) K = some result ∧
      (result.length : Int) = K ∧ result.Nodup ∧
      ∀ x ∈ result, x ∈ (applyExcludes excludes (parseItems args)).map item.value := by
  have hw := applyExcludes_weight args excludes
  generalize applyExcludes excludes (parseItems args) = items at hK hw ⊢
  have hlen : (items.map item.value).dedup.length ≤ items.length := by
    have := (List.dedup_sublist (items.map item.value)).length_le
    rwa [List.length_map] at this
  obtain ⟨h2, h3, h4⟩ := uniqueLoop_start K (shuffle (expandWeights items)) h1
  refine ⟨uniqueLoop K (shuffle (expandWeights items)) [] [], ?_, ?_, h2, ?_⟩
  · unfold pickUnique
    rw [if_neg (by omega)]
  · rw [h4, pool_dedup_length shuffle hshuffle items hw]
    omega
  · intro x hx
    have hx2 := (hshuffle _).subset (h3 x hx)
    obtain ⟨it, hit, _, hv⟩ := (mem_expandWeights items x).1 hx2
    exact List.mem_map.2 ⟨it, hit, hv⟩

/-- Example of `pickUnique_distinct`: the choices `a:2 b c` without `c` have two
distinct values; with the pool `a a b` reversed, `-nu 2` prints `b` and `a`. -/
theorem pickUnique_distinct_witness :
    pickUnique List.reverse (applyExcludes [str "c"] (parseItems [str "a:2", str "b", str "c"])) 2 =
        some [str "b", str "a"] ∧
      ∃ result, pickUnique List.reverse
          (applyExcludes [str "c"] (parseItems [str "a:2", str "b", str "c"])) 2 = some result ∧
        (result.length : Int) = 2 ∧ result.Nodup ∧
        ∀ x ∈ result, x ∈ (applyExcludes [str "c"]
          (parseItems [str "a:2", str "b", str "c"])).map item.value :=
  ⟨by decide, pickUnique_distinct List.reverse (fun l => List.reverse_perm l)
    [str "a:2", str "b", str "c"] [str "c"] 2 (by decide) (by decide)⟩

/-- C21. choice, unique picks: the code at `choice -nu 2 a a`.  The choices
`a a` are two items, so `K = 2` passes the test `pickN > len(items)` behind the
message `not enough unique choices`; the pool is `a a`, and for every outcome of
the shuffle the loop ends with the pool after the one item `a`: one item is
printed, not two.  On the sibling input `-nu 3 a b` the same test does stop the
program. -/
theorem pickUnique_duplicates :
    (applyExcludes [] (parseItems [str "a", str "a"])).length = 2 ∧
      expandWeights (applyExcludes [] (parseItems [str "a", str "a"])) = [str "a", str "a"] ∧
      pickUnique id (applyExcludes [] (parseItems [str "a", str "a"])) 2 = some [str "a"] ∧
      (∀ shuffle : List Bytes → List Bytes, (∀ l, (shuffle l).Perm l) →
        pickUnique shuffle (applyExcludes [] (parseItems [str "a", str "a"])) 2 =
          some [str "a"]) ∧
      ∀ shuffle : List Bytes → List Bytes,
        pickUnique shuffle (applyExcludes [] (parseItems [str "a", str "b"])) 3 = none := by
  refine ⟨by decide, by decide, by decide, ?_, ?_⟩
  · intro shuffle hshuffle
    have hpool : expandWeights (applyExcludes [] (parseItems [str "a", str "a"])) =
        List.replicate 2 (str "a") := by decide
    have hs : shuffle (List.replicate 2 (str "a")) = List.replicate 2 (str "a") :=
      List.perm_replicate.1 (hshuffle _)
    unfold pickUnique
    rw [hpool, hs]
    decide
  · intro shuffle
    have hlen : (applyExcludes [] (parseItems [str "a", str "b"])).length = 2 := by decide
    unfold pickUnique
    rw [hlen, if_pos (by decide)]

/-- C22 (amended). choice, weighted items: `parseItems` returns one item per
argument, in order (the item `parseItem a` of the loop body for the argument
`a`); an argument `v:N`, with `v` non-empty and `N` decimal digits, optionally
preceded by `+`, of a value with `0 < N < 2^63`, becomes the value `v` with the
weight `N`; every argument that is not of this form becomes itself with the
weight 1; hence every weight is at least 1. -/
theorem parseItems_weights (args : List Bytes) :
    parseItems args = args.map parseItem ∧
      (∀ v ds : Bytes, v ≠ [] → ds ≠ [] → ds.all isDigit = true → 0 < digitsValue ds →
        digitsValue ds < 2 ^ 63 →
        parseItem (v ++ 0x3A :: ds) = ⟨v, digitsValue ds⟩ ∧
          parseItem (v ++ 0x3A :: 0x2B :: ds) = ⟨v, digitsValue ds⟩) ∧
      (∀ a : Bytes,
        (¬ ∃ v ds : Bytes, v ≠ [] ∧ ds ≠ [] ∧ ds.all isDigit = true ∧ 0 < digitsValue ds ∧
          digitsValue ds < 2 ^ 63 ∧ (a = v ++ 0x3A :: ds ∨ a = v ++ 0x3A :: 0x2B :: ds)) →
        parseItem a = ⟨a, 1⟩) ∧
      ∀ it ∈ parseItems args, 1 ≤ it.weight := by
  refine ⟨parseItems_eq_map args, ?_, ?_, ?_⟩
  · intro v ds hv hne hds hpos hfit
    have hcol := digits_no_colon ds hds
    have hcol2 : 0x3A ∉ 0x2B :: ds := by
      intro h
      rcases List.mem_cons.1 h with h | h
      · exact absurd h (by decide)
      · exact hcol h
    obtain ⟨h1, h2⟩ := atoi_digits ds hne hds hfit
    have hw : (digitsValue ds : Int) > 0 := by omega
    rw [parseItem_split v ds hv hcol, parseItem_split v _ hv hcol2, h1, h2]
    simp only [hw, if_true, and_self]
  · intro a hform
    rcases lastIndexByte_cases 0x3A a with ⟨_, hidx⟩ | ⟨v, n, ha, hn, hidx⟩
    · exact parseItem_no_split a (by omega)
    · by_cases hv : v = []
      · subst hv
        exact parseItem_no_split a (by rw [hidx]; simp)
      · rw [ha, parseItem_split v n hv hn]
        rcases hw : atoi n with _ | w
        · rfl
        · simp only
          by_cases hpos : w > 0
          · exfalso
            obtain ⟨ds, hds, h1, h2, h3, h4, _⟩ := atoi_pos n w hw hpos
            refine hform ⟨v, ds, hv, h1, h2, h3, h4, ?_⟩
            rcases hds with e | e
            · exact Or.inl (by rw [ha, e])
            · exact Or.inr (by rw [ha, e])
          · rw [if_neg hpos]
  · intro it hit
    rw [parseItems_eq_map] at hit
    obtain ⟨a, _, rfl⟩ := List.mem_map.1 hit
    exact parseItem_weight a

/-- Witness of C22 (amended): `http://foo:3` is the value `http://foo` with the
weight 3, and `a` and `b:0` are themselves with the weight 1. -/
theorem parseItems_weights_witness :
    parseItems [str "http://foo:3", str "a", str "b:0"] =
        [⟨str "http://foo", 3⟩, ⟨str "a", 1⟩, ⟨str "b:0", 1⟩] ∧
      parseItem (str "http://foo" ++ 0x3A :: str "3") = ⟨str "http://foo", 3⟩ := by
  have h := parseItems_weights [str "http://foo:3", str "a", str "b:0"]
  refine ⟨h.1.trans (by decide), ?_⟩
  exact (h.2.1 (str "http://foo") (str "3") (by decide) (by decide) (by decide) (by decide)
    (by decide)).1

/-- Counterexample to C22 as stated: in `a:9223372036854775808` the text after
the colon is a decimal integer greater than 0, but it does not fit in `int`, so
the argument becomes itself with the weight 1. -/
theorem parseItems_weight_out_of_range :
    parseItems [str "a:9223372036854775808"] = [⟨str "a:9223372036854775808", 1⟩] ∧
      0 < digitsValue (str "9223372036854775808") ∧
      parseItems [str "a:9223372036854775807"] = [⟨str "a", 9223372036854775807⟩] := by
  refine ⟨by decide, by decide, by decide⟩

/-! ## new: fan-out of a permission bit -/

theorem lower_letter (f : Nat) (i : Fin 3) (h : f ||| 0x20 = letters i) :
    (f = letters i ∨ f = letters i - 0x20) ∧
      state f = if f = letters i then BitState.On else BitState.Off := by
  have hle : f ≤ letters i := h ▸ le_lor_left f 0x20
  have key : ∀ g, g < 121 → ∀ j : Fin 3, g ||| 0x20 = letters j →
      (g = letters j ∨ g = letters j - 0x20) ∧
        state g = if g = letters j then BitState.On else BitState.Off := by
    decide
  have hi : letters i ≤ 0x78 := by
    fin_cases i <;> decide
  exact key f (by omega) i h

theorem flagLoop_step (f : Nat) (rest : List Nat) (req : Request) (n : Nat → Nat)
    (r : Request × (Nat → Nat)) (h : flagLoop (f :: rest) req n = .ok r) :
    ∃ req1 : Request,
      flagLoop rest req1 (Function.update n (f ||| 0x20) (n (f ||| 0x20) + 1)) = .ok r ∧
        n (f ||| 0x20) < 3 ∧
        ∀ i c : Fin 3, (fields i).get (req1.perms c) =
          if f ||| 0x20 = letters i ∧ c.val = n (f ||| 0x20) then state f
          else (fields i).get (req.perms c) := by
  simp only [flagLoop] at h
  split_ifs at h with h0 h1 h2 h3 h4
  all_goals
    refine ⟨_, h, by omega, ?_⟩
    clear h
    intro i c
    by_cases hc : c.val = n (f ||| 0x20)
    · have hk : ∀ p : n (f ||| 0x20) < 3, (⟨n (f ||| 0x20), p⟩ : Fin 3) = c :=
        fun p => Fin.ext hc.symm
      simp only [hk, Function.update_apply, if_true, hc, and_true]
      fin_cases i <;> simp_all [fields, letters]
    · simp only [Function.update_apply, Fin.ext_iff, hc, if_false, and_false]

theorem flagLoop_count (l : Nat) :
    ∀ (rs : List Nat) (req : Request) (n : Nat → Nat) (r : Request × (Nat → Nat)),
      flagLoop rs req n = .ok r →
      r.2 l = n l + (rs.filter (fun f => f ||| 0x20 = l)).length := by
  intro rs
  induction rs with
  | nil =>
    intro req n r h
    simp only [flagLoop, Except.ok.injEq] at h
    rw [← h]
    simp
  | cons f rest ih =>
    intro req n r h
    obtain ⟨req1, h1, _, _⟩ := flagLoop_step f rest req n r h
    rw [ih req1 _ r h1, Function.update_apply, List.filter_cons]
    by_cases hl : f ||| 0x20 = l
    · simp only [hl, if_true, decide_True, List.length_cons]
      omega
    · have hl2 : ¬ l = f ||| 0x20 := fun e => hl e.symm
      simp only [hl, hl2, if_false, decide_False]
      simp

theorem flagLoop_keep (i : Fin 3) :
    ∀ (rs : List Nat) (req : Request) (n : Nat → Nat) (r : Request × (Nat → Nat)),
      flagLoop rs req n = .ok r → 1 ≤ n (letters i) →
      (fields i).get (r.1.perms 0) = (fields i).get (req.perms 0) := by
  intro rs
  induction rs with
  | nil =>
    intro req n r h _
    simp only [flagLoop, Except.ok.injEq] at h
    rw [← h]
  | cons f rest ih =>
    intro req n r h hn
    obtain ⟨req1, h1, _, h3⟩ := flagLoop_step f rest req n r h
    rw [ih req1 _ r h1 (by rw [Function.update_apply]; split <;> omega), h3 i 0, if_neg]
    rintro ⟨e, hz⟩
    rw [e] at hz
    simp only [Fin.val_zero] at hz
    omega

theorem flagLoop_first (i : Fin 3) (g : Nat) :
    ∀ (rs : List Nat) (req : Request) (n : Nat → Nat) (r : Request × (Nat → Nat)),
      flagLoop rs req n = .ok r → n (letters i) = 0 →
      rs.filter (fun f => f ||| 0x20 = letters i) = [g] →
      (fields i).get (r.1.perms 0) = state g := by
  intro rs
  induction rs with
  | nil =>
    intro req n r _ _ hf
    exact absurd hf (by simp)
  | cons f rest ih =>
    intro req n r h hn hf
    obtain ⟨req1, h1, _, h3⟩ := flagLoop_step f rest req n r h
    by_cases hl : f ||| 0x20 = letters i
    · rw [List.filter_cons, if_pos (by simpa using hl)] at hf
      have hfg : f = g := (List.cons.inj hf).1
      rw [flagLoop_keep i rest req1 _ r h1 (by rw [hl, Function.update_same]; omega), h3 i 0,
        if_pos ⟨hl, by rw [hl, hn]; rfl⟩, hfg]
    · rw [List.filter_cons, if_neg (by simpa using hl)] at hf
      exact ih req1 _ r h1
        (by rw [Function.update_noteq (fun e => hl e.symm)]; exact hn) hf

theorem flagLoop_ok :
    ∀ (rs : List Nat) (req : Request) (n : Nat → Nat),
      (∀ f ∈ rs, f ||| 0x20 ∈ [0x72, 0x77, 0x78, 0x6F]) →
      (∀ l : Nat, n l + (rs.filter (fun f => f ||| 0x20 = l)).length ≤ 3) →
      ∃ r, flagLoop rs req n = .ok r := by
  intro rs
  induction rs with
  | nil => intro req n _ _; exact ⟨(req, n), rfl⟩
  | cons f rest ih =>
    intro req n hknown hmax
    have hlt : ¬ n (f ||| 0x20) ≥ 3 := by
      have := hmax (f ||| 0x20)
      rw [List.filter_cons, if_pos (by simp)] at this
      simp only [List.length_cons] at this
      omega
    have hrest : ∀ g ∈ rest, g ||| 0x20 ∈ [0x72, 0x77, 0x78, 0x6F] :=
      fun g hg => hknown g (List.mem_cons_of_mem _ hg)
    have hmax2 : ∀ l : Nat, Function.update n (f ||| 0x20) (n (f ||| 0x20) + 1) l +
        (rest.filter (fun g => g ||| 0x20 = l)).length ≤ 3 := by
      intro l
      have := hmax l
      rw [List.filter_cons] at this
      rw [Function.update_apply]
      by_cases hl : f ||| 0x20 = l
      · rw [if_pos (by simpa using hl)] at this
        simp only [List.length_cons] at this
        rw [if_pos hl.symm, hl]
        omega
      · rw [if_neg (by simpa using hl)] at this
        rw [if_neg (fun e => hl e.symm)]
        exact this
    have hf := hknown f (List.mem_cons_self _ _)
    simp only [List.mem_cons, List.mem_singleton, List.not_mem_nil, or_false] at hf
    simp only [flagLoop]
    rw [dif_neg hlt]
    split_ifs with h1 h2 h3 h4
    · exact ih _ _ hrest hmax2
    · exact ih _ _ hrest hmax2
    · exact ih _ _ hrest hmax2
    · exact ih _ _ hrest hmax2
    · omega

theorem fanOut_get (n : Nat → Nat) (perms : Fin 3 → Perms) (i c : Fin 3)
    (h : n (letters i) = 1) :
    (fields i).get (fanOut n perms c) = (fields i).get (perms 0) := by
  unfold fanOut
  simp only [List.foldl]
  by_cases h0 : n (letters 0) = 1 <;> by_cases h1 : n (letters 1) = 1 <;>
    by_cases h2 : n (letters 2) = 1 <;> fin_cases i <;> fin_cases c <;>
    simp_all [fields, Function.update_apply]

/-- C23. new, fan-out: a flag made of the letters `r`, `w`, `x`, `o` in either
case, each at most 3 times, is accepted by `parse_flag`; and whenever
`parse_flag` accepts a flag in which a letter `r`, `w` or `x` (either case)
occurs exactly once, that bit has the same state in all three classes: `On` for
the lowercase letter, `Off` for the uppercase one.  With the base mode 0, `-rwx`
yields 0777, `-rw` yields 0666 and `-x` yields 0111. -/
theorem parse_flag_fan_out (req : Request) (body : Bytes) :
    ((∀ f ∈ runes body, f ||| 0x20 ∈ [0x72, 0x77, 0x78, 0x6F]) →
        (∀ l : Nat, ((runes body).filter (fun f => f ||| 0x20 = l)).length ≤ 3) →
        ∃ req1, parse_flag req (0x2D :: body) = .ok req1) ∧
      (∀ req1, parse_flag req (0x2D :: body) = .ok req1 →
        ∀ (i : Fin 3) (f : Nat),
          (runes body).filter (fun g => g ||| 0x20 = letters i) = [f] →
          (f = letters i ∨ f = letters i - 0x20) ∧
            ∀ c : Fin 3,
              (fields i).get (req1.perms c) = if f = letters i then .On else .Off) ∧
      (parse_flag emptyRequest (str "-rwx")).toOption.map (fun r => apply_perms 0 r.perms) =
        some 0o777 ∧
      (parse_flag emptyRequest (str "-rw")).toOption.map (fun r => apply_perms 0 r.perms) =
        some 0o666 ∧
      (parse_flag emptyRequest (str "-x")).toOption.map (fun r => apply_perms 0 r.perms) =
        some 0o111 := by
  refine ⟨?_, ?_, by decide, by decide, by decide⟩
  · intro hknown hmax
    obtain ⟨r, hr⟩ := flagLoop_ok (runes body) req (fun _ => 0) hknown
      (fun l => by rw [Nat.zero_add]; exact hmax l)
    refine ⟨⟨r.1.name, r.1.is_dir, fanOut r.2 r.1.perms, r.1.overwrite, true⟩, ?_⟩
    unfold parse_flag
    rw [List.drop_succ_cons, List.drop_zero, hr]
  · intro req1 h i f hf
    unfold parse_flag at h
    rw [List.drop_succ_cons, List.drop_zero] at h
    rcases hr : flagLoop (runes body) req (fun _ => 0) with e | r
    · rw [hr] at h
      exact absurd h (by simp)
    · rw [hr] at h
      simp only [Except.ok.injEq] at h
      have hmem : f ∈ (runes body).filter (fun g => g ||| 0x20 = letters i) := by
        rw [hf]
        exact List.mem_singleton_self f
      have hlow : f ||| 0x20 = letters i := by
        simpa using (List.mem_filter.1 hmem).2
      have hcount := flagLoop_count (letters i) (runes body) req (fun _ => 0) r hr
      rw [hf] at hcount
      have hfirst := flagLoop_first i f (runes body) req (fun _ => 0) r hr rfl hf
      obtain ⟨h1, h2⟩ := lower_letter f i hlow
      refine ⟨h1, ?_⟩
      intro c
      rw [← h]
      simp only
      rw [fanOut_get r.2 r.1.perms i c (by simpa using hcount), hfirst, h2]

/-- Example for C23: `-rwxRWxrwx` is accepted and with the base mode 0 it yields
`rwx--xrwx`; `-X` on the mode 0777 yields 0666; and in `-Xr` the one `X` turns
the execute bit off in all three classes, while `-rq` is refused. -/
theorem parse_flag_fan_out_witness :
    (parse_flag emptyRequest (str "-rwxRWxrwx")).toOption.map
        (fun r => apply_perms 0 r.perms) = some 0o717 ∧
      (parse_flag emptyRequest (str "-X")).toOption.map
        (fun r => apply_perms 0o777 r.perms) = some 0o666 ∧
      (parse_flag emptyRequest (str "-rq")).toOption.map
        (fun r => apply_perms 0 r.perms) = none ∧
      ∃ req1, parse_flag emptyRequest (0x2D :: str "Xr") = .ok req1 ∧
        ∀ c : Fin 3, (req1.perms c).execute = .Off := by
  refine ⟨by decide, by decide, by decide, ?_⟩
  have h := parse_flag_fan_out emptyRequest (str "Xr")
  obtain ⟨req1, h1⟩ := h.1 (by decide)
    (fun l => le_trans (List.length_filter_le _ _) (by decide))
  refine ⟨req1, h1, ?_⟩
  intro c
  exact ((h.2.1 req1 h1 2 0x58 (by decide)).2 c).trans (by decide)

end Gills
